import Mathlib

/-!
# helm_values_encode: normalising and pruning Terraform values

A shallow embedding of `function_helm_values_encode.go`
(`HelmValuesEncodeFunction.Run`, `dynamicToGoValue`, `attrValueToGoValue`,
`removeNullsAndEmpty`) together with the parts of the libraries it calls
(`math/big.Float`, the `attr.Value` types of terraform-plugin-framework),
followed by theorems about them.

Go maps are embedded as association lists listed in iteration order; the
assignment `result[key] = val` is `mapSet`, which overwrites an existing key
and otherwise adds the pair.  A Go map never holds a key twice, which is the
predicate `GoValue.WF` (and `uniqueKeys`).
-/

namespace HelmValuesEncode

/-! ## math/big: arbitrary-precision floats and float64 -/

/-- Accuracy of a converted number, as in `math/big`: `Below` is -1, `Exact` is 0
(the value the Go code compares `accuracy` with), `Above` is +1. -/
inductive Accuracy where
  | Below
  | Exact
  | Above
deriving DecidableEq

/-- The three forms of a `big.Float` (and of a float64 other than NaN). -/
inductive Form where
  | zero
  | finite
  | inf
deriving DecidableEq

/-- A `*big.Float` that is not the nil pointer.  A `finite` one denotes
`(-1)^neg * mant * 2^exp` with an integer mantissa `mant`; a zero mantissa is
read as the value zero.  `zero` and `inf` carry a sign only. -/
structure BigFloat where
  neg : Bool
  form : Form
  mant : Nat
  exp : Int
deriving DecidableEq

/-- A Go `float64` other than NaN, written like a `BigFloat`: a finite one denotes
`(-1)^neg * mant * 2^exp`. -/
structure Float64 where
  neg : Bool
  form : Form
  mant : Nat
  exp : Int
deriving DecidableEq

/-- The binary64 format: a finite non-zero value has a mantissa of at most 53 bits
and an exponent of the last mantissa bit between -1074 and 971. -/
def Float64.valid (f : Float64) : Bool :=
  match f.form with
  | .finite => decide (0 < f.mant) && decide (f.mant < 2 ^ 53) &&
      decide (-1074 ≤ f.exp) && decide (f.exp ≤ 971)
  | _ => true

/-- The mathematical value of a number: an exact rational or an infinity. -/
inductive NumVal where
  | negInf
  | fin (q : ℚ)
  | posInf

/-- The rational `(-1)^neg * mant * 2^exp`. -/
def dyadic (neg : Bool) (mant : Nat) (exp : Int) : ℚ :=
  (if neg then -1 else 1) * (mant : ℚ) * (2 : ℚ) ^ exp

/-- The value a `big.Float` denotes (both zeros denote 0). -/
def BigFloat.value (x : BigFloat) : NumVal :=
  match x.form with
  | .zero => .fin 0
  | .finite => .fin (dyadic x.neg x.mant x.exp)
  | .inf => if x.neg then .negInf else .posInf

/-- The value a float64 denotes (both zeros denote 0). -/
def Float64.value (f : Float64) : NumVal :=
  match f.form with
  | .zero => .fin 0
  | .finite => .fin (dyadic f.neg f.mant f.exp)
  | .inf => if f.neg then .negInf else .posInf

/-- Smallest int64, `math.MinInt64`. -/
def MinInt64 : Int := -(2 ^ 63)

/-- Largest int64, `math.MaxInt64`. -/
def MaxInt64 : Int := 2 ^ 63 - 1

/-- `(*big.Float).IsInt`: whether x is an integer; infinities are not. -/
def BigFloat.IsInt (x : BigFloat) : Bool :=
  match x.form with
  | .zero => true
  | .inf => false
  | .finite => x.mant % 2 ^ (-x.exp).toNat == 0

/-- The magnitude of a finite x truncated towards zero. -/
def BigFloat.truncAbs (x : BigFloat) : Nat :=
  x.mant * 2 ^ x.exp.toNat / 2 ^ (-x.exp).toNat

/-- `(*big.Float).Int64`: x truncated towards zero, `Exact` when x is an integer
between `MinInt64` and `MaxInt64`; `(MinInt64, Above)` below the range and
`(MaxInt64, Below)` above it. -/
def BigFloat.Int64 (x : BigFloat) : Int × Accuracy :=
  match x.form with
  | .zero => (0, .Exact)
  | .inf => if x.neg then (MinInt64, .Above) else (MaxInt64, .Below)
  | .finite =>
    let t : Int := if x.neg then -(x.truncAbs : Int) else (x.truncAbs : Int)
    if t < MinInt64 then (MinInt64, .Above)
    else if MaxInt64 < t then (MaxInt64, .Below)
    else if x.IsInt then (t, .Exact)
    else (t, if x.neg then .Above else .Below)

/-- The quotient `m / 2^s` rounded to the nearest integer, ties to even. -/
def roundHalfEven (m s : Nat) : Nat :=
  let q := m / 2 ^ s
  let r := m % 2 ^ s
  if 2 * r < 2 ^ s then q
  else if 2 ^ s < 2 * r then q + 1
  else if q % 2 = 0 then q else q + 1

/-- The bit length of `n`, counted by halving `n` until it is zero; `fuel` bounds
the number of halvings. -/
def bitLen.go : Nat → Nat → Nat
  | 0, _ => 0
  | fuel + 1, n => if n = 0 then 0 else bitLen.go fuel (n / 2) + 1

/-- The number of bits of `n`: the least `l` with `n < 2^l`. -/
def bitLen (n : Nat) : Nat := bitLen.go n n

/-- The weight `2^k` of the last mantissa bit of the float64 nearest to a finite
non-zero x: 52 places below the leading bit of x (a 53-bit mantissa), but not
below `2^-1074`, the last bit of a denormal. -/
def BigFloat.lastBit (x : BigFloat) : Int :=
  max (x.exp + (bitLen x.mant : Int) - 1 - 52) (-1074)

/-- The mantissa of x written with the exponent `min x.exp x.lastBit`. -/
def BigFloat.scaled (x : BigFloat) : Nat :=
  x.mant * 2 ^ (x.exp - x.lastBit).toNat

/-- The magnitude of x in units of `2^x.lastBit`, rounded to nearest even. -/
def BigFloat.rounded (x : BigFloat) : Nat :=
  roundHalfEven x.scaled (x.lastBit - x.exp).toNat

/-- Whether the rounded magnitude, with the sign of x, is below, equal to or above
x. -/
def BigFloat.roundedAcc (x : BigFloat) : Accuracy :=
  if x.scaled < x.rounded * 2 ^ (x.lastBit - x.exp).toNat then
    (if x.neg then .Below else .Above)
  else if x.rounded * 2 ^ (x.lastBit - x.exp).toNat < x.scaled then
    (if x.neg then .Above else .Below)
  else .Exact

/-- `(*big.Float).Float64`: the float64 nearest to x (ties to even) and whether it
is below, equal to or above x.  A magnitude that rounds to zero underflows to a
zero, `(0, Below)` or `(-0, Above)`; one that rounds to `2^1024` or more overflows
to an infinity, `(+Inf, Above)` or `(-Inf, Below)`. -/
def BigFloat.Float64 (x : BigFloat) : Float64 × Accuracy :=
  match x.form with
  | .zero => (⟨x.neg, .zero, 0, 0⟩, .Exact)
  | .inf => (⟨x.neg, .inf, 0, 0⟩, .Exact)
  | .finite =>
    if x.mant = 0 then (⟨x.neg, .zero, 0, 0⟩, .Exact)
    else if x.rounded = 0 then (⟨x.neg, .zero, 0, 0⟩, if x.neg then .Above else .Below)
    else if x.rounded = 2 ^ 53 then
      (if 971 ≤ x.lastBit then (⟨x.neg, .inf, 0, 0⟩, if x.neg then .Below else .Above)
       else (⟨x.neg, .finite, 2 ^ 52, x.lastBit + 1⟩, x.roundedAcc))
    else if 971 < x.lastBit then (⟨x.neg, .inf, 0, 0⟩, if x.neg then .Below else .Above)
    else (⟨x.neg, .finite, x.rounded, x.lastBit⟩, x.roundedAcc)

/-! ## The canonical value: what `interface{}` holds after conversion -/

/-- The Go values the conversion produces: the nil interface, the scalars
(`string`, `int64`, `float64`, `bool`, `*big.Float`, the last possibly a nil
pointer), `[]interface{}` and `map[string]interface{}`. -/
inductive GoValue where
  | nil
  | string (s : String)
  | int64 (i : Int)
  | float64 (f : Float64)
  | bool (b : Bool)
  | bigFloat (p : Option BigFloat)
  | slice (xs : List GoValue)
  | map (m : List (String × GoValue))

/-- The test `value == nil` on an `interface{}`. -/
def GoValue.isNil : GoValue → Bool
  | .nil => true
  | _ => false

/-- The map assignment `m[key] = val`. -/
def mapSet {α : Type} (m : List (String × α)) (key : String) (val : α) : List (String × α) :=
  match m with
  | [] => [(key, val)]
  | (k, v) :: rest => if k = key then (key, val) :: rest else (k, v) :: mapSet rest key val

/-- The map index `m[key]`, `none` when the key is not bound. -/
def mapGet {α : Type} (m : List (String × α)) (key : String) : Option α :=
  match m with
  | [] => none
  | (k, v) :: rest => if k = key then some v else mapGet rest key

/-- No key is listed twice. -/
def uniqueKeys {α : Type} (m : List (String × α)) : Prop :=
  (m.map Prod.fst).Nodup

mutual
/-- `removeNullsAndEmpty`: nil stays nil, a map and a slice are rebuilt from the
members that do not clean to nil and become nil when nothing is left, anything
else is returned as it is. -/
def removeNullsAndEmpty : GoValue → GoValue
  | .nil => .nil
  | .map v =>
    let result := removeNullsAndEmpty.mapLoop v []
    if result.length = 0 then .nil else .map result
  | .slice v =>
    let result := removeNullsAndEmpty.sliceLoop v []
    if result.length = 0 then .nil else .slice result
  | .string s => .string s
  | .int64 i => .int64 i
  | .float64 f => .float64 f
  | .bool b => .bool b
  | .bigFloat p => .bigFloat p
/-- The loop `for key, val := range v` of the map case, `result` being the map
built so far. -/
def removeNullsAndEmpty.mapLoop :
    List (String × GoValue) → List (String × GoValue) → List (String × GoValue)
  | [], result => result
  | (key, val) :: rest, result =>
    let cleaned := removeNullsAndEmpty val
    if cleaned.isNil then removeNullsAndEmpty.mapLoop rest result
    else removeNullsAndEmpty.mapLoop rest (mapSet result key cleaned)
/-- The loop `for _, val := range v` of the slice case, `result` being the slice
built so far. -/
def removeNullsAndEmpty.sliceLoop : List GoValue → List GoValue → List GoValue
  | [], result => result
  | val :: rest, result =>
    let cleaned := removeNullsAndEmpty val
    if cleaned.isNil then removeNullsAndEmpty.sliceLoop rest result
    else removeNullsAndEmpty.sliceLoop rest (result ++ [cleaned])
end

mutual
/-- Whether the value is nil or has a nil list element or mapping value at some
depth. -/
def GoValue.hasAbsent : GoValue → Bool
  | .nil => true
  | .slice xs => GoValue.hasAbsent.inSlice xs
  | .map m => GoValue.hasAbsent.inMap m
  | _ => false
/-- Some element of the list is or holds an absent value. -/
def GoValue.hasAbsent.inSlice : List GoValue → Bool
  | [] => false
  | x :: xs => GoValue.hasAbsent x || GoValue.hasAbsent.inSlice xs
/-- Some value of the mapping is or holds an absent value. -/
def GoValue.hasAbsent.inMap : List (String × GoValue) → Bool
  | [] => false
  | (_, x) :: m => GoValue.hasAbsent x || GoValue.hasAbsent.inMap m
end

mutual
/-- Whether the value is, or holds at some depth, a list or a mapping with no
element. -/
def GoValue.hasEmpty : GoValue → Bool
  | .slice xs => xs.isEmpty || GoValue.hasEmpty.inSlice xs
  | .map m => m.isEmpty || GoValue.hasEmpty.inMap m
  | _ => false
/-- Some element of the list is or holds an empty container. -/
def GoValue.hasEmpty.inSlice : List GoValue → Bool
  | [] => false
  | x :: xs => GoValue.hasEmpty x || GoValue.hasEmpty.inSlice xs
/-- Some value of the mapping is or holds an empty container. -/
def GoValue.hasEmpty.inMap : List (String × GoValue) → Bool
  | [] => false
  | (_, x) :: m => GoValue.hasEmpty x || GoValue.hasEmpty.inMap m
end

mutual
/-- The scalar leaves of a value, in traversal order (a mapping in the order it
lists its pairs). -/
def GoValue.leaves : GoValue → List GoValue
  | .nil => []
  | .slice xs => GoValue.leaves.ofSlice xs
  | .map m => GoValue.leaves.ofMap m
  | .string s => [.string s]
  | .int64 i => [.int64 i]
  | .float64 f => [.float64 f]
  | .bool b => [.bool b]
  | .bigFloat p => [.bigFloat p]
/-- The scalar leaves under the elements of a list. -/
def GoValue.leaves.ofSlice : List GoValue → List GoValue
  | [] => []
  | x :: xs => GoValue.leaves x ++ GoValue.leaves.ofSlice xs
/-- The scalar leaves under the values of a mapping. -/
def GoValue.leaves.ofMap : List (String × GoValue) → List GoValue
  | [] => []
  | (_, x) :: m => GoValue.leaves x ++ GoValue.leaves.ofMap m
end

mutual
/-- A well-formed canonical value: no mapping at any depth lists a key twice. -/
def GoValue.WF : GoValue → Prop
  | .slice xs => GoValue.WF.slice xs
  | .map m => uniqueKeys m ∧ GoValue.WF.map m
  | _ => True
/-- Every element of the list is well formed. -/
def GoValue.WF.slice : List GoValue → Prop
  | [] => True
  | x :: xs => GoValue.WF x ∧ GoValue.WF.slice xs
/-- Every value of the mapping is well formed. -/
def GoValue.WF.map : List (String × GoValue) → Prop
  | [] => True
  | (_, x) :: m => GoValue.WF x ∧ GoValue.WF.map m
end

/-- A scalar: a string, an integer, a float, a boolean or an arbitrary-precision
number. -/
def GoValue.isScalar : GoValue → Bool
  | .string _ => true
  | .int64 _ => true
  | .float64 _ => true
  | .bool _ => true
  | .bigFloat _ => true
  | _ => false


/-- The spec's `prune`: the cleaned value, a nil result read as `none`. -/
def prune (v : GoValue) : Option GoValue :=
  if (removeNullsAndEmpty v).isNil then none else some (removeNullsAndEmpty v)

/-- The pairs of a mapping whose value survives pruning, each with its pruned
value, in the order of the mapping. -/
def keptPairs (m : List (String × GoValue)) : List (String × GoValue) :=
  m.filterMap (fun kv => (prune kv.2).map (fun c => (kv.1, c)))

/-- The assignments `result[k] = v` for the listed pairs, in order. -/
def mapSetAll {α : Type} (result : List (String × α)) (l : List (String × α)) :
    List (String × α) :=
  l.foldl (fun r kv => mapSet r kv.1 kv.2) result

/-! ## terraform-plugin-framework values -/

/-- The state of a framework value, `attr.ValueState`. -/
inductive ValueState where
  | Null
  | Unknown
  | Known
deriving DecidableEq

/-- An `attr.Value`: the nil interface, one of the framework types the conversion
handles (`types.String`, `types.Number`, `types.Bool`, `types.List`,
`types.Tuple`, `types.Set`, `types.Map`, `types.Object`, `types.Dynamic`), each
with its state and the payload its accessor returns, or a value of any other
type, known by its Go type name.  The elements of a map and the attributes of an
object are listed in iteration order.  The framework builds null and unknown
values with the zero payload (`""`, `false`, a nil `*big.Float`, no elements, a
nil underlying value). -/
inductive AttrValue where
  | nil
  | string (state : ValueState) (value : String)
  | number (state : ValueState) (value : Option BigFloat)
  | bool (state : ValueState) (value : Bool)
  | list (state : ValueState) (elements : List AttrValue)
  | tuple (state : ValueState) (elements : List AttrValue)
  | set (state : ValueState) (elements : List AttrValue)
  | map (state : ValueState) (elements : List (String × AttrValue))
  | object (state : ValueState) (attributes : List (String × AttrValue))
  | dynamic (state : ValueState) (value : AttrValue)
  | other (typeName : String) (state : ValueState)

/-- The test `value == nil` on an `attr.Value`. -/
def AttrValue.isNil : AttrValue → Bool
  | .nil => true
  | _ => false

/-- A `types.Dynamic` (`basetypes.DynamicValue`): its state and underlying value. -/
structure DynamicValue where
  state : ValueState
  value : AttrValue

/-- `DynamicValue.UnderlyingValue`. -/
def DynamicValue.UnderlyingValue (d : DynamicValue) : AttrValue := d.value

mutual
/-- `attrValueToGoValue`: the type switch on an `attr.Value`. -/
def attrValueToGoValue : AttrValue → Except String GoValue
  | .nil => .ok .nil
  | .string state value => if state = .Null then .ok .nil else .ok (.string value)
  | .number state value =>
    if state = .Null then .ok .nil
    else
      match value with
      | some bigFloat =>
        if bigFloat.IsInt && decide (bigFloat.Int64.2 = .Exact) then .ok (.int64 bigFloat.Int64.1)
        else if bigFloat.Float64.2 = .Exact then .ok (.float64 bigFloat.Float64.1)
        else .ok (.bigFloat value)
      | none => .ok (.bigFloat value)
  | .bool state value => if state = .Null then .ok .nil else .ok (.bool value)
  | .list state elements =>
    if state = .Null then .ok .nil
    else
      match attrValueToGoValue.elementsLoop elements [] with
      | .error err => .error err
      | .ok result => .ok (.slice result)
  | .tuple state elements =>
    if state = .Null then .ok .nil
    else
      match attrValueToGoValue.elementsLoop elements [] with
      | .error err => .error err
      | .ok result => .ok (.slice result)
  | .set state elements =>
    if state = .Null then .ok .nil
    else
      match attrValueToGoValue.elementsLoop elements [] with
      | .error err => .error err
      | .ok result => .ok (.slice result)
  | .map state elements =>
    if state = .Null then .ok .nil
    else
      match attrValueToGoValue.entriesLoop elements [] with
      | .error err => .error err
      | .ok result => .ok (.map result)
  | .object state attributes =>
    if state = .Null then .ok .nil
    else
      match attrValueToGoValue.entriesLoop attributes [] with
      | .error err => .error err
      | .ok result => .ok (.map result)
  | .dynamic _ value => dynamicToGoValue.switch value
  | .other typeName _ => .error ("unsupported attr.Value type: " ++ typeName)
/-- The type switch of `dynamicToGoValue` on the underlying value of its
argument. -/
def dynamicToGoValue.switch : AttrValue → Except String GoValue
  | .nil => .ok .nil
  | .string state value => if state = .Null then .ok .nil else .ok (.string value)
  | .number state value =>
    if state = .Null then .ok .nil
    else
      match value with
      | some bigFloat =>
        if bigFloat.IsInt && decide (bigFloat.Int64.2 = .Exact) then .ok (.int64 bigFloat.Int64.1)
        else if bigFloat.Float64.2 = .Exact then .ok (.float64 bigFloat.Float64.1)
        else .ok (.bigFloat value)
      | none => .ok (.bigFloat value)
  | .bool state value => if state = .Null then .ok .nil else .ok (.bool value)
  | .list state elements =>
    if state = .Null then .ok .nil
    else
      match attrValueToGoValue.elementsLoop elements [] with
      | .error err => .error err
      | .ok result => .ok (.slice result)
  | .tuple state elements =>
    if state = .Null then .ok .nil
    else
      match attrValueToGoValue.elementsLoop elements [] with
      | .error err => .error err
      | .ok result => .ok (.slice result)
  | .set state elements =>
    if state = .Null then .ok .nil
    else
      match attrValueToGoValue.elementsLoop elements [] with
      | .error err => .error err
      | .ok result => .ok (.slice result)
  | .map state elements =>
    if state = .Null then .ok .nil
    else
      match attrValueToGoValue.entriesLoop elements [] with
      | .error err => .error err
      | .ok result => .ok (.map result)
  | .object state attributes =>
    if state = .Null then .ok .nil
    else
      match attrValueToGoValue.entriesLoop attributes [] with
      | .error err => .error err
      | .ok result => .ok (.map result)
  | .dynamic _ underlyingValue =>
    if underlyingValue.isNil then .ok .nil else attrValueToGoValue underlyingValue
  | .other typeName _ => .error ("unsupported type: " ++ typeName)
/-- The loop `for _, elem := range elements` of the list, tuple and set cases,
`result` being the slice built so far. -/
def attrValueToGoValue.elementsLoop :
    List AttrValue → List GoValue → Except String (List GoValue)
  | [], result => .ok result
  | elem :: rest, result =>
    match attrValueToGoValue elem with
    | .error err => .error err
    | .ok goVal => attrValueToGoValue.elementsLoop rest (result ++ [goVal])
/-- The loop `for key, elem := range elements` of the map and object cases,
`result` being the map built so far. -/
def attrValueToGoValue.entriesLoop :
    List (String × AttrValue) → List (String × GoValue) →
      Except String (List (String × GoValue))
  | [], result => .ok result
  | (key, elem) :: rest, result =>
    match attrValueToGoValue elem with
    | .error err => .error err
    | .ok goVal => attrValueToGoValue.entriesLoop rest (mapSet result key goVal)
end

/-- `dynamicToGoValue`: the type switch on the underlying value. -/
def dynamicToGoValue (dynamic : DynamicValue) : Except String GoValue :=
  dynamicToGoValue.switch dynamic.UnderlyingValue

/-- `IsNull` of an `attr.Value` that is not the nil interface: the state is null.
For a dynamic value it is the state of the wrapper; whether the underlying value
is null is another method, `IsUnderlyingValueNull`. -/
def AttrValue.IsNull : AttrValue → Bool
  | .nil => false
  | .string state _ => state = .Null
  | .number state _ => state = .Null
  | .bool state _ => state = .Null
  | .list state _ => state = .Null
  | .tuple state _ => state = .Null
  | .set state _ => state = .Null
  | .map state _ => state = .Null
  | .object state _ => state = .Null
  | .dynamic state _ => state = .Null
  | .other _ state => state = .Null

/-- `IsUnknown` of an `attr.Value` that is not the nil interface: the state is
unknown.  For a dynamic value it is the state of the wrapper; whether the
underlying value is unknown is another method, `IsUnderlyingValueUnknown`. -/
def AttrValue.IsUnknown : AttrValue → Bool
  | .nil => false
  | .string state _ => state = .Unknown
  | .number state _ => state = .Unknown
  | .bool state _ => state = .Unknown
  | .list state _ => state = .Unknown
  | .tuple state _ => state = .Unknown
  | .set state _ => state = .Unknown
  | .map state _ => state = .Unknown
  | .object state _ => state = .Unknown
  | .dynamic state _ => state = .Unknown
  | .other _ state => state = .Unknown

/-- `DynamicValue.IsNull`: the state of the dynamic value is null. -/
def DynamicValue.IsNull (d : DynamicValue) : Bool :=
  AttrValue.IsNull (.dynamic d.state d.value)

/-- `DynamicValue.IsUnknown`: the state of the dynamic value is unknown. -/
def DynamicValue.IsUnknown (d : DynamicValue) : Bool :=
  AttrValue.IsUnknown (.dynamic d.state d.value)

/-! ## The function call -/

/-- A `function.FuncError`: an argument error with its position, or a plain
function error. -/
inductive FuncError where
  | argument (position : Nat) (text : String)
  | func (text : String)
deriving DecidableEq

/-- The `function.RunResponse` after the call: the error, if any, and the result
string, if one was set. -/
structure RunResponse where
  Error : Option FuncError
  Result : Option String
deriving DecidableEq

/-- `HelmValuesEncodeFunction.Run`.  `arguments` is what `req.Arguments.Get` gives
for the one parameter, `marshal` is `yaml.Marshal`. -/
def Run (marshal : GoValue → Except String String)
    (arguments : Except FuncError DynamicValue) : RunResponse :=
  match arguments with
  | .error err => ⟨some err, none⟩
  | .ok input =>
    if input.IsNull then ⟨some (.argument 0 "Input cannot be null"), none⟩
    else if input.IsUnknown then ⟨some (.argument 0 "Input cannot be unknown"), none⟩
    else
      match dynamicToGoValue input with
      | .error err => ⟨some (.func ("Failed to convert input: " ++ err)), none⟩
      | .ok goValue =>
        let cleanedValue := removeNullsAndEmpty goValue
        if cleanedValue.isNil then ⟨none, some ""⟩
        else
          match marshal cleanedValue with
          | .error err => ⟨some (.func ("Failed to encode YAML: " ++ err)), none⟩
          | .ok yamlBytes => ⟨none, some yamlBytes⟩

mutual
/-- Every leaf under the value is absent: the value is the nil interface or null,
or a list, tuple, set, map or object all of whose members are so (in particular
an empty one), or a dynamic wrapper around such a value. -/
def AttrValue.allAbsent : AttrValue → Bool
  | .nil => true
  | .string state _ => state = .Null
  | .number state _ => state = .Null
  | .bool state _ => state = .Null
  | .list state elements => decide (state = .Null) || AttrValue.allAbsent.elements elements
  | .tuple state elements => decide (state = .Null) || AttrValue.allAbsent.elements elements
  | .set state elements => decide (state = .Null) || AttrValue.allAbsent.elements elements
  | .map state elements => decide (state = .Null) || AttrValue.allAbsent.entries elements
  | .object state attributes =>
    decide (state = .Null) || AttrValue.allAbsent.entries attributes
  | .dynamic _ value => AttrValue.allAbsent value
  | .other _ _ => false
/-- Every element is all absent. -/
def AttrValue.allAbsent.elements : List AttrValue → Bool
  | [] => true
  | x :: xs => AttrValue.allAbsent x && AttrValue.allAbsent.elements xs
/-- Every entry has an all-absent value. -/
def AttrValue.allAbsent.entries : List (String × AttrValue) → Bool
  | [] => true
  | (_, x) :: m => AttrValue.allAbsent x && AttrValue.allAbsent.entries m
end

mutual
/-- The value with every unknown state, at any depth, replaced by the known
state, payloads unchanged. -/
def AttrValue.asKnown : AttrValue → AttrValue
  | .nil => .nil
  | .string state value => .string (if state = .Unknown then .Known else state) value
  | .number state value => .number (if state = .Unknown then .Known else state) value
  | .bool state value => .bool (if state = .Unknown then .Known else state) value
  | .list state elements =>
    .list (if state = .Unknown then .Known else state) (AttrValue.asKnown.elements elements)
  | .tuple state elements =>
    .tuple (if state = .Unknown then .Known else state) (AttrValue.asKnown.elements elements)
  | .set state elements =>
    .set (if state = .Unknown then .Known else state) (AttrValue.asKnown.elements elements)
  | .map state elements =>
    .map (if state = .Unknown then .Known else state) (AttrValue.asKnown.entries elements)
  | .object state attributes =>
    .object (if state = .Unknown then .Known else state)
      (AttrValue.asKnown.entries attributes)
  | .dynamic state value =>
    .dynamic (if state = .Unknown then .Known else state) (AttrValue.asKnown value)
  | .other typeName state => .other typeName (if state = .Unknown then .Known else state)
/-- `asKnown` on every element. -/
def AttrValue.asKnown.elements : List AttrValue → List AttrValue
  | [] => []
  | x :: xs => AttrValue.asKnown x :: AttrValue.asKnown.elements xs
/-- `asKnown` on the value of every entry. -/
def AttrValue.asKnown.entries : List (String × AttrValue) → List (String × AttrValue)
  | [] => []
  | (k, x) :: m => (k, AttrValue.asKnown x) :: AttrValue.asKnown.entries m
end

/-- The mathematical value of a numeric scalar: of an `int64`, of a `float64`, of
a non-nil `*big.Float`. -/
def GoValue.numVal : GoValue → Option NumVal
  | .int64 i => some (.fin (i : ℚ))
  | .float64 f => some f.value
  | .bigFloat (some y) => some y.value
  | _ => none

/-- The value of x is exactly that of some float64. -/
def BigFloat.representable (x : BigFloat) : Prop :=
  ∃ f : HelmValuesEncode.Float64, f.valid = true ∧ f.value = x.value

/-- The value of x is an integer an `int64` holds. -/
def BigFloat.isInt64 (x : BigFloat) : Prop :=
  ∃ n : Int, MinInt64 ≤ n ∧ n ≤ MaxInt64 ∧ x.value = .fin (n : ℚ)

/-! ## Shapes of framework values -/

mutual
/-- Whether the traversal of the conversion meets a value of a type it has no case
for: the value itself, an element of a list, tuple, set, map or object that is not
null, or the underlying value of a dynamic wrapper, at any depth. -/
def AttrValue.hasUnsupported : AttrValue → Bool
  | .list state elements =>
    decide (state ≠ .Null) && AttrValue.hasUnsupported.elements elements
  | .tuple state elements =>
    decide (state ≠ .Null) && AttrValue.hasUnsupported.elements elements
  | .set state elements =>
    decide (state ≠ .Null) && AttrValue.hasUnsupported.elements elements
  | .map state elements =>
    decide (state ≠ .Null) && AttrValue.hasUnsupported.entries elements
  | .object state attributes =>
    decide (state ≠ .Null) && AttrValue.hasUnsupported.entries attributes
  | .dynamic _ value => AttrValue.hasUnsupported value
  | .other _ _ => true
  | _ => false
/-- Some element has an unsupported value. -/
def AttrValue.hasUnsupported.elements : List AttrValue → Bool
  | [] => false
  | x :: xs => AttrValue.hasUnsupported x || AttrValue.hasUnsupported.elements xs
/-- Some entry has an unsupported value. -/
def AttrValue.hasUnsupported.entries : List (String × AttrValue) → Bool
  | [] => false
  | (_, x) :: m => AttrValue.hasUnsupported x || AttrValue.hasUnsupported.entries m
end

mutual
/-- The Go type names of the unsupported values the traversal can meet. -/
def AttrValue.unsupportedNames : AttrValue → List String
  | .list state elements =>
    if state = .Null then [] else AttrValue.unsupportedNames.elements elements
  | .tuple state elements =>
    if state = .Null then [] else AttrValue.unsupportedNames.elements elements
  | .set state elements =>
    if state = .Null then [] else AttrValue.unsupportedNames.elements elements
  | .map state elements =>
    if state = .Null then [] else AttrValue.unsupportedNames.entries elements
  | .object state attributes =>
    if state = .Null then [] else AttrValue.unsupportedNames.entries attributes
  | .dynamic _ value => AttrValue.unsupportedNames value
  | .other typeName _ => [typeName]
  | _ => []
/-- The unsupported type names under the elements. -/
def AttrValue.unsupportedNames.elements : List AttrValue → List String
  | [] => []
  | x :: xs => AttrValue.unsupportedNames x ++ AttrValue.unsupportedNames.elements xs
/-- The unsupported type names under the entries. -/
def AttrValue.unsupportedNames.entries : List (String × AttrValue) → List String
  | [] => []
  | (_, x) :: m => AttrValue.unsupportedNames x ++ AttrValue.unsupportedNames.entries m
end

/-- The text of the error for an unsupported type: one of the two messages of the
source, with the Go type name of a value the traversal can meet. -/
def unsupportedText (v : AttrValue) (err : String) : Prop :=
  ∃ name ∈ v.unsupportedNames,
    err = "unsupported attr.Value type: " ++ name ∨ err = "unsupported type: " ++ name

mutual
/-- A value built only from known strings, booleans, numbers, lists and
objects. -/
def AttrValue.plain : AttrValue → Bool
  | .string state _ => state = .Known
  | .number state _ => state = .Known
  | .bool state _ => state = .Known
  | .list state elements => decide (state = .Known) && AttrValue.plain.elements elements
  | .object state attributes =>
    decide (state = .Known) && AttrValue.plain.entries attributes
  | _ => false
/-- Every element is plain. -/
def AttrValue.plain.elements : List AttrValue → Bool
  | [] => true
  | x :: xs => AttrValue.plain x && AttrValue.plain.elements xs
/-- Every entry has a plain value. -/
def AttrValue.plain.entries : List (String × AttrValue) → Bool
  | [] => true
  | (_, x) :: m => AttrValue.plain x && AttrValue.plain.entries m
end

mutual
/-- Whether a string, a number or a boolean occurs in the value, at any depth. -/
def AttrValue.hasScalarLeaf : AttrValue → Bool
  | .string _ _ => true
  | .number _ _ => true
  | .bool _ _ => true
  | .list _ elements => AttrValue.hasScalarLeaf.elements elements
  | .tuple _ elements => AttrValue.hasScalarLeaf.elements elements
  | .set _ elements => AttrValue.hasScalarLeaf.elements elements
  | .map _ elements => AttrValue.hasScalarLeaf.entries elements
  | .object _ attributes => AttrValue.hasScalarLeaf.entries attributes
  | .dynamic _ value => AttrValue.hasScalarLeaf value
  | _ => false
/-- Some element has a scalar leaf. -/
def AttrValue.hasScalarLeaf.elements : List AttrValue → Bool
  | [] => false
  | x :: xs => AttrValue.hasScalarLeaf x || AttrValue.hasScalarLeaf.elements xs
/-- Some entry has a scalar leaf. -/
def AttrValue.hasScalarLeaf.entries : List (String × AttrValue) → Bool
  | [] => false
  | (_, x) :: m => AttrValue.hasScalarLeaf x || AttrValue.hasScalarLeaf.entries m
end

mutual
/-- A well-formed framework value: no map and no object, at any depth, lists a key
twice (their elements are Go maps). -/
def AttrValue.WF : AttrValue → Prop
  | .list _ elements => AttrValue.WF.elements elements
  | .tuple _ elements => AttrValue.WF.elements elements
  | .set _ elements => AttrValue.WF.elements elements
  | .map _ elements => uniqueKeys elements ∧ AttrValue.WF.entries elements
  | .object _ attributes => uniqueKeys attributes ∧ AttrValue.WF.entries attributes
  | .dynamic _ value => AttrValue.WF value
  | _ => True
/-- Every element is well formed. -/
def AttrValue.WF.elements : List AttrValue → Prop
  | [] => True
  | x :: xs => AttrValue.WF x ∧ AttrValue.WF.elements xs
/-- Every entry has a well-formed value. -/
def AttrValue.WF.entries : List (String × AttrValue) → Prop
  | [] => True
  | (_, x) :: m => AttrValue.WF x ∧ AttrValue.WF.entries m
end

/-- A null value as the framework builds it: a string, number, boolean, list,
tuple, set, map or object in the null state, a dynamic value in the null state
(its underlying value is then nil), or a dynamic wrapper around a null value. -/
def AttrValue.nullValued : AttrValue → Bool
  | .nil => false
  | .string state _ => state = .Null
  | .number state _ => state = .Null
  | .bool state _ => state = .Null
  | .list state _ => state = .Null
  | .tuple state _ => state = .Null
  | .set state _ => state = .Null
  | .map state _ => state = .Null
  | .object state _ => state = .Null
  | .dynamic state value =>
    (decide (state = .Null) && value.isNil) || AttrValue.nullValued value
  | .other _ _ => false

/-- Two results of a conversion agree: both are errors, or both are the same
value. -/
def agree : Except String GoValue → Except String GoValue → Prop
  | .ok a, .ok b => a = b
  | .error _, .error _ => True
  | _, _ => False

/-- The value under dynamic wrappers in the given states, the first state being
that of the outermost wrapper. -/
def wrapDynamic : List ValueState → AttrValue → AttrValue
  | [], x => x
  | state :: rest, x => .dynamic state (wrapDynamic rest x)

mutual
/-- The nesting depth of a framework value: 0 for the nil interface, a scalar and an
unsupported value, one more than the deepest member for a list, tuple, set, map or
object, one more than the underlying value for a dynamic wrapper. -/
def AttrValue.depth : AttrValue → Nat
  | .list _ elements => AttrValue.depth.elements elements + 1
  | .tuple _ elements => AttrValue.depth.elements elements + 1
  | .set _ elements => AttrValue.depth.elements elements + 1
  | .map _ elements => AttrValue.depth.entries elements + 1
  | .object _ attributes => AttrValue.depth.entries attributes + 1
  | .dynamic _ value => AttrValue.depth value + 1
  | _ => 0
/-- The depth of the deepest element. -/
def AttrValue.depth.elements : List AttrValue → Nat
  | [] => 0
  | x :: xs => max (AttrValue.depth x) (AttrValue.depth.elements xs)
/-- The depth of the deepest value of an entry. -/
def AttrValue.depth.entries : List (String × AttrValue) → Nat
  | [] => 0
  | (_, x) :: m => max (AttrValue.depth x) (AttrValue.depth.entries m)
end

mutual
/-- The nesting depth of a canonical value. -/
def GoValue.depth : GoValue → Nat
  | .slice xs => GoValue.depth.slice xs + 1
  | .map m => GoValue.depth.map m + 1
  | _ => 0
/-- The depth of the deepest element. -/
def GoValue.depth.slice : List GoValue → Nat
  | [] => 0
  | x :: xs => max (GoValue.depth x) (GoValue.depth.slice xs)
/-- The depth of the deepest value of a pair. -/
def GoValue.depth.map : List (String × GoValue) → Nat
  | [] => 0
  | (_, x) :: m => max (GoValue.depth x) (GoValue.depth.map m)
end

/-- The value `x` inside `n` known one-element lists. -/
def nestedList : Nat → AttrValue → AttrValue
  | 0, x => x
  | n + 1, x => .list .Known [nestedList n x]

/-- `Run` with its three collaborators as parameters: `convert` for
`dynamicToGoValue`, `clean` for `removeNullsAndEmpty`, `marshal` for
`yaml.Marshal`. -/
def RunWith (convert : DynamicValue → Except String GoValue) (clean : GoValue → GoValue)
    (marshal : GoValue → Except String String)
    (arguments : Except FuncError DynamicValue) : RunResponse :=
  match arguments with
  | .error err => ⟨some err, none⟩
  | .ok input =>
    if input.IsNull then ⟨some (.argument 0 "Input cannot be null"), none⟩
    else if input.IsUnknown then ⟨some (.argument 0 "Input cannot be unknown"), none⟩
    else
      match convert input with
      | .error err => ⟨some (.func ("Failed to convert input: " ++ err)), none⟩
      | .ok goValue =>
        let cleanedValue := clean goValue
        if cleanedValue.isNil then ⟨none, some ""⟩
        else
          match marshal cleanedValue with
          | .error err => ⟨some (.func ("Failed to encode YAML: " ++ err)), none⟩
          | .ok yamlBytes => ⟨none, some yamlBytes⟩

/-! ## The two stages with a bound on the depth of the nested calls -/

/-- The slice loop of `removeNullsAndEmpty` around a cleaning function that can run
out of fuel. -/
def removeNullsAndEmpty.sliceLoopFuel (clean : GoValue → Option GoValue) :
    List GoValue → List GoValue → Option (List GoValue)
  | [], result => some result
  | val :: rest, result =>
    match clean val with
    | none => none
    | some cleaned =>
      if cleaned.isNil then removeNullsAndEmpty.sliceLoopFuel clean rest result
      else removeNullsAndEmpty.sliceLoopFuel clean rest (result ++ [cleaned])

/-- The map loop of `removeNullsAndEmpty` around a cleaning function that can run
out of fuel. -/
def removeNullsAndEmpty.mapLoopFuel (clean : GoValue → Option GoValue) :
    List (String × GoValue) → List (String × GoValue) → Option (List (String × GoValue))
  | [], result => some result
  | (key, val) :: rest, result =>
    match clean val with
    | none => none
    | some cleaned =>
      if cleaned.isNil then removeNullsAndEmpty.mapLoopFuel clean rest result
      else removeNullsAndEmpty.mapLoopFuel clean rest (mapSet result key cleaned)

/-- `removeNullsAndEmpty` with at most `fuel` nested calls: every call uses one
unit, and `none` is returned when a call is needed and none is left. -/
def removeNullsAndEmptyFuel : Nat → GoValue → Option GoValue
  | 0, _ => none
  | fuel + 1, value =>
    match value with
    | .nil => some .nil
    | .map v =>
      match removeNullsAndEmpty.mapLoopFuel (removeNullsAndEmptyFuel fuel) v [] with
      | none => none
      | some result => some (if result.length = 0 then .nil else .map result)
    | .slice v =>
      match removeNullsAndEmpty.sliceLoopFuel (removeNullsAndEmptyFuel fuel) v [] with
      | none => none
      | some result => some (if result.length = 0 then .nil else .slice result)
    | .string s => some (.string s)
    | .int64 i => some (.int64 i)
    | .float64 f => some (.float64 f)
    | .bool b => some (.bool b)
    | .bigFloat p => some (.bigFloat p)

/-- The loop over the elements around a conversion that can run out of fuel. -/
def attrValueToGoValue.elementsLoopFuel
    (convert : AttrValue → Option (Except String GoValue)) :
    List AttrValue → List GoValue → Option (Except String (List GoValue))
  | [], result => some (.ok result)
  | elem :: rest, result =>
    match convert elem with
    | none => none
    | some (.error err) => some (.error err)
    | some (.ok goVal) => attrValueToGoValue.elementsLoopFuel convert rest (result ++ [goVal])

/-- The loop over the entries around a conversion that can run out of fuel. -/
def attrValueToGoValue.entriesLoopFuel
    (convert : AttrValue → Option (Except String GoValue)) :
    List (String × AttrValue) → List (String × GoValue) →
      Option (Except String (List (String × GoValue)))
  | [], result => some (.ok result)
  | (key, elem) :: rest, result =>
    match convert elem with
    | none => none
    | some (.error err) => some (.error err)
    | some (.ok goVal) =>
      attrValueToGoValue.entriesLoopFuel convert rest (mapSet result key goVal)

/-- What a container case returns from the result of its loop over the elements. -/
def sliceResult : Option (Except String (List GoValue)) → Option (Except String GoValue)
  | none => none
  | some (.error err) => some (.error err)
  | some (.ok result) => some (.ok (.slice result))

/-- What a container case returns from the result of its loop over the entries. -/
def mapResult :
    Option (Except String (List (String × GoValue))) → Option (Except String GoValue)
  | none => none
  | some (.error err) => some (.error err)
  | some (.ok result) => some (.ok (.map result))

mutual
/-- `attrValueToGoValue` with at most `fuel` nested calls of the two routines:
every call uses one unit, and `none` is returned when a call is needed and none is
left.  The cases that call neither routine return what `attrValueToGoValue`
returns. -/
def attrValueToGoValueFuel : Nat → AttrValue → Option (Except String GoValue)
  | 0, _ => none
  | fuel + 1, value =>
    match value with
    | .list state elements =>
      if state = .Null then some (.ok .nil)
      else sliceResult
        (attrValueToGoValue.elementsLoopFuel (attrValueToGoValueFuel fuel) elements [])
    | .tuple state elements =>
      if state = .Null then some (.ok .nil)
      else sliceResult
        (attrValueToGoValue.elementsLoopFuel (attrValueToGoValueFuel fuel) elements [])
    | .set state elements =>
      if state = .Null then some (.ok .nil)
      else sliceResult
        (attrValueToGoValue.elementsLoopFuel (attrValueToGoValueFuel fuel) elements [])
    | .map state elements =>
      if state = .Null then some (.ok .nil)
      else mapResult
        (attrValueToGoValue.entriesLoopFuel (attrValueToGoValueFuel fuel) elements [])
    | .object state attributes =>
      if state = .Null then some (.ok .nil)
      else mapResult
        (attrValueToGoValue.entriesLoopFuel (attrValueToGoValueFuel fuel) attributes [])
    | .dynamic state underlying => dynamicToGoValueFuel fuel ⟨state, underlying⟩
    | .nil => some (attrValueToGoValue .nil)
    | .string state s => some (attrValueToGoValue (.string state s))
    | .number state n => some (attrValueToGoValue (.number state n))
    | .bool state b => some (attrValueToGoValue (.bool state b))
    | .other typeName state => some (attrValueToGoValue (.other typeName state))
/-- `dynamicToGoValue` with at most `fuel` nested calls of the two routines. -/
def dynamicToGoValueFuel : Nat → DynamicValue → Option (Except String GoValue)
  | 0, _ => none
  | fuel + 1, dynamic =>
    match dynamic.UnderlyingValue with
    | .list state elements =>
      if state = .Null then some (.ok .nil)
      else sliceResult
        (attrValueToGoValue.elementsLoopFuel (attrValueToGoValueFuel fuel) elements [])
    | .tuple state elements =>
      if state = .Null then some (.ok .nil)
      else sliceResult
        (attrValueToGoValue.elementsLoopFuel (attrValueToGoValueFuel fuel) elements [])
    | .set state elements =>
      if state = .Null then some (.ok .nil)
      else sliceResult
        (attrValueToGoValue.elementsLoopFuel (attrValueToGoValueFuel fuel) elements [])
    | .map state elements =>
      if state = .Null then some (.ok .nil)
      else mapResult
        (attrValueToGoValue.entriesLoopFuel (attrValueToGoValueFuel fuel) elements [])
    | .object state attributes =>
      if state = .Null then some (.ok .nil)
      else mapResult
        (attrValueToGoValue.entriesLoopFuel (attrValueToGoValueFuel fuel) attributes [])
    | .dynamic _ underlyingValue =>
      if underlyingValue.isNil then some (.ok .nil)
      else attrValueToGoValueFuel fuel underlyingValue
    | .nil => some (dynamicToGoValue.switch .nil)
    | .string state s => some (dynamicToGoValue.switch (.string state s))
    | .number state n => some (dynamicToGoValue.switch (.number state n))
    | .bool state b => some (dynamicToGoValue.switch (.bool state b))
    | .other typeName state => some (dynamicToGoValue.switch (.other typeName state))
end

/-! ## Induction over canonical values -/

/-- Structural induction on a canonical value, with the members of a list and the
values of a mapping as induction hypotheses. -/
theorem goValue_induct {P : GoValue → Prop}
    (hnil : P .nil) (hstring : ∀ s, P (.string s)) (hint : ∀ i, P (.int64 i))
    (hfloat : ∀ f, P (.float64 f)) (hbool : ∀ b, P (.bool b))
    (hbig : ∀ p, P (.bigFloat p))
    (hslice : ∀ xs : List GoValue, (∀ x ∈ xs, P x) → P (.slice xs))
    (hmap : ∀ m : List (String × GoValue), (∀ kv ∈ m, P kv.2) → P (.map m)) :
    ∀ v, P v := by
  intro v
  refine @GoValue.rec P (fun xs => ∀ x ∈ xs, P x) (fun m => ∀ kv ∈ m, P kv.2)
    (fun kv => P kv.2) hnil hstring hint hfloat hbool hbig ?_ ?_ ?_ ?_ ?_ ?_ ?_ v
  · intro xs ih; exact hslice xs ih
  · intro m ih; exact hmap m ih
  · intro x hx; cases hx
  · intro x xs hx hxs y hy
    rcases List.mem_cons.mp hy with h | h
    · exact h ▸ hx
    · exact hxs y h
  · intro kv hkv; cases hkv
  · intro kv m hkv hm y hy
    rcases List.mem_cons.mp hy with h | h
    · exact h ▸ hkv
    · exact hm y h
  · intro k v hv; exact hv


/-! ## Map assignment -/

theorem mapSet_fresh {α : Type} (m : List (String × α)) (k : String) (v : α)
    (h : k ∉ m.map Prod.fst) : mapSet m k v = m ++ [(k, v)] := by
  induction m with
  | nil => rfl
  | cons p rest ih =>
    obtain ⟨k', v'⟩ := p
    simp only [List.map_cons, List.mem_cons, not_or] at h
    have hne : ¬ k' = k := fun e => h.1 e.symm
    simp [mapSet, hne, ih h.2]

theorem mapSetAll_unique {α : Type} (l acc : List (String × α))
    (h : uniqueKeys (acc ++ l)) : mapSetAll acc l = acc ++ l := by
  induction l generalizing acc with
  | nil => simp [mapSetAll]
  | cons p rest ih =>
    obtain ⟨k, v⟩ := p
    have hk : k ∉ acc.map Prod.fst := by
      unfold uniqueKeys at h
      simp only [List.map_append, List.map_cons] at h
      have := (List.nodup_append.mp h).2.2
      intro hmem
      exact this hmem (List.mem_cons_self _ _) 
    have h' : uniqueKeys ((acc ++ [(k, v)]) ++ rest) := by
      simpa [List.append_assoc] using h
    have := ih (acc ++ [(k, v)]) h'
    simp only [mapSetAll, List.foldl_cons] at this ⊢
    rw [mapSet_fresh acc k v hk, this]
    simp

theorem mapSetAll_nil_unique {α : Type} (l : List (String × α)) (h : uniqueKeys l) :
    mapSetAll [] l = l := by
  simpa using mapSetAll_unique l [] (by simpa using h)

theorem mapSet_keys {α : Type} (m : List (String × α)) (k : String) (v : α) :
    ∀ x, x ∈ (mapSet m k v).map Prod.fst ↔ x ∈ m.map Prod.fst ∨ x = k := by
  induction m with
  | nil => intro x; simp [mapSet]
  | cons p rest ih =>
    obtain ⟨k', v'⟩ := p
    intro x
    by_cases hk : k' = k
    · subst hk
      simp only [mapSet, if_true, List.map_cons, List.mem_cons]
      tauto
    · simp only [mapSet, hk, if_false, List.map_cons, List.mem_cons, ih x]
      tauto

theorem mapSet_uniqueKeys {α : Type} (m : List (String × α)) (k : String) (v : α)
    (h : uniqueKeys m) : uniqueKeys (mapSet m k v) := by
  induction m with
  | nil => simp [mapSet, uniqueKeys]
  | cons p rest ih =>
    obtain ⟨k', v'⟩ := p
    unfold uniqueKeys at h ih ⊢
    simp only [List.map_cons, List.nodup_cons] at h
    by_cases hk : k' = k
    · subst hk
      simp only [mapSet, if_true, List.map_cons, List.nodup_cons]
      exact h
    · simp only [mapSet, hk, if_false, List.map_cons, List.nodup_cons]
      refine ⟨?_, ih h.2⟩
      intro hmem
      rcases (mapSet_keys rest k v k').mp hmem with h1 | h1
      · exact h.1 h1
      · exact hk h1

theorem mapSet_mem {α : Type} (m : List (String × α)) (k : String) (v : α) :
    ∀ p ∈ mapSet m k v, p ∈ m ∨ p = (k, v) := by
  induction m with
  | nil => intro p hp; simp [mapSet] at hp; exact Or.inr hp
  | cons q rest ih =>
    obtain ⟨k', v'⟩ := q
    intro p hp
    by_cases hk : k' = k
    · simp only [mapSet, hk, if_true, List.mem_cons] at hp
      rcases hp with h | h
      · exact Or.inr h
      · exact Or.inl (List.mem_cons_of_mem _ h)
    · simp only [mapSet, hk, if_false, List.mem_cons] at hp
      rcases hp with h | h
      · exact Or.inl (h ▸ List.mem_cons_self _ _)
      · rcases ih p h with h1 | h1
        · exact Or.inl (List.mem_cons_of_mem _ h1)
        · exact Or.inr h1

theorem mapSetAll_uniqueKeys {α : Type} (l acc : List (String × α))
    (h : uniqueKeys acc) : uniqueKeys (mapSetAll acc l) := by
  induction l generalizing acc with
  | nil => simpa [mapSetAll] using h
  | cons p rest ih =>
    simp only [mapSetAll, List.foldl_cons]
    exact ih _ (mapSet_uniqueKeys acc p.1 p.2 h)

theorem mapSetAll_mem {α : Type} (l acc : List (String × α)) :
    ∀ p ∈ mapSetAll acc l, p ∈ acc ∨ p ∈ l := by
  induction l generalizing acc with
  | nil => intro p hp; exact Or.inl (by simpa [mapSetAll] using hp)
  | cons q rest ih =>
    intro p hp
    simp only [mapSetAll, List.foldl_cons] at hp
    rcases ih _ p hp with h | h
    · rcases mapSet_mem acc q.1 q.2 p h with h1 | h1
      · exact Or.inl h1
      · exact Or.inr (h1 ▸ List.mem_cons_self _ _)
    · exact Or.inr (List.mem_cons_of_mem _ h)

/-! ## The loops of `removeNullsAndEmpty` -/

theorem sliceLoop_eq (xs result : List GoValue) :
    removeNullsAndEmpty.sliceLoop xs result = result ++ xs.filterMap prune := by
  induction xs generalizing result with
  | nil => simp [removeNullsAndEmpty.sliceLoop]
  | cons x rest ih =>
    by_cases h : (removeNullsAndEmpty x).isNil = true
    · simp [removeNullsAndEmpty.sliceLoop, h, ih, prune, List.filterMap_cons]
    · simp [removeNullsAndEmpty.sliceLoop, h, ih, prune, List.filterMap_cons]

theorem mapLoop_eq (m result : List (String × GoValue)) :
    removeNullsAndEmpty.mapLoop m result = mapSetAll result (keptPairs m) := by
  induction m generalizing result with
  | nil => simp [removeNullsAndEmpty.mapLoop, keptPairs, mapSetAll]
  | cons p rest ih =>
    obtain ⟨k, v⟩ := p
    by_cases h : (removeNullsAndEmpty v).isNil = true
    · simp [removeNullsAndEmpty.mapLoop, h, ih, prune, keptPairs, List.filterMap_cons]
    · simp [removeNullsAndEmpty.mapLoop, h, ih, prune, keptPairs, List.filterMap_cons,
        mapSetAll]

theorem removeNullsAndEmpty_slice (xs : List GoValue) :
    removeNullsAndEmpty (.slice xs) =
      if (xs.filterMap prune).isEmpty then .nil else .slice (xs.filterMap prune) := by
  simp only [removeNullsAndEmpty, sliceLoop_eq, List.nil_append]
  cases xs.filterMap prune <;> simp

theorem removeNullsAndEmpty_map (m : List (String × GoValue)) :
    removeNullsAndEmpty (.map m) =
      if (mapSetAll [] (keptPairs m)).isEmpty then .nil
      else .map (mapSetAll [] (keptPairs m)) := by
  simp only [removeNullsAndEmpty, mapLoop_eq]
  cases mapSetAll [] (keptPairs m) <;> simp


/-! ## The predicates on canonical values, element by element -/

theorem hasAbsent_inSlice (xs : List GoValue) :
    GoValue.hasAbsent.inSlice xs = false ↔ ∀ x ∈ xs, x.hasAbsent = false := by
  induction xs with
  | nil => simp [GoValue.hasAbsent.inSlice]
  | cons x rest ih => simp [GoValue.hasAbsent.inSlice, ih]

theorem hasAbsent_inMap (m : List (String × GoValue)) :
    GoValue.hasAbsent.inMap m = false ↔ ∀ kv ∈ m, kv.2.hasAbsent = false := by
  induction m with
  | nil => simp [GoValue.hasAbsent.inMap]
  | cons p rest ih =>
    obtain ⟨k, v⟩ := p
    simp only [GoValue.hasAbsent.inMap, Bool.or_eq_false_iff, ih, List.mem_cons,
      forall_eq_or_imp]

theorem hasEmpty_inSlice (xs : List GoValue) :
    GoValue.hasEmpty.inSlice xs = false ↔ ∀ x ∈ xs, x.hasEmpty = false := by
  induction xs with
  | nil => simp [GoValue.hasEmpty.inSlice]
  | cons x rest ih => simp [GoValue.hasEmpty.inSlice, ih]

theorem hasEmpty_inMap (m : List (String × GoValue)) :
    GoValue.hasEmpty.inMap m = false ↔ ∀ kv ∈ m, kv.2.hasEmpty = false := by
  induction m with
  | nil => simp [GoValue.hasEmpty.inMap]
  | cons p rest ih =>
    obtain ⟨k, v⟩ := p
    simp only [GoValue.hasEmpty.inMap, Bool.or_eq_false_iff, ih, List.mem_cons,
      forall_eq_or_imp]

theorem WF_slice (xs : List GoValue) :
    GoValue.WF.slice xs ↔ ∀ x ∈ xs, x.WF := by
  induction xs with
  | nil => simp [GoValue.WF.slice]
  | cons x rest ih => simp [GoValue.WF.slice, ih]

theorem WF_map (m : List (String × GoValue)) :
    GoValue.WF.map m ↔ ∀ kv ∈ m, kv.2.WF := by
  induction m with
  | nil => simp [GoValue.WF.map]
  | cons p rest ih =>
    obtain ⟨k, v⟩ := p
    simp only [GoValue.WF.map, ih, List.mem_cons, forall_eq_or_imp]

theorem isNil_iff (v : GoValue) : v.isNil = true ↔ v = .nil := by
  cases v <;> simp [GoValue.isNil]

theorem prune_eq_some {v c : GoValue} (h : prune v = some c) :
    removeNullsAndEmpty v = c ∧ c.isNil = false := by
  unfold prune at h
  by_cases hn : (removeNullsAndEmpty v).isNil = true
  · simp [hn] at h
  · rw [if_neg hn] at h
    have h' : removeNullsAndEmpty v = c := Option.some.inj h
    subst h'
    exact ⟨rfl, by simpa using hn⟩

theorem prune_of_fixed {c : GoValue} (h : removeNullsAndEmpty c = c) (hn : c.isNil = false) :
    prune c = some c := by
  simp [prune, h, hn]

theorem keptPairs_mem {m : List (String × GoValue)} {p : String × GoValue}
    (h : p ∈ keptPairs m) : ∃ v, (p.1, v) ∈ m ∧ prune v = some p.2 := by
  unfold keptPairs at h
  obtain ⟨kv, hkv, hp⟩ := List.mem_filterMap.mp h
  obtain ⟨c, hc, hpc⟩ := Option.map_eq_some'.mp hp
  subst hpc
  exact ⟨kv.2, hkv, hc⟩

theorem filterMap_fixed {α : Type} (f : α → Option α) (l : List α)
    (h : ∀ x ∈ l, f x = some x) : l.filterMap f = l := by
  induction l with
  | nil => rfl
  | cons x rest ih =>
    have hx := h x (List.mem_cons_self _ _)
    rw [List.filterMap_cons, hx, ih (fun y hy => h y (List.mem_cons_of_mem _ hy))]

theorem keptPairs_fixed (m : List (String × GoValue))
    (h : ∀ p ∈ m, prune p.2 = some p.2) : keptPairs m = m := by
  unfold keptPairs
  apply filterMap_fixed
  intro p hp
  simp [h p hp]

/-! ## What a pruned value looks like -/

/-- Every non-nil result of `removeNullsAndEmpty` holds no nil, holds no empty
container, lists no key twice and is left unchanged by another pass. -/
theorem prune_clean : ∀ v c : GoValue, prune v = some c →
    c.hasAbsent = false ∧ c.hasEmpty = false ∧ c.WF ∧ removeNullsAndEmpty c = c := by
  intro v
  induction v using goValue_induct with
  | hnil => intro c h; simp [prune, removeNullsAndEmpty, GoValue.isNil] at h
  | hstring s =>
    intro c h
    obtain ⟨h1, -⟩ := prune_eq_some h
    subst h1
    simp [removeNullsAndEmpty, GoValue.hasAbsent, GoValue.hasEmpty, GoValue.WF]
  | hint i =>
    intro c h
    obtain ⟨h1, -⟩ := prune_eq_some h
    subst h1
    simp [removeNullsAndEmpty, GoValue.hasAbsent, GoValue.hasEmpty, GoValue.WF]
  | hfloat f =>
    intro c h
    obtain ⟨h1, -⟩ := prune_eq_some h
    subst h1
    simp [removeNullsAndEmpty, GoValue.hasAbsent, GoValue.hasEmpty, GoValue.WF]
  | hbool b =>
    intro c h
    obtain ⟨h1, -⟩ := prune_eq_some h
    subst h1
    simp [removeNullsAndEmpty, GoValue.hasAbsent, GoValue.hasEmpty, GoValue.WF]
  | hbig p =>
    intro c h
    obtain ⟨h1, -⟩ := prune_eq_some h
    subst h1
    simp [removeNullsAndEmpty, GoValue.hasAbsent, GoValue.hasEmpty, GoValue.WF]
  | hslice xs ih =>
    intro c h
    obtain ⟨h1, h2⟩ := prune_eq_some h
    rw [removeNullsAndEmpty_slice] at h1
    by_cases he : (xs.filterMap prune).isEmpty = true
    · rw [if_pos he] at h1; subst h1; simp [GoValue.isNil] at h2
    · rw [if_neg he] at h1
      subst h1
      have hall : ∀ d ∈ xs.filterMap prune,
          d.hasAbsent = false ∧ d.hasEmpty = false ∧ d.WF ∧ removeNullsAndEmpty d = d := by
        intro d hd
        obtain ⟨x, hx, hxd⟩ := List.mem_filterMap.mp hd
        exact ih x hx d hxd
      have hfix : (xs.filterMap prune).filterMap prune = xs.filterMap prune := by
        apply filterMap_fixed
        intro d hd
        have := hall d hd
        apply prune_of_fixed this.2.2.2
        cases d <;> simp_all [GoValue.isNil, GoValue.hasAbsent]
      refine ⟨?_, ?_, ?_, ?_⟩
      · simp only [GoValue.hasAbsent]
        exact (hasAbsent_inSlice _).mpr (fun d hd => (hall d hd).1)
      · simp only [GoValue.hasEmpty, Bool.or_eq_false_iff]
        exact ⟨by simpa using he, (hasEmpty_inSlice _).mpr (fun d hd => (hall d hd).2.1)⟩
      · simp only [GoValue.WF]
        exact (WF_slice _).mpr (fun d hd => (hall d hd).2.2.1)
      · rw [removeNullsAndEmpty_slice, hfix, if_neg he]
  | hmap m ih =>
    intro c h
    obtain ⟨h1, h2⟩ := prune_eq_some h
    rw [removeNullsAndEmpty_map] at h1
    by_cases he : (mapSetAll [] (keptPairs m)).isEmpty = true
    · rw [if_pos he] at h1; subst h1; simp [GoValue.isNil] at h2
    · rw [if_neg he] at h1
      subst h1
      have hall : ∀ p ∈ mapSetAll [] (keptPairs m),
          p.2.hasAbsent = false ∧ p.2.hasEmpty = false ∧ p.2.WF ∧
            removeNullsAndEmpty p.2 = p.2 := by
        intro p hp
        rcases mapSetAll_mem _ _ p hp with h0 | h0
        · cases h0
        · obtain ⟨x, hx, hxp⟩ := keptPairs_mem h0
          exact ih (p.1, x) hx p.2 hxp
      have huniq : uniqueKeys (mapSetAll [] (keptPairs m)) :=
        mapSetAll_uniqueKeys _ _ (by simp [uniqueKeys])
      have hfix : keptPairs (mapSetAll [] (keptPairs m)) = mapSetAll [] (keptPairs m) := by
        apply keptPairs_fixed
        intro p hp
        have := hall p hp
        apply prune_of_fixed this.2.2.2
        cases hp2 : p.2 <;> simp_all [GoValue.isNil, GoValue.hasAbsent]
      refine ⟨?_, ?_, ?_, ?_⟩
      · simp only [GoValue.hasAbsent]
        exact (hasAbsent_inMap _).mpr (fun p hp => (hall p hp).1)
      · simp only [GoValue.hasEmpty, Bool.or_eq_false_iff]
        exact ⟨by simpa using he, (hasEmpty_inMap _).mpr (fun p hp => (hall p hp).2.1)⟩
      · simp only [GoValue.WF]
        exact ⟨huniq, (WF_map _).mpr (fun p hp => (hall p hp).2.2.1)⟩
      · rw [removeNullsAndEmpty_map, hfix, mapSetAll_nil_unique _ huniq, if_neg he]


/-! ## Lookup in a pruned mapping, and the leaves of a pruned value -/

theorem mapGet_none {α : Type} (m : List (String × α)) (k : String)
    (h : k ∉ m.map Prod.fst) : mapGet m k = none := by
  induction m with
  | nil => rfl
  | cons p rest ih =>
    obtain ⟨k', v'⟩ := p
    simp only [List.map_cons, List.mem_cons, not_or] at h
    have hne : ¬ k' = k := fun e => h.1 e.symm
    simp [mapGet, hne, ih h.2]

theorem keptPairs_cons (k : String) (v : GoValue) (rest : List (String × GoValue)) :
    keptPairs ((k, v) :: rest) =
      match prune v with
      | none => keptPairs rest
      | some c => (k, c) :: keptPairs rest := by
  unfold keptPairs
  rw [List.filterMap_cons]
  cases prune v <;> simp

theorem keptPairs_keys (m : List (String × GoValue)) :
    List.Sublist ((keptPairs m).map Prod.fst) (m.map Prod.fst) := by
  induction m with
  | nil => simp [keptPairs]
  | cons p rest ih =>
    obtain ⟨k, v⟩ := p
    rw [keptPairs_cons]
    cases prune v with
    | none => exact List.Sublist.cons _ ih
    | some c => exact List.Sublist.cons₂ _ ih

theorem keptPairs_uniqueKeys (m : List (String × GoValue)) (h : uniqueKeys m) :
    uniqueKeys (keptPairs m) :=
  List.Nodup.sublist (keptPairs_keys m) h

theorem mapGet_keptPairs (m : List (String × GoValue)) (h : uniqueKeys m) (k : String) :
    mapGet (keptPairs m) k = (mapGet m k).bind prune := by
  induction m with
  | nil => simp [keptPairs, mapGet]
  | cons p rest ih =>
    obtain ⟨k', v⟩ := p
    have h' : k' ∉ rest.map Prod.fst ∧ uniqueKeys rest := by
      unfold uniqueKeys at h ⊢
      simpa [List.nodup_cons] using h
    rw [keptPairs_cons]
    by_cases hk : k' = k
    · subst hk
      have hnone : mapGet (keptPairs rest) k' = none := by
        apply mapGet_none
        intro hmem
        exact h'.1 ((keptPairs_keys rest).subset hmem)
      cases hp : prune v with
      | none => simp [mapGet, hp, hnone]
      | some c => simp [mapGet, hp]
    · cases hp : prune v with
      | none => simp [mapGet, hk, ih h'.2]
      | some c => simp [mapGet, hk, ih h'.2]

theorem removeNullsAndEmpty_map_unique (m : List (String × GoValue)) (h : uniqueKeys m) :
    removeNullsAndEmpty (.map m) =
      if (keptPairs m).isEmpty then .nil else .map (keptPairs m) := by
  rw [removeNullsAndEmpty_map, mapSetAll_nil_unique _ (keptPairs_uniqueKeys m h)]

theorem prune_eq_none {v : GoValue} : prune v = none ↔ removeNullsAndEmpty v = .nil := by
  unfold prune
  by_cases hn : (removeNullsAndEmpty v).isNil = true
  · simp [hn, (isNil_iff _).mp hn, GoValue.isNil]
  · have : removeNullsAndEmpty v ≠ .nil := fun e => hn ((isNil_iff _).mpr e)
    simp [hn, this]

theorem prune_of_eq {v : GoValue} (h : removeNullsAndEmpty v ≠ .nil) :
    prune v = some (removeNullsAndEmpty v) := by
  cases hp : prune v with
  | none => exact absurd (prune_eq_none.mp hp) h
  | some c => rw [(prune_eq_some hp).1]

theorem filterMap_prune_isEmpty (xs : List GoValue) :
    (xs.filterMap prune).isEmpty = true ↔ ∀ x ∈ xs, removeNullsAndEmpty x = .nil := by
  rw [List.isEmpty_iff, List.filterMap_eq_nil_iff]
  constructor
  · intro h x hx; exact prune_eq_none.mp (h x hx)
  · intro h x hx; exact prune_eq_none.mpr (h x hx)

theorem keptPairs_isEmpty (m : List (String × GoValue)) :
    (keptPairs m).isEmpty = true ↔ ∀ kv ∈ m, removeNullsAndEmpty kv.2 = .nil := by
  unfold keptPairs
  rw [List.isEmpty_iff, List.filterMap_eq_nil_iff]
  constructor
  · intro h kv hkv
    have := h kv hkv
    exact prune_eq_none.mp (by simpa using this)
  · intro h kv hkv
    simp [prune_eq_none.mpr (h kv hkv)]

theorem leaves_ofSlice_filterMap (xs : List GoValue)
    (h : ∀ x ∈ xs, (removeNullsAndEmpty x).leaves = x.leaves) :
    GoValue.leaves.ofSlice (xs.filterMap prune) = GoValue.leaves.ofSlice xs := by
  induction xs with
  | nil => rfl
  | cons x rest ih =>
    have hx := h x (List.mem_cons_self _ _)
    have hrest := ih (fun y hy => h y (List.mem_cons_of_mem _ hy))
    rw [List.filterMap_cons]
    cases hp : prune x with
    | none =>
      rw [prune_eq_none.mp hp] at hx
      simp only [GoValue.leaves.ofSlice, hrest, ← hx, GoValue.leaves, List.nil_append]
    | some c =>
      rw [(prune_eq_some hp).1] at hx
      simp only [GoValue.leaves.ofSlice, hrest, hx]

theorem leaves_ofMap_keptPairs (m : List (String × GoValue))
    (h : ∀ kv ∈ m, (removeNullsAndEmpty kv.2).leaves = kv.2.leaves) :
    GoValue.leaves.ofMap (keptPairs m) = GoValue.leaves.ofMap m := by
  induction m with
  | nil => rfl
  | cons p rest ih =>
    obtain ⟨k, v⟩ := p
    have hx := h (k, v) (List.mem_cons_self _ _)
    have hrest := ih (fun y hy => h y (List.mem_cons_of_mem _ hy))
    rw [keptPairs_cons]
    cases hp : prune v with
    | none =>
      rw [prune_eq_none.mp hp] at hx
      simp only [GoValue.leaves.ofMap, hrest, ← hx, GoValue.leaves, List.nil_append]
    | some c =>
      rw [(prune_eq_some hp).1] at hx
      simp only [GoValue.leaves.ofMap, hrest, hx]

theorem leaves_removeNullsAndEmpty : ∀ v : GoValue, v.WF → v.hasAbsent = false →
    (removeNullsAndEmpty v).leaves = v.leaves := by
  intro v
  induction v using goValue_induct with
  | hnil => intro _ _; rfl
  | hstring s => intro _ _; rfl
  | hint i => intro _ _; rfl
  | hfloat f => intro _ _; rfl
  | hbool b => intro _ _; rfl
  | hbig p => intro _ _; rfl
  | hslice xs ih =>
    intro hwf hab
    simp only [GoValue.WF] at hwf
    simp only [GoValue.hasAbsent] at hab
    have hall : ∀ x ∈ xs, (removeNullsAndEmpty x).leaves = x.leaves := fun x hx =>
      ih x hx ((WF_slice xs).mp hwf x hx) ((hasAbsent_inSlice xs).mp hab x hx)
    have hl := leaves_ofSlice_filterMap xs hall
    rw [removeNullsAndEmpty_slice]
    by_cases he : (xs.filterMap prune).isEmpty = true
    · rw [if_pos he]
      rw [List.isEmpty_iff] at he
      rw [he] at hl
      simp only [GoValue.leaves]
      exact hl
    · rw [if_neg he]
      simp only [GoValue.leaves]
      exact hl
  | hmap m ih =>
    intro hwf hab
    simp only [GoValue.WF] at hwf
    simp only [GoValue.hasAbsent] at hab
    have hall : ∀ kv ∈ m, (removeNullsAndEmpty kv.2).leaves = kv.2.leaves := fun kv hkv =>
      ih kv hkv ((WF_map m).mp hwf.2 kv hkv) ((hasAbsent_inMap m).mp hab kv hkv)
    have hl := leaves_ofMap_keptPairs m hall
    rw [removeNullsAndEmpty_map_unique m hwf.1]
    by_cases he : (keptPairs m).isEmpty = true
    · rw [if_pos he]
      rw [List.isEmpty_iff] at he
      rw [he] at hl
      simp only [GoValue.leaves]
      exact hl
    · rw [if_neg he]
      simp only [GoValue.leaves]
      exact hl


/-! ## Induction over framework values -/

/-- Structural induction on a framework value, with the elements of a collection
and the underlying value of a dynamic wrapper as induction hypotheses. -/
theorem attrValue_induct {P : AttrValue → Prop}
    (hnil : P .nil) (hstring : ∀ st s, P (.string st s)) (hnumber : ∀ st n, P (.number st n))
    (hbool : ∀ st b, P (.bool st b))
    (hlist : ∀ st (es : List AttrValue), (∀ x ∈ es, P x) → P (.list st es))
    (htuple : ∀ st (es : List AttrValue), (∀ x ∈ es, P x) → P (.tuple st es))
    (hset : ∀ st (es : List AttrValue), (∀ x ∈ es, P x) → P (.set st es))
    (hmap : ∀ st (m : List (String × AttrValue)), (∀ kv ∈ m, P kv.2) → P (.map st m))
    (hobject : ∀ st (m : List (String × AttrValue)), (∀ kv ∈ m, P kv.2) → P (.object st m))
    (hdynamic : ∀ st u, P u → P (.dynamic st u))
    (hother : ∀ name st, P (.other name st)) :
    ∀ v, P v := by
  intro v
  refine @AttrValue.rec P (fun xs => ∀ x ∈ xs, P x) (fun m => ∀ kv ∈ m, P kv.2)
    (fun kv => P kv.2) hnil hstring hnumber hbool ?_ ?_ ?_ ?_ ?_ hdynamic hother
    ?_ ?_ ?_ ?_ ?_ v
  · intro st es ih; exact hlist st es ih
  · intro st es ih; exact htuple st es ih
  · intro st es ih; exact hset st es ih
  · intro st m ih; exact hmap st m ih
  · intro st m ih; exact hobject st m ih
  · intro x hx; cases hx
  · intro x xs hx hxs y hy
    rcases List.mem_cons.mp hy with h | h
    · exact h ▸ hx
    · exact hxs y h
  · intro kv hkv; cases hkv
  · intro kv m hkv hm y hy
    rcases List.mem_cons.mp hy with h | h
    · exact h ▸ hkv
    · exact hm y h
  · intro k v hv; exact hv

theorem allAbsent_elements (es : List AttrValue) :
    AttrValue.allAbsent.elements es = true ↔ ∀ x ∈ es, x.allAbsent = true := by
  induction es with
  | nil => simp [AttrValue.allAbsent.elements]
  | cons x rest ih => simp [AttrValue.allAbsent.elements, ih]

theorem allAbsent_entries (m : List (String × AttrValue)) :
    AttrValue.allAbsent.entries m = true ↔ ∀ kv ∈ m, kv.2.allAbsent = true := by
  induction m with
  | nil => simp [AttrValue.allAbsent.entries]
  | cons p rest ih =>
    obtain ⟨k, v⟩ := p
    simp only [AttrValue.allAbsent.entries, Bool.and_eq_true, ih, List.mem_cons,
      forall_eq_or_imp]

/-! ## Values whose every leaf is absent -/

theorem elementsLoop_collapse (es : List AttrValue)
    (h : ∀ x ∈ es, ∃ g, attrValueToGoValue x = .ok g ∧ removeNullsAndEmpty g = .nil) :
    ∀ result : List GoValue, (∀ g ∈ result, removeNullsAndEmpty g = .nil) →
      ∃ r, attrValueToGoValue.elementsLoop es result = .ok r ∧
        ∀ g ∈ r, removeNullsAndEmpty g = .nil := by
  induction es with
  | nil => intro result hr; exact ⟨result, rfl, hr⟩
  | cons x rest ih =>
    intro result hr
    obtain ⟨g, hg, hgn⟩ := h x (List.mem_cons_self _ _)
    have := ih (fun y hy => h y (List.mem_cons_of_mem _ hy)) (result ++ [g]) (by
      intro g' hg'
      rcases List.mem_append.mp hg' with h1 | h1
      · exact hr g' h1
      · rw [List.mem_singleton.mp h1]; exact hgn)
    simpa [attrValueToGoValue.elementsLoop, hg] using this

theorem entriesLoop_collapse (m : List (String × AttrValue))
    (h : ∀ kv ∈ m, ∃ g, attrValueToGoValue kv.2 = .ok g ∧ removeNullsAndEmpty g = .nil) :
    ∀ result : List (String × GoValue), (∀ p ∈ result, removeNullsAndEmpty p.2 = .nil) →
      ∃ r, attrValueToGoValue.entriesLoop m result = .ok r ∧
        ∀ p ∈ r, removeNullsAndEmpty p.2 = .nil := by
  induction m with
  | nil => intro result hr; exact ⟨result, rfl, hr⟩
  | cons kv rest ih =>
    obtain ⟨k, x⟩ := kv
    intro result hr
    obtain ⟨g, hg, hgn⟩ := h (k, x) (List.mem_cons_self _ _)
    have := ih (fun y hy => h y (List.mem_cons_of_mem _ hy)) (mapSet result k g) (by
      intro p hp
      rcases mapSet_mem result k g p hp with h1 | h1
      · exact hr p h1
      · rw [h1]; exact hgn)
    simpa [attrValueToGoValue.entriesLoop, hg] using this

theorem removeNullsAndEmpty_slice_collapse (r : List GoValue)
    (h : ∀ g ∈ r, removeNullsAndEmpty g = .nil) : removeNullsAndEmpty (.slice r) = .nil := by
  rw [removeNullsAndEmpty_slice, if_pos ((filterMap_prune_isEmpty r).mpr h)]

theorem removeNullsAndEmpty_map_collapse (r : List (String × GoValue))
    (h : ∀ p ∈ r, removeNullsAndEmpty p.2 = .nil) : removeNullsAndEmpty (.map r) = .nil := by
  have he := List.isEmpty_iff.mp ((keptPairs_isEmpty r).mpr h)
  rw [removeNullsAndEmpty_map, he]
  rfl

/-- A value whose every leaf is absent converts, by either routine, to a
canonical value that cleans to nil. -/
theorem allAbsent_collapse : ∀ v : AttrValue, v.allAbsent = true →
    (∃ g, attrValueToGoValue v = .ok g ∧ removeNullsAndEmpty g = .nil) ∧
    (∃ g, dynamicToGoValue.switch v = .ok g ∧ removeNullsAndEmpty g = .nil) := by
  have hlistlike : ∀ es : List AttrValue,
      (∀ x ∈ es, x.allAbsent = true →
        (∃ g, attrValueToGoValue x = .ok g ∧ removeNullsAndEmpty g = .nil) ∧
        (∃ g, dynamicToGoValue.switch x = .ok g ∧ removeNullsAndEmpty g = .nil)) →
      AttrValue.allAbsent.elements es = true →
      ∃ r, attrValueToGoValue.elementsLoop es [] = .ok r ∧
        removeNullsAndEmpty (.slice r) = .nil := by
    intro es ih hall
    obtain ⟨r, hr, hrn⟩ := elementsLoop_collapse es
      (fun x hx => (ih x hx ((allAbsent_elements es).mp hall x hx)).1) [] (by simp)
    exact ⟨r, hr, removeNullsAndEmpty_slice_collapse r hrn⟩
  have hmaplike : ∀ m : List (String × AttrValue),
      (∀ kv ∈ m, kv.2.allAbsent = true →
        (∃ g, attrValueToGoValue kv.2 = .ok g ∧ removeNullsAndEmpty g = .nil) ∧
        (∃ g, dynamicToGoValue.switch kv.2 = .ok g ∧ removeNullsAndEmpty g = .nil)) →
      AttrValue.allAbsent.entries m = true →
      ∃ r, attrValueToGoValue.entriesLoop m [] = .ok r ∧
        removeNullsAndEmpty (.map r) = .nil := by
    intro m ih hall
    obtain ⟨r, hr, hrn⟩ := entriesLoop_collapse m
      (fun x hx => (ih x hx ((allAbsent_entries m).mp hall x hx)).1) [] (by simp)
    exact ⟨r, hr, removeNullsAndEmpty_map_collapse r hrn⟩
  intro v
  induction v using attrValue_induct with
  | hnil =>
    intro _
    exact ⟨⟨.nil, rfl, rfl⟩, ⟨.nil, rfl, rfl⟩⟩
  | hstring st s =>
    intro h
    have hst : st = .Null := by simpa [AttrValue.allAbsent] using h
    subst hst
    exact ⟨⟨.nil, rfl, rfl⟩, ⟨.nil, rfl, rfl⟩⟩
  | hnumber st n =>
    intro h
    have hst : st = .Null := by simpa [AttrValue.allAbsent] using h
    subst hst
    exact ⟨⟨.nil, rfl, rfl⟩, ⟨.nil, rfl, rfl⟩⟩
  | hbool st b =>
    intro h
    have hst : st = .Null := by simpa [AttrValue.allAbsent] using h
    subst hst
    exact ⟨⟨.nil, rfl, rfl⟩, ⟨.nil, rfl, rfl⟩⟩
  | hlist st es ih =>
    intro h
    by_cases hst : st = .Null
    · subst hst; exact ⟨⟨.nil, rfl, rfl⟩, ⟨.nil, rfl, rfl⟩⟩
    · have hall : AttrValue.allAbsent.elements es = true := by
        simpa [AttrValue.allAbsent, hst] using h
      obtain ⟨r, hr, hrn⟩ := hlistlike es ih hall
      exact ⟨⟨.slice r, by simp [attrValueToGoValue, hst, hr], hrn⟩,
        ⟨.slice r, by simp [dynamicToGoValue.switch, hst, hr], hrn⟩⟩
  | htuple st es ih =>
    intro h
    by_cases hst : st = .Null
    · subst hst; exact ⟨⟨.nil, rfl, rfl⟩, ⟨.nil, rfl, rfl⟩⟩
    · have hall : AttrValue.allAbsent.elements es = true := by
        simpa [AttrValue.allAbsent, hst] using h
      obtain ⟨r, hr, hrn⟩ := hlistlike es ih hall
      exact ⟨⟨.slice r, by simp [attrValueToGoValue, hst, hr], hrn⟩,
        ⟨.slice r, by simp [dynamicToGoValue.switch, hst, hr], hrn⟩⟩
  | hset st es ih =>
    intro h
    by_cases hst : st = .Null
    · subst hst; exact ⟨⟨.nil, rfl, rfl⟩, ⟨.nil, rfl, rfl⟩⟩
    · have hall : AttrValue.allAbsent.elements es = true := by
        simpa [AttrValue.allAbsent, hst] using h
      obtain ⟨r, hr, hrn⟩ := hlistlike es ih hall
      exact ⟨⟨.slice r, by simp [attrValueToGoValue, hst, hr], hrn⟩,
        ⟨.slice r, by simp [dynamicToGoValue.switch, hst, hr], hrn⟩⟩
  | hmap st m ih =>
    intro h
    by_cases hst : st = .Null
    · subst hst; exact ⟨⟨.nil, rfl, rfl⟩, ⟨.nil, rfl, rfl⟩⟩
    · have hall : AttrValue.allAbsent.entries m = true := by
        simpa [AttrValue.allAbsent, hst] using h
      obtain ⟨r, hr, hrn⟩ := hmaplike m ih hall
      exact ⟨⟨.map r, by simp [attrValueToGoValue, hst, hr], hrn⟩,
        ⟨.map r, by simp [dynamicToGoValue.switch, hst, hr], hrn⟩⟩
  | hobject st m ih =>
    intro h
    by_cases hst : st = .Null
    · subst hst; exact ⟨⟨.nil, rfl, rfl⟩, ⟨.nil, rfl, rfl⟩⟩
    · have hall : AttrValue.allAbsent.entries m = true := by
        simpa [AttrValue.allAbsent, hst] using h
      obtain ⟨r, hr, hrn⟩ := hmaplike m ih hall
      exact ⟨⟨.map r, by simp [attrValueToGoValue, hst, hr], hrn⟩,
        ⟨.map r, by simp [dynamicToGoValue.switch, hst, hr], hrn⟩⟩
  | hdynamic st u ih =>
    intro h
    have hu : u.allAbsent = true := by simpa [AttrValue.allAbsent] using h
    obtain ⟨h1, h2⟩ := ih hu
    refine ⟨?_, ?_⟩
    · simpa [attrValueToGoValue] using h2
    · by_cases hn : u.isNil = true
      · exact ⟨.nil, by simp [dynamicToGoValue.switch, hn], rfl⟩
      · simpa [dynamicToGoValue.switch, hn] using h1
  | hother name st =>
    intro h
    simp [AttrValue.allAbsent] at h


/-! ## The unknown state is not looked at -/

theorem elementsLoop_asKnown (es : List AttrValue)
    (h : ∀ x ∈ es, attrValueToGoValue x = attrValueToGoValue x.asKnown) :
    ∀ result, attrValueToGoValue.elementsLoop es result =
      attrValueToGoValue.elementsLoop (AttrValue.asKnown.elements es) result := by
  induction es with
  | nil => intro result; rfl
  | cons x rest ih =>
    intro result
    have hx := h x (List.mem_cons_self _ _)
    have hrest := ih (fun y hy => h y (List.mem_cons_of_mem _ hy))
    simp only [attrValueToGoValue.elementsLoop, AttrValue.asKnown.elements, ← hx]
    cases attrValueToGoValue x with
    | error e => rfl
    | ok g => exact hrest _

theorem entriesLoop_asKnown (m : List (String × AttrValue))
    (h : ∀ kv ∈ m, attrValueToGoValue kv.2 = attrValueToGoValue kv.2.asKnown) :
    ∀ result, attrValueToGoValue.entriesLoop m result =
      attrValueToGoValue.entriesLoop (AttrValue.asKnown.entries m) result := by
  induction m with
  | nil => intro result; rfl
  | cons kv rest ih =>
    obtain ⟨k, x⟩ := kv
    intro result
    have hx := h (k, x) (List.mem_cons_self _ _)
    have hrest := ih (fun y hy => h y (List.mem_cons_of_mem _ hy))
    simp only [attrValueToGoValue.entriesLoop, AttrValue.asKnown.entries] at hx ⊢
    rw [← hx]
    cases attrValueToGoValue x with
    | error e => rfl
    | ok g => exact hrest _

theorem asKnown_isNil (u : AttrValue) : u.asKnown.isNil = u.isNil := by
  cases u <;> rfl

/-- Neither routine tells an unknown value from the known value with the same
payload. -/
theorem conversion_asKnown : ∀ v : AttrValue,
    attrValueToGoValue v = attrValueToGoValue v.asKnown ∧
    dynamicToGoValue.switch v = dynamicToGoValue.switch v.asKnown := by
  intro v
  induction v using attrValue_induct with
  | hnil => exact ⟨rfl, rfl⟩
  | hstring st s => cases st <;> exact ⟨rfl, rfl⟩
  | hnumber st n => cases st <;> exact ⟨rfl, rfl⟩
  | hbool st b => cases st <;> exact ⟨rfl, rfl⟩
  | hlist st es ih =>
    have hl := elementsLoop_asKnown es (fun x hx => (ih x hx).1) []
    cases st <;>
      simp [attrValueToGoValue, dynamicToGoValue.switch, AttrValue.asKnown, hl]
  | htuple st es ih =>
    have hl := elementsLoop_asKnown es (fun x hx => (ih x hx).1) []
    cases st <;>
      simp [attrValueToGoValue, dynamicToGoValue.switch, AttrValue.asKnown, hl]
  | hset st es ih =>
    have hl := elementsLoop_asKnown es (fun x hx => (ih x hx).1) []
    cases st <;>
      simp [attrValueToGoValue, dynamicToGoValue.switch, AttrValue.asKnown, hl]
  | hmap st m ih =>
    have hl := entriesLoop_asKnown m (fun x hx => (ih x hx).1) []
    cases st <;>
      simp [attrValueToGoValue, dynamicToGoValue.switch, AttrValue.asKnown, hl]
  | hobject st m ih =>
    have hl := entriesLoop_asKnown m (fun x hx => (ih x hx).1) []
    cases st <;>
      simp [attrValueToGoValue, dynamicToGoValue.switch, AttrValue.asKnown, hl]
  | hdynamic st u ih =>
    refine ⟨?_, ?_⟩
    · simp only [attrValueToGoValue, AttrValue.asKnown]
      exact ih.2
    · simp only [dynamicToGoValue.switch, AttrValue.asKnown, asKnown_isNil]
      by_cases hn : u.isNil = true
      · simp [hn]
      · simp only [hn]
        exact ih.1
  | hother name st => exact ⟨rfl, rfl⟩


/-! ## Numbers: integers -/

theorem dyadic_ofNat (neg : Bool) (m n : Nat) :
    dyadic neg m (n : Int) = (if neg then -1 else 1) * ((m * 2 ^ n : Nat) : ℚ) := by
  simp [dyadic, zpow_natCast, mul_assoc]

theorem dyadic_negSucc (neg : Bool) (m n : Nat) :
    dyadic neg m (Int.negSucc n) = (if neg then -1 else 1) * ((m : ℚ) / 2 ^ (n + 1)) := by
  simp only [dyadic, zpow_negSucc]
  rw [div_eq_mul_inv, mul_assoc]

/-- The signed truncation of a finite x. -/
theorem truncAbs_ofNat (x : BigFloat) (n : Nat) (h : x.exp = (n : Int)) :
    x.truncAbs = x.mant * 2 ^ n := by
  simp [BigFloat.truncAbs, h]

theorem truncAbs_negSucc (x : BigFloat) (n : Nat) (h : x.exp = Int.negSucc n) :
    x.truncAbs = x.mant / 2 ^ (n + 1) := by
  have h1 : (Int.negSucc n).toNat = 0 := rfl
  have h2 : (-Int.negSucc n).toNat = n + 1 := rfl
  simp [BigFloat.truncAbs, h, h1, h2]

theorem isInt_negSucc (x : BigFloat) (n : Nat) (hf : x.form = .finite)
    (h : x.exp = Int.negSucc n) : x.IsInt = true ↔ 2 ^ (n + 1) ∣ x.mant := by
  have h2 : (-Int.negSucc n).toNat = n + 1 := rfl
  simp [BigFloat.IsInt, hf, h, h2, Nat.dvd_iff_mod_eq_zero]

theorem isInt_ofNat (x : BigFloat) (n : Nat) (hf : x.form = .finite)
    (h : x.exp = (n : Int)) : x.IsInt = true := by
  simp [BigFloat.IsInt, hf, h, Nat.mod_one]

/-- A finite integer x has the value of its truncated magnitude, with its sign. -/
theorem dyadic_of_isInt (x : BigFloat) (hf : x.form = .finite) (hi : x.IsInt = true) :
    dyadic x.neg x.mant x.exp = (if x.neg then -1 else 1) * (x.truncAbs : ℚ) := by
  cases he : x.exp with
  | ofNat n =>
    rw [truncAbs_ofNat x n he]
    exact dyadic_ofNat _ _ _
  | negSucc n =>
    rw [truncAbs_negSucc x n he, dyadic_negSucc]
    have hd := (isInt_negSucc x n hf he).mp hi
    rw [Nat.cast_div hd (by positivity)]
    simp

/-- A finite x whose value is an integer is an integer for `IsInt`. -/
theorem isInt_of_dyadic (x : BigFloat) (hf : x.form = .finite) (z : Int)
    (h : dyadic x.neg x.mant x.exp = (z : ℚ)) : x.IsInt = true := by
  cases he : x.exp with
  | ofNat n => exact isInt_ofNat x n hf he
  | negSucc n =>
    rw [isInt_negSucc x n hf he]
    rw [he, dyadic_negSucc] at h
    have hpos : (0 : ℚ) < 2 ^ (n + 1) := by positivity
    have hm : (x.mant : ℚ) = (if x.neg then -1 else 1) * (z : ℚ) * 2 ^ (n + 1) := by
      have h' : (x.mant : ℚ) / 2 ^ (n + 1) = (if x.neg then -1 else 1) * (z : ℚ) := by
        rw [← h]
        cases x.neg <;> simp
      rw [div_eq_iff (ne_of_gt hpos)] at h'
      exact h'
    have hmz : (x.mant : Int) = (if x.neg then -1 else 1) * z * 2 ^ (n + 1) := by
      have : ((x.mant : Int) : ℚ) = (((if x.neg then -1 else 1) * z * 2 ^ (n + 1) : Int) : ℚ) := by
        rw [Int.cast_natCast, hm]
        cases x.neg <;> simp
      exact_mod_cast this
    have hdvd : ((2 : Int) ^ (n + 1)) ∣ (x.mant : Int) := ⟨(if x.neg then -1 else 1) * z, by
      rw [hmz]; ring⟩
    have : (((2 : Nat) ^ (n + 1) : Nat) : Int) ∣ (x.mant : Int) := by
      simpa using hdvd
    exact Int.natCast_dvd_natCast.mp this


theorem signedTrunc_cast (x : BigFloat) :
    (((if x.neg then -(x.truncAbs : Int) else (x.truncAbs : Int)) : Int) : ℚ) =
      (if x.neg then -1 else 1) * (x.truncAbs : ℚ) := by
  cases x.neg <;> simp

theorem minInt64_le_zero : MinInt64 ≤ 0 := by decide

theorem zero_le_maxInt64 : 0 ≤ MaxInt64 := by decide

/-- `Int64` is exact on an integer only at an `int64` with the value of x. -/
theorem int64_exact_sound (x : BigFloat) (hi : x.IsInt = true) (ha : x.Int64.2 = .Exact) :
    x.value = .fin (x.Int64.1 : ℚ) ∧ MinInt64 ≤ x.Int64.1 ∧ x.Int64.1 ≤ MaxInt64 := by
  cases hf : x.form with
  | zero =>
    simp [BigFloat.Int64, BigFloat.value, hf, minInt64_le_zero, zero_le_maxInt64]
  | inf => simp [BigFloat.IsInt, hf] at hi
  | finite =>
    have hv := dyadic_of_isInt x hf hi
    simp only [BigFloat.Int64, hf] at ha ⊢
    by_cases h1 : (if x.neg then -(x.truncAbs : Int) else (x.truncAbs : Int)) < MinInt64
    · simp [h1] at ha
    · by_cases h2 : MaxInt64 < (if x.neg then -(x.truncAbs : Int) else (x.truncAbs : Int))
      · simp [h1, h2] at ha
      · simp only [h1, h2, hi, if_true, if_false]
        refine ⟨?_, not_lt.mp h1, not_lt.mp h2⟩
        simp only [BigFloat.value, hf]
        rw [hv, signedTrunc_cast]

/-- On an x whose value is an integer an `int64` holds, `IsInt` is true and
`Int64` returns that integer, exactly. -/
theorem int64_exact_complete (x : BigFloat) (n : Int) (hlo : MinInt64 ≤ n)
    (hhi : n ≤ MaxInt64) (hv : x.value = .fin (n : ℚ)) :
    x.IsInt = true ∧ x.Int64 = (n, .Exact) := by
  cases hf : x.form with
  | zero =>
    simp only [BigFloat.value, hf, NumVal.fin.injEq] at hv
    have hn : n = 0 := by exact_mod_cast hv.symm
    subst hn
    simp [BigFloat.IsInt, BigFloat.Int64, hf]
  | inf =>
    simp only [BigFloat.value, hf] at hv
    cases hneg : x.neg <;> simp [hneg] at hv
  | finite =>
    simp only [BigFloat.value, hf, NumVal.fin.injEq] at hv
    have hi := isInt_of_dyadic x hf n hv
    have ht : (if x.neg then -(x.truncAbs : Int) else (x.truncAbs : Int)) = n := by
      have := dyadic_of_isInt x hf hi
      rw [hv, ← signedTrunc_cast] at this
      exact_mod_cast this.symm
    refine ⟨hi, ?_⟩
    simp only [BigFloat.Int64, hf, ht, hi, if_true]
    rw [if_neg (not_lt.mpr hlo), if_neg (not_lt.mpr hhi)]

/-! ## Numbers: the conversion -/

/-- The number case of both routines on a number that is not null. -/
theorem number_conversion (st : ValueState) (hst : st ≠ .Null) (x : BigFloat) :
    attrValueToGoValue (.number st (some x)) =
      .ok (if x.IsInt = true ∧ x.Int64.2 = .Exact then .int64 x.Int64.1
           else if x.Float64.2 = .Exact then .float64 x.Float64.1
           else .bigFloat (some x)) ∧
    dynamicToGoValue.switch (.number st (some x)) =
      .ok (if x.IsInt = true ∧ x.Int64.2 = .Exact then .int64 x.Int64.1
           else if x.Float64.2 = .Exact then .float64 x.Float64.1
           else .bigFloat (some x)) := by
  by_cases h1 : x.IsInt = true ∧ x.Int64.2 = .Exact
  · simp [attrValueToGoValue, dynamicToGoValue.switch, hst, h1]
  · by_cases h2 : x.Float64.2 = .Exact
    · have h1' : ¬ (x.IsInt = true ∧ x.Int64.2 = .Exact) := h1
      rw [if_neg h1, if_pos h2]
      simp only [attrValueToGoValue, dynamicToGoValue.switch, hst, if_false]
      simp only [Bool.and_eq_true, decide_eq_true_eq, h1', h2, if_false, if_true, and_self]
    · rw [if_neg h1, if_neg h2]
      simp only [attrValueToGoValue, dynamicToGoValue.switch, hst, if_false]
      simp only [Bool.and_eq_true, decide_eq_true_eq, h1, h2, if_false, and_self]


/-! ## Numbers: float64 -/

theorem bitLen_go_spec : ∀ fuel n : Nat, n ≤ fuel →
    n < 2 ^ bitLen.go fuel n ∧ (n ≠ 0 → 2 ^ (bitLen.go fuel n - 1) ≤ n) := by
  intro fuel
  induction fuel with
  | zero =>
    intro n hn
    have : n = 0 := by omega
    subst this
    simp [bitLen.go]
  | succ fuel ih =>
    intro n hn
    by_cases h0 : n = 0
    · subst h0
      simp [bitLen.go]
    · have hhalf : n / 2 ≤ fuel := by omega
      obtain ⟨hup, hlow⟩ := ih (n / 2) hhalf
      simp only [bitLen.go, h0, if_false, Nat.add_sub_cancel]
      refine ⟨?_, fun _ => ?_⟩
      · rw [pow_succ]
        omega
      · by_cases hh : n / 2 = 0
        · have hg : bitLen.go fuel (n / 2) = 0 := by
            rw [hh]
            cases fuel <;> simp [bitLen.go]
          rw [hg]
          simp only [pow_zero]
          omega
        · have h1 := hlow hh
          have hpos : 0 < bitLen.go fuel (n / 2) := by
            rcases Nat.eq_zero_or_pos (bitLen.go fuel (n / 2)) with hz | hz
            · rw [hz] at hup
              simp only [pow_zero] at hup
              omega
            · exact hz
          have hpow : 2 ^ bitLen.go fuel (n / 2) = 2 ^ (bitLen.go fuel (n / 2) - 1) * 2 := by
            rw [← pow_succ]
            congr 1
            omega
          rw [hpow]
          omega

theorem bitLen_lt (n : Nat) : n < 2 ^ bitLen n :=
  (bitLen_go_spec n n (le_refl n)).1

theorem bitLen_le (n : Nat) (h : n ≠ 0) : 2 ^ (bitLen n - 1) ≤ n :=
  (bitLen_go_spec n n (le_refl n)).2 h

theorem bitLen_pos (n : Nat) (h : n ≠ 0) : 0 < bitLen n := by
  rcases Nat.eq_zero_or_pos (bitLen n) with hz | hz
  · have := bitLen_lt n
    rw [hz] at this
    simp only [pow_zero] at this
    omega
  · exact hz

theorem dyadic_shift (neg : Bool) (m t : Nat) (e : Int) :
    dyadic neg (m * 2 ^ t) e = dyadic neg m (e + t) := by
  simp only [dyadic, Nat.cast_mul, Nat.cast_pow, Nat.cast_ofNat]
  rw [zpow_add₀ (by norm_num : (2 : ℚ) ≠ 0), zpow_natCast]
  ring

theorem dyadic_abs (neg : Bool) (m : Nat) (e : Int) :
    |dyadic neg m e| = (m : ℚ) * (2 : ℚ) ^ e := by
  have h : (0 : ℚ) ≤ (m : ℚ) * (2 : ℚ) ^ e := by positivity
  cases neg
  · simp only [dyadic, Bool.false_eq_true, if_false, one_mul]
    exact abs_of_nonneg h
  · simp only [dyadic, if_true, neg_mul, one_mul, abs_neg]
    exact abs_of_nonneg h

/-- The shifts of `scaled` and `rounded`: one of them is zero, and their
difference is `x.exp - x.lastBit`. -/
theorem shifts_cases (x : BigFloat) :
    ((x.lastBit - x.exp).toNat = 0 ∧ ((x.exp - x.lastBit).toNat : Int) = x.exp - x.lastBit) ∨
    ((x.exp - x.lastBit).toNat = 0 ∧ ((x.lastBit - x.exp).toNat : Int) = x.lastBit - x.exp) := by
  by_cases h : x.lastBit ≤ x.exp
  · left
    exact ⟨Int.toNat_eq_zero.mpr (by omega), Int.toNat_of_nonneg (by omega)⟩
  · right
    exact ⟨Int.toNat_eq_zero.mpr (by omega), Int.toNat_of_nonneg (by omega)⟩

theorem lastBit_ge (x : BigFloat) : x.exp + (bitLen x.mant : Int) - 53 ≤ x.lastBit := by
  unfold BigFloat.lastBit
  have := le_max_left (x.exp + (bitLen x.mant : Int) - 1 - 52) (-1074)
  omega

theorem lastBit_ge_min (x : BigFloat) : -1074 ≤ x.lastBit := by
  unfold BigFloat.lastBit
  exact le_max_right _ _

/-- An exactly rounded magnitude fits in 53 bits. -/
theorem rounded_lt_of_exact (x : BigFloat) (n : Nat)
    (h : x.scaled = n * 2 ^ (x.lastBit - x.exp).toNat) : n < 2 ^ 53 := by
  have hm : x.mant < 2 ^ bitLen x.mant := bitLen_lt _
  have hk := lastBit_ge x
  unfold BigFloat.scaled at h
  rcases shifts_cases x with ⟨hs, ha⟩ | ⟨ha, hs⟩
  · rw [hs, pow_zero, mul_one] at h
    rw [← h]
    have hle : bitLen x.mant + (x.exp - x.lastBit).toNat ≤ 53 := by omega
    calc x.mant * 2 ^ (x.exp - x.lastBit).toNat
        < 2 ^ bitLen x.mant * 2 ^ (x.exp - x.lastBit).toNat :=
          Nat.mul_lt_mul_of_pos_right hm (by positivity)
      _ = 2 ^ (bitLen x.mant + (x.exp - x.lastBit).toNat) := (pow_add _ _ _).symm
      _ ≤ 2 ^ 53 := Nat.pow_le_pow_right (by norm_num) hle
  · rw [ha, pow_zero, mul_one] at h
    have hle : bitLen x.mant ≤ 53 + (x.lastBit - x.exp).toNat := by omega
    have h1 : n * 2 ^ (x.lastBit - x.exp).toNat < 2 ^ 53 * 2 ^ (x.lastBit - x.exp).toNat := by
      calc n * 2 ^ (x.lastBit - x.exp).toNat = x.mant := h.symm
        _ < 2 ^ bitLen x.mant := hm
        _ ≤ 2 ^ (53 + (x.lastBit - x.exp).toNat) := Nat.pow_le_pow_right (by norm_num) hle
        _ = 2 ^ 53 * 2 ^ (x.lastBit - x.exp).toNat := pow_add _ _ _
    exact Nat.lt_of_mul_lt_mul_right h1

/-- An exactly rounded magnitude, in units of `2^x.lastBit`, is the value of x. -/
theorem dyadic_of_exact (x : BigFloat) (n : Nat)
    (h : x.scaled = n * 2 ^ (x.lastBit - x.exp).toNat) :
    dyadic x.neg n x.lastBit = dyadic x.neg x.mant x.exp := by
  unfold BigFloat.scaled at h
  rcases shifts_cases x with ⟨hs, ha⟩ | ⟨ha, hs⟩
  · rw [hs, pow_zero, mul_one] at h
    rw [← h, dyadic_shift, ha]
    congr 1
    ring
  · rw [ha, pow_zero, mul_one] at h
    rw [h, dyadic_shift, hs]
    congr 1
    ring

theorem roundedAcc_exact_iff (x : BigFloat) :
    x.roundedAcc = .Exact ↔ x.scaled = x.rounded * 2 ^ (x.lastBit - x.exp).toNat := by
  unfold BigFloat.roundedAcc
  by_cases h1 : x.scaled < x.rounded * 2 ^ (x.lastBit - x.exp).toNat
  · rw [if_pos h1]
    constructor
    · intro h; cases hneg : x.neg <;> simp [hneg] at h
    · intro h; omega
  · rw [if_neg h1]
    by_cases h2 : x.rounded * 2 ^ (x.lastBit - x.exp).toNat < x.scaled
    · rw [if_pos h2]
      constructor
      · intro h; cases hneg : x.neg <;> simp [hneg] at h
      · intro h; omega
    · rw [if_neg h2]
      constructor
      · intro _; omega
      · intro _; rfl

/-- When `Float64` is exact its result is a float64 with the value of x. -/
theorem float64_exact_sound (x : BigFloat) (ha : x.Float64.2 = .Exact) :
    x.Float64.1.valid = true ∧ x.Float64.1.value = x.value := by
  cases hf : x.form with
  | zero => simp [BigFloat.Float64, hf, Float64.valid, Float64.value, BigFloat.value]
  | inf => simp [BigFloat.Float64, hf, Float64.valid, Float64.value, BigFloat.value]
  | finite =>
    simp only [BigFloat.Float64, hf] at ha ⊢
    by_cases hm : x.mant = 0
    · simp [hm, Float64.valid, Float64.value, BigFloat.value, hf, dyadic]
    · by_cases hn : x.rounded = 0
      · rw [if_neg hm, if_pos hn] at ha
        cases hneg : x.neg <;> simp [hneg] at ha
      · by_cases h53 : x.rounded = 2 ^ 53
        · rw [if_neg hm, if_neg hn, if_pos h53] at ha
          by_cases hk : 971 ≤ x.lastBit
          · rw [if_pos hk] at ha
            cases hneg : x.neg <;> simp [hneg] at ha
          · rw [if_neg hk] at ha
            have hex := (roundedAcc_exact_iff x).mp ha
            have := rounded_lt_of_exact x x.rounded hex
            omega
        · rw [if_neg hm, if_neg hn, if_neg h53] at ha ⊢
          by_cases hk : 971 < x.lastBit
          · rw [if_pos hk] at ha
            cases hneg : x.neg <;> simp [hneg] at ha
          · rw [if_neg hk] at ha ⊢
            have hex := (roundedAcc_exact_iff x).mp ha
            have hlt := rounded_lt_of_exact x x.rounded hex
            have hv := dyadic_of_exact x x.rounded hex
            have hmin := lastBit_ge_min x
            refine ⟨?_, ?_⟩
            · simp only [Float64.valid, Bool.and_eq_true, decide_eq_true_eq]
              exact ⟨⟨⟨Nat.pos_of_ne_zero hn, hlt⟩, hmin⟩, not_lt.mp hk⟩
            · simp only [Float64.value, BigFloat.value, hf, hv]


theorem roundHalfEven_of_dvd (m s : Nat) (h : 2 ^ s ∣ m) :
    roundHalfEven m s * 2 ^ s = m := by
  have hr : m % 2 ^ s = 0 := Nat.mod_eq_zero_of_dvd h
  have hpos : 0 < 2 ^ s := by positivity
  unfold roundHalfEven
  simp only [hr, Nat.mul_zero, hpos, if_true]
  exact Nat.div_mul_cancel h

theorem dyadic_magnitude_eq {n1 n2 : Bool} {m1 m2 : Nat} {e1 e2 : Int}
    (h : dyadic n1 m1 e1 = dyadic n2 m2 e2) :
    (m1 : ℚ) * (2 : ℚ) ^ e1 = (m2 : ℚ) * (2 : ℚ) ^ e2 := by
  rw [← dyadic_abs n1, ← dyadic_abs n2, h]

/-- The mantissa of x seen from a float64 with the same value: the last bit of the
float64 is not below `x.lastBit`. -/
theorem lastBit_le_of_eq (x : BigFloat) (hm : x.mant ≠ 0) (m : Nat) (q : Int)
    (hm53 : m < 2 ^ 53) (hq : -1074 ≤ q)
    (h : (m : ℚ) * (2 : ℚ) ^ q = (x.mant : ℚ) * (2 : ℚ) ^ x.exp) : x.lastBit ≤ q := by
  have hsize : 0 < bitLen x.mant := bitLen_pos _ hm
  have hlow : 2 ^ (bitLen x.mant - 1) ≤ x.mant := bitLen_le _ hm
  have hlowq : (2 : ℚ) ^ (bitLen x.mant - 1) ≤ (x.mant : ℚ) := by exact_mod_cast hlow
  have hpow : (0 : ℚ) < (2 : ℚ) ^ x.exp := by positivity
  have hpowq : (0 : ℚ) < (2 : ℚ) ^ q := by positivity
  have h1 : (2 : ℚ) ^ (x.exp + ((bitLen x.mant - 1 : Nat) : Int)) ≤
      (x.mant : ℚ) * (2 : ℚ) ^ x.exp := by
    rw [zpow_add₀ (by norm_num : (2 : ℚ) ≠ 0), zpow_natCast, mul_comm]
    exact mul_le_mul_of_nonneg_right hlowq (le_of_lt hpow)
  have h2 : (m : ℚ) * (2 : ℚ) ^ q < (2 : ℚ) ^ ((53 : Int) + q) := by
    rw [zpow_add₀ (by norm_num : (2 : ℚ) ≠ 0)]
    have : (m : ℚ) < (2 : ℚ) ^ (53 : Int) := by
      have h53 : ((m : Nat) : ℚ) < ((2 ^ 53 : Nat) : ℚ) := by exact_mod_cast hm53
      have e53 : ((2 ^ 53 : Nat) : ℚ) = (2 : ℚ) ^ (53 : Int) := by norm_num
      rw [e53] at h53
      exact h53
    exact mul_lt_mul_of_pos_right this hpowq
  have h3 : (2 : ℚ) ^ (x.exp + ((bitLen x.mant - 1 : Nat) : Int)) <
      (2 : ℚ) ^ ((53 : Int) + q) := by
    calc (2 : ℚ) ^ (x.exp + ((bitLen x.mant - 1 : Nat) : Int))
        ≤ (x.mant : ℚ) * (2 : ℚ) ^ x.exp := h1
      _ = (m : ℚ) * (2 : ℚ) ^ q := h.symm
      _ < (2 : ℚ) ^ ((53 : Int) + q) := h2
  have h4 := (zpow_lt_zpow_iff_right₀ (by norm_num : (1 : ℚ) < 2)).mp h3
  unfold BigFloat.lastBit
  apply max_le
  · omega
  · exact hq

/-- When x has the value of a float64, its magnitude is a whole number of units
`2^x.lastBit`. -/
theorem scaled_dvd_of_eq (x : BigFloat) (m : Nat) (q : Int) (hq : x.lastBit ≤ q)
    (h : (m : ℚ) * (2 : ℚ) ^ q = (x.mant : ℚ) * (2 : ℚ) ^ x.exp) :
    2 ^ (x.lastBit - x.exp).toNat ∣ x.scaled := by
  rcases shifts_cases x with ⟨hs, _⟩ | ⟨ha, hs⟩
  · rw [hs, pow_zero]; exact one_dvd _
  · unfold BigFloat.scaled
    rw [ha, pow_zero, mul_one]
    have hd : ((q - x.lastBit).toNat : Int) = q - x.lastBit := Int.toNat_of_nonneg (by omega)
    have hq' : q = x.exp + (((x.lastBit - x.exp).toNat + (q - x.lastBit).toNat : Nat) : Int) := by
      push_cast
      omega
    have hpow : (2 : ℚ) ^ x.exp ≠ 0 := by positivity
    rw [hq', zpow_add₀ (by norm_num : (2 : ℚ) ≠ 0), zpow_natCast] at h
    have h2 : (2 : ℚ) ^ x.exp *
        ((m : ℚ) * (2 : ℚ) ^ ((x.lastBit - x.exp).toNat + (q - x.lastBit).toNat)) =
        (2 : ℚ) ^ x.exp * (x.mant : ℚ) := by
      rw [mul_comm _ (x.mant : ℚ), ← h]
      ring
    have h' := mul_left_cancel₀ hpow h2
    have hnat : m * 2 ^ ((x.lastBit - x.exp).toNat + (q - x.lastBit).toNat) = x.mant := by
      exact_mod_cast h'
    rw [← hnat, pow_add]
    exact ⟨m * 2 ^ (q - x.lastBit).toNat, by ring⟩

/-- `Float64` is exact on every x that has the value of a float64. -/
theorem float64_exact_complete (x : BigFloat) (h : x.representable) :
    x.Float64.2 = .Exact := by
  obtain ⟨f, hvalid, hval⟩ := h
  cases hf : x.form with
  | zero => simp [BigFloat.Float64, hf]
  | inf => simp [BigFloat.Float64, hf]
  | finite =>
    simp only [BigFloat.Float64, hf]
    by_cases hm : x.mant = 0
    · simp [hm]
    · rw [if_neg hm]
      simp only [BigFloat.value, hf] at hval
      have hxne : dyadic x.neg x.mant x.exp ≠ 0 := by
        intro h0
        have := dyadic_abs x.neg x.mant x.exp
        rw [h0, abs_zero] at this
        have hpos : (0 : ℚ) < (x.mant : ℚ) * (2 : ℚ) ^ x.exp := by
          have : (0 : ℚ) < (x.mant : ℚ) := by exact_mod_cast Nat.pos_of_ne_zero hm
          positivity
        rw [← this] at hpos
        exact lt_irrefl _ hpos
      cases hff : f.form with
      | zero =>
        simp only [Float64.value, hff, NumVal.fin.injEq] at hval
        exact absurd hval.symm hxne
      | inf =>
        simp only [Float64.value, hff] at hval
        cases hneg : f.neg <;> simp [hneg] at hval
      | finite =>
        simp only [Float64.value, hff, NumVal.fin.injEq] at hval
        simp only [Float64.valid, hff, Bool.and_eq_true, decide_eq_true_eq] at hvalid
        obtain ⟨⟨⟨-, hm53⟩, hqlo⟩, hqhi⟩ := hvalid
        have hmag := dyadic_magnitude_eq hval
        have hk := lastBit_le_of_eq x hm f.mant f.exp hm53 hqlo hmag
        have hdvd := scaled_dvd_of_eq x f.mant f.exp hk hmag
        have hex : x.scaled = x.rounded * 2 ^ (x.lastBit - x.exp).toNat :=
          (roundHalfEven_of_dvd _ _ hdvd).symm
        have hlt := rounded_lt_of_exact x x.rounded hex
        have hacc := (roundedAcc_exact_iff x).mpr hex
        have hsc : x.scaled ≠ 0 := by
          unfold BigFloat.scaled
          exact Nat.mul_ne_zero hm (by positivity)
        have hn0 : x.rounded ≠ 0 := by
          intro h0
          rw [h0, zero_mul] at hex
          exact hsc hex
        have hn53 : x.rounded ≠ 2 ^ 53 := by omega
        have hk971 : ¬ 971 < x.lastBit := by omega
        rw [if_neg hn0, if_neg hn53, if_neg hk971]
        exact hacc


theorem not_isInt64_of_eval (x : BigFloat)
    (h : ¬ (x.IsInt = true ∧ x.Int64.2 = .Exact)) : ¬ x.isInt64 := by
  rintro ⟨n, hlo, hhi, hv⟩
  obtain ⟨hi, h64⟩ := int64_exact_complete x n hlo hhi hv
  exact h ⟨hi, by rw [h64]⟩

theorem isInt64_of_eval (x : BigFloat)
    (h : x.IsInt = true ∧ x.Int64.2 = .Exact) : x.isInt64 := by
  obtain ⟨hv, hlo, hhi⟩ := int64_exact_sound x h.1 h.2
  exact ⟨x.Int64.1, hlo, hhi, hv⟩

theorem not_representable_of_eval (x : BigFloat) (h : x.Float64.2 ≠ .Exact) :
    ¬ x.representable :=
  fun hr => h (float64_exact_complete x hr)

theorem representable_of_eval (x : BigFloat) (h : x.Float64.2 = .Exact) :
    x.representable :=
  ⟨x.Float64.1, float64_exact_sound x h⟩


/-! ## Pruning: the claims -/

/-- C1. Pruning is idempotent: cleaning the result of `removeNullsAndEmpty` once
more (a nil result being the absent value itself) changes nothing. -/
theorem C1_removeNullsAndEmpty_idempotent (v : GoValue) :
    removeNullsAndEmpty (removeNullsAndEmpty v) = removeNullsAndEmpty v := by
  cases hp : prune v with
  | none => rw [prune_eq_none.mp hp]; rfl
  | some c =>
    rw [(prune_eq_some hp).1]
    exact (prune_clean v c hp).2.2.2

/-- C2. No absence survives pruning: a non-nil result of `removeNullsAndEmpty`
is not nil and has no nil list element and no nil mapping value at any depth. -/
theorem C2_no_absent_survives (v r : GoValue) (h : removeNullsAndEmpty v = r)
    (hr : r ≠ .nil) : r.hasAbsent = false := by
  have hp : prune v = some r := by
    subst h
    exact prune_of_eq hr
  exact (prune_clean v r hp).1

/-- C2 at `{a: [1, nil, 2], b: nil, c: {d: nil, e: "x"}}`. -/
theorem C2_no_absent_survives_witness :
    removeNullsAndEmpty (.map [("a", .slice [.int64 1, .nil, .int64 2]), ("b", .nil),
        ("c", .map [("d", .nil), ("e", .string "x")])])
      = .map [("a", .slice [.int64 1, .int64 2]), ("c", .map [("e", .string "x")])] ∧
    GoValue.map [("a", .slice [.int64 1, .int64 2]), ("c", .map [("e", .string "x")])]
      ≠ .nil ∧
    (GoValue.map [("a", .slice [.int64 1, .int64 2]),
      ("c", .map [("e", .string "x")])]).hasAbsent = false :=
  ⟨rfl, fun e => GoValue.noConfusion e,
   C2_no_absent_survives
    (.map [("a", .slice [.int64 1, .nil, .int64 2]), ("b", .nil),
      ("c", .map [("d", .nil), ("e", .string "x")])])
    (.map [("a", .slice [.int64 1, .int64 2]), ("c", .map [("e", .string "x")])])
    rfl (fun e => GoValue.noConfusion e)⟩

/-- C3. No empty container survives pruning: in a non-nil result of
`removeNullsAndEmpty` every list and every mapping, the result itself included,
has at least one element, whether the container was empty in the input or became
empty by losing its absent members. -/
theorem C3_no_empty_container_survives (v r : GoValue) (h : removeNullsAndEmpty v = r)
    (hr : r ≠ .nil) : r.hasEmpty = false := by
  have hp : prune v = some r := by
    subst h
    exact prune_of_eq hr
  exact (prune_clean v r hp).2.1

/-- C3 at `{a: [], b: {}, c: [[], {}, 0], d: [nil]}`, whose containers `a`, `b`
and those under `c` are empty in the input with no absent member. -/
theorem C3_no_empty_container_survives_witness :
    removeNullsAndEmpty (.map [("a", .slice []), ("b", .map []),
        ("c", .slice [.slice [], .map [], .int64 0]), ("d", .slice [.nil])])
      = .map [("c", .slice [.int64 0])] ∧
    GoValue.map [("c", .slice [.int64 0])] ≠ .nil ∧
    (GoValue.map [("c", .slice [.int64 0])]).hasEmpty = false :=
  ⟨rfl, fun e => GoValue.noConfusion e,
   C3_no_empty_container_survives
    (.map [("a", .slice []), ("b", .map []), ("c", .slice [.slice [], .map [], .int64 0]),
      ("d", .slice [.nil])])
    (.map [("c", .slice [.int64 0])])
    rfl (fun e => GoValue.noConfusion e)⟩

/-- C5. Scalars are never pruned away: `removeNullsAndEmpty` returns every scalar
unchanged (so never nil), the zero-value scalars `""`, `false`, `0` and `0.0`
included; and on a well-formed value with no absent node the scalar leaves of the
result are those of the input, with the same values in the same order. -/
theorem C5_scalars_preserved :
    (∀ x : GoValue, x.isScalar = true →
      removeNullsAndEmpty x = x ∧ (removeNullsAndEmpty x).isNil = false) ∧
    (∀ v : GoValue, v.WF → v.hasAbsent = false →
      (removeNullsAndEmpty v).leaves = v.leaves) := by
  refine ⟨?_, leaves_removeNullsAndEmpty⟩
  intro x hx
  cases x <;> simp_all [GoValue.isScalar, removeNullsAndEmpty, GoValue.isNil]

/-- C5 at the zero-value scalars and at `{a: ["", false], b: {}, c: {d: 0}}`. -/
theorem C5_scalars_preserved_witness :
    removeNullsAndEmpty (.string "") = .string "" ∧
    removeNullsAndEmpty (.bool false) = .bool false ∧
    removeNullsAndEmpty (.int64 0) = .int64 0 ∧
    removeNullsAndEmpty (.float64 ⟨false, .zero, 0, 0⟩) = .float64 ⟨false, .zero, 0, 0⟩ ∧
    (removeNullsAndEmpty (.map [("a", .slice [.string "", .bool false]), ("b", .map []),
        ("c", .map [("d", .int64 0)])])).leaves
      = [.string "", .bool false, .int64 0] :=
  ⟨(C5_scalars_preserved.1 (.string "") rfl).1,
   (C5_scalars_preserved.1 (.bool false) rfl).1,
   (C5_scalars_preserved.1 (.int64 0) rfl).1,
   (C5_scalars_preserved.1 (.float64 ⟨false, .zero, 0, 0⟩) rfl).1,
   C5_scalars_preserved.2
     (.map [("a", .slice [.string "", .bool false]), ("b", .map []),
        ("c", .map [("d", .int64 0)])])
     (by simp [GoValue.WF, GoValue.WF.map, GoValue.WF.slice, uniqueKeys])
     rfl⟩

/-- C6. List pruning keeps the survivors in order: `removeNullsAndEmpty` of a list
is nil when every item cleans to nil, and otherwise the list of the non-nil
cleaned items in their original order, `filterMap prune items`, a sublist of the
cleaned items; `{a: [1, nil, 2]}` cleans to `{a: [1, 2]}`. -/
theorem C6_list_pruning :
    (∀ items : List GoValue,
      removeNullsAndEmpty (.slice items) =
        if (items.filterMap prune).isEmpty then .nil
        else .slice (items.filterMap prune)) ∧
    (∀ items : List GoValue,
      (items.filterMap prune).isEmpty = true ↔
        ∀ x ∈ items, removeNullsAndEmpty x = .nil) ∧
    (∀ items : List GoValue,
      List.Sublist (items.filterMap prune) (items.map removeNullsAndEmpty)) ∧
    removeNullsAndEmpty (.map [("a", .slice [.int64 1, .nil, .int64 2])]) =
      .map [("a", .slice [.int64 1, .int64 2])] := by
  refine ⟨removeNullsAndEmpty_slice, filterMap_prune_isEmpty, ?_, rfl⟩
  intro items
  induction items with
  | nil => simp
  | cons x rest ih =>
    rw [List.filterMap_cons, List.map_cons]
    cases hp : prune x with
    | none => exact List.Sublist.cons _ ih
    | some c =>
      rw [(prune_eq_some hp).1]
      exact List.Sublist.cons₂ _ ih

/-- C7. Mapping pruning keeps exactly the pairs with a surviving value: for a
mapping `m` (no key twice), `removeNullsAndEmpty` is nil when every value cleans
to nil, and otherwise a mapping that binds a key exactly when `m` binds it to a
value that does not clean to nil, and then to the cleaned value. -/
theorem C7_mapping_pruning (m : List (String × GoValue)) (hm : uniqueKeys m) :
    ((∀ kv ∈ m, removeNullsAndEmpty kv.2 = .nil) → removeNullsAndEmpty (.map m) = .nil) ∧
    ((∃ kv ∈ m, removeNullsAndEmpty kv.2 ≠ .nil) →
      ∃ r, removeNullsAndEmpty (.map m) = .map r ∧ uniqueKeys r ∧
        ∀ k, mapGet r k = (mapGet m k).bind prune) := by
  rw [removeNullsAndEmpty_map_unique m hm]
  constructor
  · intro h
    rw [if_pos ((keptPairs_isEmpty m).mpr h)]
  · intro h
    have hne : ¬ (keptPairs m).isEmpty = true := by
      intro he
      obtain ⟨kv, hkv, hn⟩ := h
      exact hn ((keptPairs_isEmpty m).mp he kv hkv)
    rw [if_neg hne]
    exact ⟨keptPairs m, rfl, keptPairs_uniqueKeys m hm, mapGet_keptPairs m hm⟩

/-- C7 at `{a: nil, b: {c: nil}}`, which cleans to nil, and at
`{a: nil, b: 1, c: [nil]}`, which cleans to `{b: 1}`. -/
theorem C7_mapping_pruning_witness :
    removeNullsAndEmpty (.map [("a", .nil), ("b", .map [("c", .nil)])]) = .nil ∧
    ∃ r, removeNullsAndEmpty (.map [("a", .nil), ("b", .int64 1), ("c", .slice [.nil])])
        = .map r ∧ uniqueKeys r ∧
      ∀ k, mapGet r k =
        (mapGet [("a", GoValue.nil), ("b", .int64 1), ("c", .slice [.nil])] k).bind prune :=
  ⟨(C7_mapping_pruning [("a", .nil), ("b", .map [("c", .nil)])]
      (by simp [uniqueKeys])).1
      (by
        intro kv hkv
        simp only [List.mem_cons, List.mem_singleton, List.not_mem_nil, or_false] at hkv
        rcases hkv with h | h <;> subst h <;> rfl),
   (C7_mapping_pruning [("a", .nil), ("b", .int64 1), ("c", .slice [.nil])]
      (by simp [uniqueKeys])).2
      ⟨("b", .int64 1), by simp, fun e => GoValue.noConfusion e⟩⟩


/-! ## Conversion: the claims -/

/-- C4. Full collapse gives the empty string: when the argument is itself neither
null nor unknown (the state of the dynamic value, which is what `Run` tests) and
every leaf under it is absent, `Run` reports no error and sets the result to the
empty string, whatever `yaml.Marshal` would do. -/
theorem C4_full_collapse_empty_string (marshal : GoValue → Except String String)
    (input : DynamicValue) (hnull : input.IsNull = false)
    (hunknown : input.IsUnknown = false) (habsent : input.value.allAbsent = true) :
    Run marshal (.ok input) = ⟨none, some ""⟩ := by
  obtain ⟨g, hg, hgn⟩ := (allAbsent_collapse input.value habsent).2
  simp [Run, hnull, hunknown, dynamicToGoValue, DynamicValue.UnderlyingValue, hg, hgn,
    GoValue.isNil]

/-- C4 at `{a: null, b: {c: null}}` and at `{a: [null, null]}`, and at a known
dynamic value around a null string and around a list with no element, with a
marshaller that would fail. -/
theorem C4_full_collapse_empty_string_witness :
    Run (fun _ => .error "unused")
      (.ok ⟨.Known, .object .Known [("a", .dynamic .Null .nil),
        ("b", .object .Known [("c", .dynamic .Null .nil)])]⟩) = ⟨none, some ""⟩ ∧
    Run (fun _ => .error "unused")
      (.ok ⟨.Known, .object .Known [("a", .tuple .Known [.dynamic .Null .nil,
        .dynamic .Null .nil])]⟩) = ⟨none, some ""⟩ ∧
    Run (fun _ => .error "unused") (.ok ⟨.Known, .string .Null ""⟩) = ⟨none, some ""⟩ ∧
    Run (fun _ => .error "unused") (.ok ⟨.Known, .list .Unknown []⟩) = ⟨none, some ""⟩ :=
  ⟨C4_full_collapse_empty_string _ _ rfl rfl rfl,
   C4_full_collapse_empty_string _ _ rfl rfl rfl,
   C4_full_collapse_empty_string _ _ rfl rfl rfl,
   C4_full_collapse_empty_string _ _ rfl rfl rfl⟩

/-- C8, as the claim states it, fails: nested in a list, the unknown string the
framework builds converts without error to the string scalar `""`, neither to an
error nor to the absent value. -/
theorem C8_unknown_never_emitted_counterexample :
    attrValueToGoValue (.list .Known [.string .Unknown ""]) = .ok (.slice [.string ""]) ∧
    dynamicToGoValue ⟨.Known, .list .Known [.string .Unknown ""]⟩
      = .ok (.slice [.string ""]) ∧
    ¬ ((∃ err, attrValueToGoValue (.string .Unknown "") = .error err) ∨
        attrValueToGoValue (.string .Unknown "") = .ok .nil) := by
  refine ⟨rfl, rfl, ?_⟩
  rintro (⟨err, h⟩ | h)
  · exact Except.noConfusion h
  · exact GoValue.noConfusion (Except.ok.inj h)

/-- C8, amended. An unknown dynamic wrapper, whose underlying value is nil,
converts to the absent value with no error.  For every other shape neither routine
looks at the unknown state: a value converts exactly as the same value with every
unknown state replaced by known, so the unknown string, boolean, number, list and
map of the framework yield `""`, `false`, a nil arbitrary-precision payload, the
empty list and the empty mapping. -/
theorem C8_unknown_converted_as_known :
    attrValueToGoValue (.dynamic .Unknown .nil) = .ok .nil ∧
    dynamicToGoValue ⟨.Known, .dynamic .Unknown .nil⟩ = .ok .nil ∧
    (∀ v : AttrValue, attrValueToGoValue v = attrValueToGoValue v.asKnown) ∧
    (∀ d : DynamicValue, dynamicToGoValue d = dynamicToGoValue ⟨d.state, d.value.asKnown⟩) ∧
    attrValueToGoValue (.string .Unknown "") = .ok (.string "") ∧
    attrValueToGoValue (.bool .Unknown false) = .ok (.bool false) ∧
    attrValueToGoValue (.number .Unknown none) = .ok (.bigFloat none) ∧
    attrValueToGoValue (.list .Unknown []) = .ok (.slice []) ∧
    attrValueToGoValue (.map .Unknown []) = .ok (.map []) :=
  ⟨rfl, rfl, fun v => (conversion_asKnown v).1,
   fun d => (conversion_asKnown d.value).2, rfl, rfl, rfl, rfl, rfl⟩


/-! ## Numbers: the claims -/

/-- C9. Integral numbers become integers: a known number whose value is an integer
`n` between `MinInt64` and `MaxInt64` converts, by either routine, to the `int64`
scalar `n`; a known number whose value is not such an integer does not convert to
an `int64` scalar. -/
theorem C9_integral_numbers_become_integers (x : BigFloat) :
    (∀ n : Int, MinInt64 ≤ n → n ≤ MaxInt64 → x.value = .fin (n : ℚ) →
      attrValueToGoValue (.number .Known (some x)) = .ok (.int64 n) ∧
      dynamicToGoValue ⟨.Known, .number .Known (some x)⟩ = .ok (.int64 n)) ∧
    (¬ x.isInt64 → ∀ i : Int,
      attrValueToGoValue (.number .Known (some x)) ≠ .ok (.int64 i) ∧
      dynamicToGoValue ⟨.Known, .number .Known (some x)⟩ ≠ .ok (.int64 i)) := by
  obtain ⟨h1, h2⟩ := number_conversion .Known (by decide) x
  unfold dynamicToGoValue DynamicValue.UnderlyingValue
  rw [h1, h2]
  constructor
  · intro n hlo hhi hv
    obtain ⟨hi, h64⟩ := int64_exact_complete x n hlo hhi hv
    have hc : x.IsInt = true ∧ x.Int64.2 = .Exact := ⟨hi, by rw [h64]⟩
    rw [if_pos hc, h64]
    exact ⟨rfl, rfl⟩
  · intro hni i
    have hc : ¬ (x.IsInt = true ∧ x.Int64.2 = .Exact) := fun hc => hni (isInt64_of_eval x hc)
    rw [if_neg hc]
    by_cases hfl : x.Float64.2 = .Exact
    · rw [if_pos hfl]
      exact ⟨fun e => GoValue.noConfusion (Except.ok.inj e),
        fun e => GoValue.noConfusion (Except.ok.inj e)⟩
    · rw [if_neg hfl]
      exact ⟨fun e => GoValue.noConfusion (Except.ok.inj e),
        fun e => GoValue.noConfusion (Except.ok.inj e)⟩

/-- C9 at 3 (`3 * 2^0`), at `MinInt64` (`-1 * 2^63`), at one and a half
(`3 * 2^-1`) and at `2^63`, one past `MaxInt64`. -/
theorem C9_integral_numbers_become_integers_witness :
    attrValueToGoValue (.number .Known (some ⟨false, .finite, 3, 0⟩)) = .ok (.int64 3) ∧
    dynamicToGoValue ⟨.Known, .number .Known (some ⟨true, .finite, 1, 63⟩)⟩
      = .ok (.int64 MinInt64) ∧
    attrValueToGoValue (.number .Known (some ⟨false, .finite, 3, -1⟩)) ≠ .ok (.int64 1) ∧
    attrValueToGoValue (.number .Known (some ⟨false, .finite, 1, 63⟩))
      ≠ .ok (.int64 MaxInt64) :=
  ⟨((C9_integral_numbers_become_integers ⟨false, .finite, 3, 0⟩).1 3 (by decide) (by decide)
      (by simp [BigFloat.value, dyadic])).1,
   ((C9_integral_numbers_become_integers ⟨true, .finite, 1, 63⟩).1 MinInt64 (by decide)
      (by decide) (by norm_num [BigFloat.value, dyadic, MinInt64])).2,
   ((C9_integral_numbers_become_integers ⟨false, .finite, 3, -1⟩).2
      (not_isInt64_of_eval _ (by decide)) 1).1,
   ((C9_integral_numbers_become_integers ⟨false, .finite, 1, 63⟩).2
      (not_isInt64_of_eval _ (by decide)) MaxInt64).1⟩

/-- C10. Number normalisation is lossless: a known number converts, by either
routine, to a numeric scalar with exactly the value of the input; the scalar is a
`float64` only when the input has the value of a float64 (and is then a float64
of the binary64 format); when the input is neither an integer an `int64` holds nor
the value of a float64, the scalar is the original `*big.Float`, as it is when
the payload is the nil pointer; and a value of a float64 that is not such an
integer does become a `float64`. -/
theorem C10_number_normalisation_lossless (x : BigFloat) :
    ∃ g : GoValue,
      attrValueToGoValue (.number .Known (some x)) = .ok g ∧
      dynamicToGoValue ⟨.Known, .number .Known (some x)⟩ = .ok g ∧
      g.numVal = some x.value ∧
      (∀ f, g = .float64 f → f.valid = true ∧ f.value = x.value ∧ x.representable) ∧
      (¬ x.isInt64 → ¬ x.representable → g = .bigFloat (some x)) ∧
      (¬ x.isInt64 → x.representable → ∃ f, g = .float64 f) ∧
      attrValueToGoValue (.number .Known none) = .ok (.bigFloat none) := by
  obtain ⟨h1, h2⟩ := number_conversion .Known (by decide) x
  refine ⟨_, h1, h2, ?_⟩
  by_cases hc : x.IsInt = true ∧ x.Int64.2 = .Exact
  · rw [if_pos hc]
    obtain ⟨hv, -, -⟩ := int64_exact_sound x hc.1 hc.2
    refine ⟨by simp [GoValue.numVal, hv], ?_, ?_, ?_, rfl⟩
    · intro f hf; exact GoValue.noConfusion hf
    · intro hni; exact absurd (isInt64_of_eval x hc) hni
    · intro hni; exact absurd (isInt64_of_eval x hc) hni
  · rw [if_neg hc]
    by_cases hfl : x.Float64.2 = .Exact
    · rw [if_pos hfl]
      obtain ⟨hvalid, hval⟩ := float64_exact_sound x hfl
      refine ⟨by simp [GoValue.numVal, hval], ?_, ?_, ?_, rfl⟩
      · intro f hf
        have : x.Float64.1 = f := GoValue.float64.inj hf
        subst this
        exact ⟨hvalid, hval, representable_of_eval x hfl⟩
      · intro _ hnr; exact absurd (representable_of_eval x hfl) hnr
      · intro _ _; exact ⟨_, rfl⟩
    · rw [if_neg hfl]
      refine ⟨by simp [GoValue.numVal], ?_, ?_, ?_, rfl⟩
      · intro f hf; exact GoValue.noConfusion hf
      · intro _ _; rfl
      · intro _ hr; exact absurd (float64_exact_complete x hr) hfl

/-- C10 at `(2^53 + 1) / 2`, which is neither an integer nor a float64 (it needs
54 bits) and is kept as it is, and at one and a half, which becomes the float64
`6755399441055744 * 2^-52`. -/
theorem C10_number_normalisation_lossless_witness :
    attrValueToGoValue (.number .Known (some ⟨false, .finite, 9007199254740993, -1⟩))
      = .ok (.bigFloat (some ⟨false, .finite, 9007199254740993, -1⟩)) ∧
    dynamicToGoValue ⟨.Known, .number .Known (some ⟨false, .finite, 3, -1⟩)⟩
      = .ok (.float64 ⟨false, .finite, 6755399441055744, -52⟩) := by
  obtain ⟨g, h1, -, -, -, h5, -, -⟩ :=
    C10_number_normalisation_lossless ⟨false, .finite, 9007199254740993, -1⟩
  have hg := h5 (not_isInt64_of_eval _ (by decide)) (not_representable_of_eval _ (by decide))
  exact ⟨hg ▸ h1, rfl⟩


/-! ## The loops of the conversion -/

/-- The loop over the elements either converts every element, in order, or stops
at the first element that fails, with its error. -/
theorem elementsLoop_cases (es : List AttrValue) : ∀ result : List GoValue,
    (∃ gs, List.Forall₂ (fun x g => attrValueToGoValue x = .ok g) es gs ∧
      attrValueToGoValue.elementsLoop es result = .ok (result ++ gs)) ∨
    (∃ x ∈ es, ∃ err, attrValueToGoValue x = .error err ∧
      attrValueToGoValue.elementsLoop es result = .error err) := by
  induction es with
  | nil =>
    intro result
    exact Or.inl ⟨[], List.Forall₂.nil, by simp [attrValueToGoValue.elementsLoop]⟩
  | cons x rest ih =>
    intro result
    cases hx : attrValueToGoValue x with
    | error err =>
      exact Or.inr ⟨x, List.mem_cons_self _ _, err, hx,
        by simp [attrValueToGoValue.elementsLoop, hx]⟩
    | ok g =>
      rcases ih (result ++ [g]) with ⟨gs, hgs, hl⟩ | ⟨y, hy, err, hye, hl⟩
      · refine Or.inl ⟨g :: gs, List.Forall₂.cons hx hgs, ?_⟩
        simp only [attrValueToGoValue.elementsLoop, hx, hl]
        simp
      · exact Or.inr ⟨y, List.mem_cons_of_mem _ hy, err, hye,
          by simp only [attrValueToGoValue.elementsLoop, hx, hl]⟩

/-- The loop over the entries either converts every value, in order, assigning
each to its key, or stops at the first value that fails, with its error. -/
theorem entriesLoop_cases (m : List (String × AttrValue)) :
    ∀ result : List (String × GoValue),
    (∃ gs, List.Forall₂ (fun kv kg => kg.1 = kv.1 ∧ attrValueToGoValue kv.2 = .ok kg.2) m gs ∧
      attrValueToGoValue.entriesLoop m result = .ok (mapSetAll result gs)) ∨
    (∃ kv ∈ m, ∃ err, attrValueToGoValue kv.2 = .error err ∧
      attrValueToGoValue.entriesLoop m result = .error err) := by
  induction m with
  | nil =>
    intro result
    exact Or.inl ⟨[], List.Forall₂.nil, by simp [attrValueToGoValue.entriesLoop, mapSetAll]⟩
  | cons kv rest ih =>
    obtain ⟨k, x⟩ := kv
    intro result
    cases hx : attrValueToGoValue x with
    | error err =>
      exact Or.inr ⟨(k, x), List.mem_cons_self _ _, err, hx,
        by simp [attrValueToGoValue.entriesLoop, hx]⟩
    | ok g =>
      rcases ih (mapSet result k g) with ⟨gs, hgs, hl⟩ | ⟨y, hy, err, hye, hl⟩
      · refine Or.inl ⟨(k, g) :: gs, List.Forall₂.cons ⟨rfl, hx⟩ hgs, ?_⟩
        simp only [attrValueToGoValue.entriesLoop, hx, hl]
        simp [mapSetAll]
      · exact Or.inr ⟨y, List.mem_cons_of_mem _ hy, err, hye,
          by simp only [attrValueToGoValue.entriesLoop, hx, hl]⟩

theorem forall₂_keys {m : List (String × AttrValue)} {gs : List (String × GoValue)}
    (h : List.Forall₂ (fun kv kg => kg.1 = kv.1 ∧ attrValueToGoValue kv.2 = .ok kg.2) m gs) :
    gs.map Prod.fst = m.map Prod.fst := by
  induction h with
  | nil => rfl
  | cons hab _ ih => simp [hab.1, ih]

theorem forall₂_mapGet {m : List (String × AttrValue)} {gs : List (String × GoValue)}
    (h : List.Forall₂ (fun kv kg => kg.1 = kv.1 ∧ attrValueToGoValue kv.2 = .ok kg.2) m gs)
    (k : String) :
    (mapGet gs k).map Except.ok = (mapGet m k).map attrValueToGoValue := by
  induction h with
  | nil => rfl
  | @cons kv kg rest grest hab _ ih =>
    obtain ⟨k1, x⟩ := kv
    obtain ⟨k2, g⟩ := kg
    obtain ⟨hk, hx⟩ := hab
    simp only at hk hx
    subst hk
    by_cases hkk : k2 = k
    · simp [mapGet, hkk, hx]
    · simp [mapGet, hkk, ih]

/-- A list, tuple or set that is not null converts to the slice the loop over its
elements builds, a map or object to the map the loop over its entries builds; the
two routines do the same. -/
theorem container_conversion (st : ValueState) (hst : st ≠ .Null) :
    (∀ es, attrValueToGoValue (.list st es) =
        (match attrValueToGoValue.elementsLoop es [] with
          | .error err => .error err
          | .ok result => .ok (.slice result)) ∧
      attrValueToGoValue (.tuple st es) = attrValueToGoValue (.list st es) ∧
      attrValueToGoValue (.set st es) = attrValueToGoValue (.list st es) ∧
      dynamicToGoValue.switch (.list st es) = attrValueToGoValue (.list st es) ∧
      dynamicToGoValue.switch (.tuple st es) = attrValueToGoValue (.list st es) ∧
      dynamicToGoValue.switch (.set st es) = attrValueToGoValue (.list st es)) ∧
    (∀ m, attrValueToGoValue (.map st m) =
        (match attrValueToGoValue.entriesLoop m [] with
          | .error err => .error err
          | .ok result => .ok (.map result)) ∧
      attrValueToGoValue (.object st m) = attrValueToGoValue (.map st m) ∧
      dynamicToGoValue.switch (.map st m) = attrValueToGoValue (.map st m) ∧
      dynamicToGoValue.switch (.object st m) = attrValueToGoValue (.map st m)) := by
  constructor
  · intro es
    simp [attrValueToGoValue, dynamicToGoValue.switch, hst]
  · intro m
    simp [attrValueToGoValue, dynamicToGoValue.switch, hst]

/-! ## Unsupported shapes -/

theorem hasUnsupported_elements (es : List AttrValue) :
    AttrValue.hasUnsupported.elements es = true ↔ ∃ x ∈ es, x.hasUnsupported = true := by
  induction es with
  | nil => simp [AttrValue.hasUnsupported.elements]
  | cons x rest ih => simp [AttrValue.hasUnsupported.elements, ih]

theorem hasUnsupported_entries (m : List (String × AttrValue)) :
    AttrValue.hasUnsupported.entries m = true ↔ ∃ kv ∈ m, kv.2.hasUnsupported = true := by
  induction m with
  | nil => simp [AttrValue.hasUnsupported.entries]
  | cons p rest ih =>
    obtain ⟨k, v⟩ := p
    simp only [AttrValue.hasUnsupported.entries, Bool.or_eq_true, ih, List.mem_cons,
      exists_eq_or_imp]

theorem unsupportedNames_elements (es : List AttrValue) (name : String) :
    name ∈ AttrValue.unsupportedNames.elements es ↔ ∃ x ∈ es, name ∈ x.unsupportedNames := by
  induction es with
  | nil => simp [AttrValue.unsupportedNames.elements]
  | cons x rest ih => simp [AttrValue.unsupportedNames.elements, ih]

theorem unsupportedNames_entries (m : List (String × AttrValue)) (name : String) :
    name ∈ AttrValue.unsupportedNames.entries m ↔ ∃ kv ∈ m, name ∈ kv.2.unsupportedNames := by
  induction m with
  | nil => simp [AttrValue.unsupportedNames.entries]
  | cons p rest ih =>
    obtain ⟨k, v⟩ := p
    simp only [AttrValue.unsupportedNames.entries, List.mem_append, ih, List.mem_cons,
      exists_eq_or_imp]

theorem forall₂_ok_of_mem {es : List AttrValue} {gs : List GoValue}
    (h : List.Forall₂ (fun x g => attrValueToGoValue x = .ok g) es gs) :
    ∀ x ∈ es, ∃ g ∈ gs, attrValueToGoValue x = .ok g := by
  induction h with
  | nil => intro x hx; cases hx
  | cons hab _ ih =>
    intro x hx
    rcases List.mem_cons.mp hx with h1 | h1
    · subst h1; exact ⟨_, List.mem_cons_self _ _, hab⟩
    · obtain ⟨g, hg, hxg⟩ := ih x h1
      exact ⟨g, List.mem_cons_of_mem _ hg, hxg⟩

theorem forall₂_entries_of_mem {m : List (String × AttrValue)} {gs : List (String × GoValue)}
    (h : List.Forall₂ (fun kv kg => kg.1 = kv.1 ∧ attrValueToGoValue kv.2 = .ok kg.2) m gs) :
    ∀ kv ∈ m, ∃ kg ∈ gs, kg.1 = kv.1 ∧ attrValueToGoValue kv.2 = .ok kg.2 := by
  induction h with
  | nil => intro x hx; cases hx
  | cons hab _ ih =>
    intro x hx
    rcases List.mem_cons.mp hx with h1 | h1
    · subst h1; exact ⟨_, List.mem_cons_self _ _, hab⟩
    · obtain ⟨g, hg, hxg⟩ := ih x h1
      exact ⟨g, List.mem_cons_of_mem _ hg, hxg⟩

/-- What the loop over the elements returns, given for every element that it fails
exactly when it has an unsupported value, with a text that names one. -/
theorem elementsLoop_unsupported (es : List AttrValue)
    (ih : ∀ x ∈ es, ((∃ err, attrValueToGoValue x = .error err) ↔ x.hasUnsupported = true) ∧
      (∀ err, attrValueToGoValue x = .error err → unsupportedText x err)) :
    ((∃ err, attrValueToGoValue.elementsLoop es [] = .error err) ↔
        AttrValue.hasUnsupported.elements es = true) ∧
    (∀ err, attrValueToGoValue.elementsLoop es [] = .error err →
        ∃ name ∈ AttrValue.unsupportedNames.elements es,
          err = "unsupported attr.Value type: " ++ name ∨ err = "unsupported type: " ++ name) := by
  rcases elementsLoop_cases es [] with ⟨gs, hgs, hl⟩ | ⟨x, hx, err, hxe, hl⟩
  · rw [hl]
    refine ⟨⟨fun ⟨e, he⟩ => Except.noConfusion he, fun h => ?_⟩,
      fun e he => Except.noConfusion he⟩
    obtain ⟨x, hx, hxu⟩ := (hasUnsupported_elements es).mp h
    obtain ⟨e, he⟩ := ((ih x hx).1).mpr hxu
    obtain ⟨g, -, hg⟩ := forall₂_ok_of_mem hgs x hx
    rw [hg] at he
    exact Except.noConfusion he
  · rw [hl]
    refine ⟨⟨fun _ => (hasUnsupported_elements es).mpr ⟨x, hx, ((ih x hx).1).mp ⟨err, hxe⟩⟩,
      fun _ => ⟨err, rfl⟩⟩, fun e he => ?_⟩
    have : err = e := Except.error.inj he
    subst this
    obtain ⟨name, hname, htext⟩ := (ih x hx).2 err hxe
    exact ⟨name, (unsupportedNames_elements es name).mpr ⟨x, hx, hname⟩, htext⟩

/-- The same for the loop over the entries. -/
theorem entriesLoop_unsupported (m : List (String × AttrValue))
    (ih : ∀ kv ∈ m,
      ((∃ err, attrValueToGoValue kv.2 = .error err) ↔ kv.2.hasUnsupported = true) ∧
      (∀ err, attrValueToGoValue kv.2 = .error err → unsupportedText kv.2 err)) :
    ((∃ err, attrValueToGoValue.entriesLoop m [] = .error err) ↔
        AttrValue.hasUnsupported.entries m = true) ∧
    (∀ err, attrValueToGoValue.entriesLoop m [] = .error err →
        ∃ name ∈ AttrValue.unsupportedNames.entries m,
          err = "unsupported attr.Value type: " ++ name ∨ err = "unsupported type: " ++ name) := by
  rcases entriesLoop_cases m [] with ⟨gs, hgs, hl⟩ | ⟨x, hx, err, hxe, hl⟩
  · rw [hl]
    refine ⟨⟨fun ⟨e, he⟩ => Except.noConfusion he, fun h => ?_⟩,
      fun e he => Except.noConfusion he⟩
    obtain ⟨x, hx, hxu⟩ := (hasUnsupported_entries m).mp h
    obtain ⟨e, he⟩ := ((ih x hx).1).mpr hxu
    obtain ⟨g, -, -, hg⟩ := forall₂_entries_of_mem hgs x hx
    rw [hg] at he
    exact Except.noConfusion he
  · rw [hl]
    refine ⟨⟨fun _ => (hasUnsupported_entries m).mpr ⟨x, hx, ((ih x hx).1).mp ⟨err, hxe⟩⟩,
      fun _ => ⟨err, rfl⟩⟩, fun e he => ?_⟩
    have : err = e := Except.error.inj he
    subst this
    obtain ⟨name, hname, htext⟩ := (ih x hx).2 err hxe
    exact ⟨name, (unsupportedNames_entries m name).mpr ⟨x, hx, hname⟩, htext⟩

theorem slice_result_error (r : Except String (List GoValue)) (err : String) :
    (match r with
      | .error e => (Except.error e : Except String GoValue)
      | .ok result => .ok (.slice result)) = .error err ↔ r = .error err := by
  cases r <;> simp

theorem map_result_error (r : Except String (List (String × GoValue))) (err : String) :
    (match r with
      | .error e => (Except.error e : Except String GoValue)
      | .ok result => .ok (.map result)) = .error err ↔ r = .error err := by
  cases r <;> simp

/-- Both routines fail exactly on a value that has an unsupported value, and then
with a text that names the type of one. -/
theorem unsupported_spec : ∀ v : AttrValue,
    (((∃ err, attrValueToGoValue v = .error err) ↔ v.hasUnsupported = true) ∧
      (∀ err, attrValueToGoValue v = .error err → unsupportedText v err)) ∧
    (((∃ err, dynamicToGoValue.switch v = .error err) ↔ v.hasUnsupported = true) ∧
      (∀ err, dynamicToGoValue.switch v = .error err → unsupportedText v err)) := by
  have hscalar : ∀ v : AttrValue, v.hasUnsupported = false →
      (∃ g, attrValueToGoValue v = .ok g) → (∃ g, dynamicToGoValue.switch v = .ok g) →
      (((∃ err, attrValueToGoValue v = .error err) ↔ v.hasUnsupported = true) ∧
        (∀ err, attrValueToGoValue v = .error err → unsupportedText v err)) ∧
      (((∃ err, dynamicToGoValue.switch v = .error err) ↔ v.hasUnsupported = true) ∧
        (∀ err, dynamicToGoValue.switch v = .error err → unsupportedText v err)) := by
    intro v hu ⟨g1, h1⟩ ⟨g2, h2⟩
    rw [h1, h2, hu]
    simp
  have hlistlike : ∀ (st : ValueState) (es : List AttrValue) (c : AttrValue),
      (∀ x ∈ es,
        (((∃ err, attrValueToGoValue x = .error err) ↔ x.hasUnsupported = true) ∧
          (∀ err, attrValueToGoValue x = .error err → unsupportedText x err)) ∧
        (((∃ err, dynamicToGoValue.switch x = .error err) ↔ x.hasUnsupported = true) ∧
          (∀ err, dynamicToGoValue.switch x = .error err → unsupportedText x err))) →
      c.hasUnsupported = (decide (st ≠ .Null) && AttrValue.hasUnsupported.elements es) →
      c.unsupportedNames = (if st = .Null then [] else AttrValue.unsupportedNames.elements es) →
      attrValueToGoValue c = attrValueToGoValue (.list st es) →
      dynamicToGoValue.switch c = attrValueToGoValue (.list st es) →
      (((∃ err, attrValueToGoValue c = .error err) ↔ c.hasUnsupported = true) ∧
        (∀ err, attrValueToGoValue c = .error err → unsupportedText c err)) ∧
      (((∃ err, dynamicToGoValue.switch c = .error err) ↔ c.hasUnsupported = true) ∧
        (∀ err, dynamicToGoValue.switch c = .error err → unsupportedText c err)) := by
    intro st es c ih hu hn h1 h2
    rw [h1, h2, hu]
    unfold unsupportedText
    rw [hn]
    by_cases hst : st = .Null
    · subst hst
      simp [attrValueToGoValue]
    · obtain ⟨hiff, htext⟩ := elementsLoop_unsupported es (fun x hx => (ih x hx).1)
      rw [((container_conversion st hst).1 es).1]
      simp only [slice_result_error, hst, ne_eq, not_false_eq_true, decide_True, Bool.true_and,
        if_false, and_self]
      exact ⟨hiff, htext⟩
  have hmaplike : ∀ (st : ValueState) (m : List (String × AttrValue)) (c : AttrValue),
      (∀ kv ∈ m,
        (((∃ err, attrValueToGoValue kv.2 = .error err) ↔ kv.2.hasUnsupported = true) ∧
          (∀ err, attrValueToGoValue kv.2 = .error err → unsupportedText kv.2 err)) ∧
        (((∃ err, dynamicToGoValue.switch kv.2 = .error err) ↔ kv.2.hasUnsupported = true) ∧
          (∀ err, dynamicToGoValue.switch kv.2 = .error err → unsupportedText kv.2 err))) →
      c.hasUnsupported = (decide (st ≠ .Null) && AttrValue.hasUnsupported.entries m) →
      c.unsupportedNames = (if st = .Null then [] else AttrValue.unsupportedNames.entries m) →
      attrValueToGoValue c = attrValueToGoValue (.map st m) →
      dynamicToGoValue.switch c = attrValueToGoValue (.map st m) →
      (((∃ err, attrValueToGoValue c = .error err) ↔ c.hasUnsupported = true) ∧
        (∀ err, attrValueToGoValue c = .error err → unsupportedText c err)) ∧
      (((∃ err, dynamicToGoValue.switch c = .error err) ↔ c.hasUnsupported = true) ∧
        (∀ err, dynamicToGoValue.switch c = .error err → unsupportedText c err)) := by
    intro st m c ih hu hn h1 h2
    rw [h1, h2, hu]
    unfold unsupportedText
    rw [hn]
    by_cases hst : st = .Null
    · subst hst
      simp [attrValueToGoValue]
    · obtain ⟨hiff, htext⟩ := entriesLoop_unsupported m (fun x hx => (ih x hx).1)
      rw [((container_conversion st hst).2 m).1]
      simp only [map_result_error, hst, ne_eq, not_false_eq_true, decide_True, Bool.true_and,
        if_false, and_self]
      exact ⟨hiff, htext⟩
  have hnull : ∀ st : ValueState, st = .Null ∨ st ≠ .Null := fun st => em _
  intro v
  induction v using attrValue_induct with
  | hnil => exact hscalar _ rfl ⟨_, rfl⟩ ⟨_, rfl⟩
  | hstring st s =>
    refine hscalar _ rfl ?_ ?_ <;>
      (by_cases h : st = .Null <;> simp [attrValueToGoValue, dynamicToGoValue.switch, h])
  | hnumber st n =>
    refine hscalar _ rfl ?_ ?_
    · by_cases h : st = .Null
      · simp [attrValueToGoValue, h]
      · cases n with
        | none => simp [attrValueToGoValue, h]
        | some x => exact ⟨_, (number_conversion st h x).1⟩
    · by_cases h : st = .Null
      · simp [dynamicToGoValue.switch, h]
      · cases n with
        | none => simp [dynamicToGoValue.switch, h]
        | some x => exact ⟨_, (number_conversion st h x).2⟩
  | hbool st b =>
    refine hscalar _ rfl ?_ ?_ <;>
      (by_cases h : st = .Null <;> simp [attrValueToGoValue, dynamicToGoValue.switch, h])
  | hlist st es ih =>
    refine hlistlike st es _ ih (by simp [AttrValue.hasUnsupported])
      (by simp [AttrValue.unsupportedNames]) rfl ?_
    rcases hnull st with h | h
    · subst h; rfl
    · exact ((container_conversion st h).1 es).2.2.2.1
  | htuple st es ih =>
    refine hlistlike st es _ ih (by simp [AttrValue.hasUnsupported])
      (by simp [AttrValue.unsupportedNames]) ?_ ?_
    · rcases hnull st with h | h
      · subst h; rfl
      · exact ((container_conversion st h).1 es).2.1
    · rcases hnull st with h | h
      · subst h; rfl
      · exact ((container_conversion st h).1 es).2.2.2.2.1
  | hset st es ih =>
    refine hlistlike st es _ ih (by simp [AttrValue.hasUnsupported])
      (by simp [AttrValue.unsupportedNames]) ?_ ?_
    · rcases hnull st with h | h
      · subst h; rfl
      · exact ((container_conversion st h).1 es).2.2.1
    · rcases hnull st with h | h
      · subst h; rfl
      · exact ((container_conversion st h).1 es).2.2.2.2.2
  | hmap st m ih =>
    refine hmaplike st m _ ih (by simp [AttrValue.hasUnsupported])
      (by simp [AttrValue.unsupportedNames]) rfl ?_
    rcases hnull st with h | h
    · subst h; rfl
    · exact ((container_conversion st h).2 m).2.2.1
  | hobject st m ih =>
    refine hmaplike st m _ ih (by simp [AttrValue.hasUnsupported])
      (by simp [AttrValue.unsupportedNames]) ?_ ?_
    · rcases hnull st with h | h
      · subst h; rfl
      · exact ((container_conversion st h).2 m).2.1
    · rcases hnull st with h | h
      · subst h; rfl
      · exact ((container_conversion st h).2 m).2.2.2
  | hdynamic st u ih =>
    have hu : (AttrValue.dynamic st u).hasUnsupported = u.hasUnsupported := by
      simp [AttrValue.hasUnsupported]
    have hn : (AttrValue.dynamic st u).unsupportedNames = u.unsupportedNames := by
      simp [AttrValue.unsupportedNames]
    have h1 : attrValueToGoValue (.dynamic st u) = dynamicToGoValue.switch u := by
      simp [attrValueToGoValue]
    have h2 : dynamicToGoValue.switch (.dynamic st u) = attrValueToGoValue u := by
      cases u <;> simp [dynamicToGoValue.switch, AttrValue.isNil, attrValueToGoValue]
    unfold unsupportedText at ih ⊢
    rw [h1, h2, hu, hn]
    exact ⟨ih.2, ih.1⟩
  | hother name st =>
    refine ⟨⟨?_, ?_⟩, ⟨?_, ?_⟩⟩
    · simp [attrValueToGoValue, AttrValue.hasUnsupported]
    · intro err h
      refine ⟨name, by simp [AttrValue.unsupportedNames], Or.inl ?_⟩
      simp only [attrValueToGoValue, Except.error.injEq] at h
      exact h.symm
    · simp [dynamicToGoValue.switch, AttrValue.hasUnsupported]
    · intro err h
      refine ⟨name, by simp [AttrValue.unsupportedNames], Or.inr ?_⟩
      simp only [dynamicToGoValue.switch, Except.error.injEq] at h
      exact h.symm

/-! ## Values with content -/

theorem plain_elements (es : List AttrValue) :
    AttrValue.plain.elements es = true ↔ ∀ x ∈ es, x.plain = true := by
  induction es with
  | nil => simp [AttrValue.plain.elements]
  | cons x rest ih => simp [AttrValue.plain.elements, ih]

theorem plain_entries (m : List (String × AttrValue)) :
    AttrValue.plain.entries m = true ↔ ∀ kv ∈ m, kv.2.plain = true := by
  induction m with
  | nil => simp [AttrValue.plain.entries]
  | cons p rest ih =>
    obtain ⟨k, v⟩ := p
    simp only [AttrValue.plain.entries, Bool.and_eq_true, ih, List.mem_cons, forall_eq_or_imp]

theorem hasScalarLeaf_elements (es : List AttrValue) :
    AttrValue.hasScalarLeaf.elements es = true ↔ ∃ x ∈ es, x.hasScalarLeaf = true := by
  induction es with
  | nil => simp [AttrValue.hasScalarLeaf.elements]
  | cons x rest ih => simp [AttrValue.hasScalarLeaf.elements, ih]

theorem hasScalarLeaf_entries (m : List (String × AttrValue)) :
    AttrValue.hasScalarLeaf.entries m = true ↔ ∃ kv ∈ m, kv.2.hasScalarLeaf = true := by
  induction m with
  | nil => simp [AttrValue.hasScalarLeaf.entries]
  | cons p rest ih =>
    obtain ⟨k, v⟩ := p
    simp only [AttrValue.hasScalarLeaf.entries, Bool.or_eq_true, ih, List.mem_cons,
      exists_eq_or_imp]

theorem attrWF_elements (es : List AttrValue) :
    AttrValue.WF.elements es ↔ ∀ x ∈ es, x.WF := by
  induction es with
  | nil => simp [AttrValue.WF.elements]
  | cons x rest ih => simp [AttrValue.WF.elements, ih]

theorem attrWF_entries (m : List (String × AttrValue)) :
    AttrValue.WF.entries m ↔ ∀ kv ∈ m, kv.2.WF := by
  induction m with
  | nil => simp [AttrValue.WF.entries]
  | cons p rest ih =>
    obtain ⟨k, v⟩ := p
    simp only [AttrValue.WF.entries, ih, List.mem_cons, forall_eq_or_imp]

theorem removeNullsAndEmpty_slice_ne_nil (gs : List GoValue) (g : GoValue) (hg : g ∈ gs)
    (h : removeNullsAndEmpty g ≠ .nil) : removeNullsAndEmpty (.slice gs) ≠ .nil := by
  rw [removeNullsAndEmpty_slice]
  have hne : ¬ (gs.filterMap prune).isEmpty = true := fun he =>
    h ((filterMap_prune_isEmpty gs).mp he g hg)
  rw [if_neg hne]
  exact fun e => GoValue.noConfusion e

theorem removeNullsAndEmpty_map_ne_nil (gs : List (String × GoValue)) (hu : uniqueKeys gs)
    (kg : String × GoValue) (hg : kg ∈ gs) (h : removeNullsAndEmpty kg.2 ≠ .nil) :
    removeNullsAndEmpty (.map gs) ≠ .nil := by
  rw [removeNullsAndEmpty_map_unique gs hu]
  have hne : ¬ (keptPairs gs).isEmpty = true := fun he =>
    h ((keptPairs_isEmpty gs).mp he kg hg)
  rw [if_neg hne]
  exact fun e => GoValue.noConfusion e

/-- The conversion of a map or object whose keys are distinct and whose values all
convert: the pairs of the keys with the converted values, in order. -/
theorem entriesLoop_unique (m : List (String × AttrValue)) (hu : uniqueKeys m)
    (gs : List (String × GoValue))
    (h : List.Forall₂ (fun kv kg => kg.1 = kv.1 ∧ attrValueToGoValue kv.2 = .ok kg.2) m gs) :
    uniqueKeys gs ∧ mapSetAll [] gs = gs := by
  have hk : uniqueKeys gs := by
    unfold uniqueKeys at hu ⊢
    rw [forall₂_keys h]
    exact hu
  exact ⟨hk, mapSetAll_nil_unique gs hk⟩

theorem number_result_ne_nil (st : ValueState) (hst : st ≠ .Null) (n : Option BigFloat) :
    ∃ g, attrValueToGoValue (.number st n) = .ok g ∧
      dynamicToGoValue.switch (.number st n) = .ok g ∧ removeNullsAndEmpty g ≠ .nil := by
  cases n with
  | none =>
    exact ⟨.bigFloat none, by simp [attrValueToGoValue, hst],
      by simp [dynamicToGoValue.switch, hst], fun e => GoValue.noConfusion e⟩
  | some x =>
    obtain ⟨h1, h2⟩ := number_conversion st hst x
    refine ⟨_, h1, h2, ?_⟩
    split_ifs <;> exact fun e => GoValue.noConfusion e

/-- A plain, well-formed value converts by both routines, to the same value, which
does not clean to nil when the value has a scalar leaf. -/
theorem plain_converts : ∀ v : AttrValue, v.plain = true → v.WF →
    ∃ g, attrValueToGoValue v = .ok g ∧ dynamicToGoValue.switch v = .ok g ∧
      (v.hasScalarLeaf = true → removeNullsAndEmpty g ≠ .nil) := by
  intro v
  induction v using attrValue_induct with
  | hnil => intro h; simp [AttrValue.plain] at h
  | hstring st s =>
    intro h _
    have hst : st = .Known := by simpa [AttrValue.plain] using h
    subst hst
    exact ⟨.string s, rfl, rfl, fun _ e => GoValue.noConfusion e⟩
  | hnumber st n =>
    intro h _
    have hst : st = .Known := by simpa [AttrValue.plain] using h
    subst hst
    obtain ⟨g, h1, h2, h3⟩ := number_result_ne_nil .Known (by decide) n
    exact ⟨g, h1, h2, fun _ => h3⟩
  | hbool st b =>
    intro h _
    have hst : st = .Known := by simpa [AttrValue.plain] using h
    subst hst
    exact ⟨.bool b, rfl, rfl, fun _ e => GoValue.noConfusion e⟩
  | hlist st es ih =>
    intro h hwf
    simp only [AttrValue.plain, Bool.and_eq_true, decide_eq_true_eq] at h
    obtain ⟨hst, hpl⟩ := h
    subst hst
    simp only [AttrValue.WF] at hwf
    have hall : ∀ x ∈ es, ∃ g, attrValueToGoValue x = .ok g ∧
        (x.hasScalarLeaf = true → removeNullsAndEmpty g ≠ .nil) := fun x hx => by
      obtain ⟨g, h1, -, h3⟩ := ih x hx ((plain_elements es).mp hpl x hx)
        ((attrWF_elements es).mp hwf x hx)
      exact ⟨g, h1, h3⟩
    obtain ⟨hc, -, -, hs, -, -⟩ := (container_conversion .Known (by decide)).1 es
    rcases elementsLoop_cases es [] with ⟨gs, hgs, hl⟩ | ⟨x, hx, err, hxe, -⟩
    · rw [hl] at hc
      simp only [List.nil_append] at hc
      refine ⟨.slice gs, hc, hs.trans hc, fun hleaf => ?_⟩
      simp only [AttrValue.hasScalarLeaf] at hleaf
      obtain ⟨x, hx, hxl⟩ := (hasScalarLeaf_elements es).mp hleaf
      obtain ⟨g, hg, hxg⟩ := forall₂_ok_of_mem hgs x hx
      obtain ⟨g2, hxg2, hne⟩ := hall x hx
      rw [hxg] at hxg2
      have : g = g2 := Except.ok.inj hxg2
      subst this
      exact removeNullsAndEmpty_slice_ne_nil gs g hg (hne hxl)
    · obtain ⟨g, hg, -⟩ := hall x hx
      rw [hg] at hxe
      exact Except.noConfusion hxe
  | htuple st es ih => intro h; simp [AttrValue.plain] at h
  | hset st es ih => intro h; simp [AttrValue.plain] at h
  | hmap st m ih => intro h; simp [AttrValue.plain] at h
  | hobject st m ih =>
    intro h hwf
    simp only [AttrValue.plain, Bool.and_eq_true, decide_eq_true_eq] at h
    obtain ⟨hst, hpl⟩ := h
    subst hst
    simp only [AttrValue.WF] at hwf
    have hall : ∀ kv ∈ m, ∃ g, attrValueToGoValue kv.2 = .ok g ∧
        (kv.2.hasScalarLeaf = true → removeNullsAndEmpty g ≠ .nil) := fun x hx => by
      obtain ⟨g, h1, -, h3⟩ := ih x hx ((plain_entries m).mp hpl x hx)
        ((attrWF_entries m).mp hwf.2 x hx)
      exact ⟨g, h1, h3⟩
    obtain ⟨hc, ho, -, hs⟩ := (container_conversion .Known (by decide)).2 m
    rcases entriesLoop_cases m [] with ⟨gs, hgs, hl⟩ | ⟨x, hx, err, hxe, -⟩
    · obtain ⟨hk, hset⟩ := entriesLoop_unique m hwf.1 gs hgs
      rw [hl, hset] at hc
      simp only at hc
      refine ⟨.map gs, ho.trans hc, hs.trans hc, fun hleaf => ?_⟩
      simp only [AttrValue.hasScalarLeaf] at hleaf
      obtain ⟨x, hx, hxl⟩ := (hasScalarLeaf_entries m).mp hleaf
      obtain ⟨kg, hg, -, hxg⟩ := forall₂_entries_of_mem hgs x hx
      obtain ⟨g2, hxg2, hne⟩ := hall x hx
      rw [hxg] at hxg2
      have : kg.2 = g2 := Except.ok.inj hxg2
      exact removeNullsAndEmpty_map_ne_nil gs hk kg hg (this ▸ hne hxl)
    · obtain ⟨g, hg, -⟩ := hall x hx
      rw [hg] at hxe
      exact Except.noConfusion hxe
  | hdynamic st u ih => intro h; simp [AttrValue.plain] at h
  | hother name st => intro h; simp [AttrValue.plain] at h

/-! ## Null values, dynamic wrappers -/

theorem switch_dynamic (st : ValueState) (u : AttrValue) :
    dynamicToGoValue.switch (.dynamic st u) = attrValueToGoValue u := by
  cases u <;> simp [dynamicToGoValue.switch, AttrValue.isNil, attrValueToGoValue]

theorem attr_dynamic (st : ValueState) (u : AttrValue) :
    attrValueToGoValue (.dynamic st u) = dynamicToGoValue.switch u := by
  simp [attrValueToGoValue]

/-- A null value converts to nil by both routines. -/
theorem nullValued_converts : ∀ v : AttrValue, v.nullValued = true →
    attrValueToGoValue v = .ok .nil ∧ dynamicToGoValue.switch v = .ok .nil := by
  intro v
  induction v using attrValue_induct with
  | hnil => intro h; simp [AttrValue.nullValued] at h
  | hstring st s =>
    intro h
    have hst : st = .Null := by simpa [AttrValue.nullValued] using h
    subst hst; exact ⟨rfl, rfl⟩
  | hnumber st n =>
    intro h
    have hst : st = .Null := by simpa [AttrValue.nullValued] using h
    subst hst; exact ⟨rfl, rfl⟩
  | hbool st b =>
    intro h
    have hst : st = .Null := by simpa [AttrValue.nullValued] using h
    subst hst; exact ⟨rfl, rfl⟩
  | hlist st es _ =>
    intro h
    have hst : st = .Null := by simpa [AttrValue.nullValued] using h
    subst hst; exact ⟨rfl, rfl⟩
  | htuple st es _ =>
    intro h
    have hst : st = .Null := by simpa [AttrValue.nullValued] using h
    subst hst; exact ⟨rfl, rfl⟩
  | hset st es _ =>
    intro h
    have hst : st = .Null := by simpa [AttrValue.nullValued] using h
    subst hst; exact ⟨rfl, rfl⟩
  | hmap st m _ =>
    intro h
    have hst : st = .Null := by simpa [AttrValue.nullValued] using h
    subst hst; exact ⟨rfl, rfl⟩
  | hobject st m _ =>
    intro h
    have hst : st = .Null := by simpa [AttrValue.nullValued] using h
    subst hst; exact ⟨rfl, rfl⟩
  | hdynamic st u ih =>
    intro h
    rw [attr_dynamic, switch_dynamic]
    simp only [AttrValue.nullValued, Bool.or_eq_true, Bool.and_eq_true, decide_eq_true_eq] at h
    rcases h with ⟨-, hn⟩ | hu
    · cases u <;> simp [AttrValue.isNil] at hn
      exact ⟨rfl, rfl⟩
    · exact ⟨(ih hu).2, (ih hu).1⟩
  | hother name st => intro h; simp [AttrValue.nullValued] at h

theorem agree_refl (r : Except String GoValue) : agree r r := by
  cases r <;> simp [agree]

theorem agree_symm {r s : Except String GoValue} (h : agree r s) : agree s r := by
  cases r <;> cases s <;> simp_all [agree]

theorem agree_trans {r s t : Except String GoValue} (h1 : agree r s) (h2 : agree s t) :
    agree r t := by
  cases r <;> cases s <;> cases t <;> simp_all [agree]

theorem agree_ok_iff {r s : Except String GoValue} (h : agree r s) (g : GoValue) :
    r = .ok g ↔ s = .ok g := by
  cases r <;> cases s <;> simp_all [agree]

/-- The two routines agree on every value: both fail, or both return the same
canonical value. -/
theorem routines_agree : ∀ v : AttrValue,
    agree (dynamicToGoValue.switch v) (attrValueToGoValue v) := by
  have hsame : ∀ v : AttrValue, dynamicToGoValue.switch v = attrValueToGoValue v →
      agree (dynamicToGoValue.switch v) (attrValueToGoValue v) := fun v h => by
    rw [h]; exact agree_refl _
  have hnull : ∀ st : ValueState, st = .Null ∨ st ≠ .Null := fun st => em _
  intro v
  induction v using attrValue_induct with
  | hnil => exact hsame _ rfl
  | hstring st s => exact hsame _ (by simp [attrValueToGoValue, dynamicToGoValue.switch])
  | hnumber st n => exact hsame _ (by simp [attrValueToGoValue, dynamicToGoValue.switch])
  | hbool st b => exact hsame _ (by simp [attrValueToGoValue, dynamicToGoValue.switch])
  | hlist st es _ => exact hsame _ (by simp [attrValueToGoValue, dynamicToGoValue.switch])
  | htuple st es _ => exact hsame _ (by simp [attrValueToGoValue, dynamicToGoValue.switch])
  | hset st es _ => exact hsame _ (by simp [attrValueToGoValue, dynamicToGoValue.switch])
  | hmap st m _ => exact hsame _ (by simp [attrValueToGoValue, dynamicToGoValue.switch])
  | hobject st m _ => exact hsame _ (by simp [attrValueToGoValue, dynamicToGoValue.switch])
  | hdynamic st u ih =>
    rw [attr_dynamic, switch_dynamic]
    exact agree_symm ih
  | hother name st => simp [attrValueToGoValue, dynamicToGoValue.switch, agree]

/-- Under one or more dynamic wrappers a value converts as it does bare. -/
theorem wrapDynamic_agree (x : AttrValue) : ∀ states : List ValueState,
    agree (attrValueToGoValue (wrapDynamic states x)) (attrValueToGoValue x) := by
  intro states
  induction states with
  | nil => exact agree_refl _
  | cons st rest ih =>
    simp only [wrapDynamic]
    rw [attr_dynamic]
    exact agree_trans (routines_agree _) ih

/-! ## Depth and fuel -/

theorem depth_elements_le (es : List AttrValue) :
    ∀ x ∈ es, x.depth ≤ AttrValue.depth.elements es := by
  induction es with
  | nil => intro x hx; cases hx
  | cons y rest ih =>
    intro x hx
    simp only [AttrValue.depth.elements]
    rcases List.mem_cons.mp hx with h | h
    · subst h; exact le_max_left _ _
    · exact le_trans (ih x h) (le_max_right _ _)

theorem depth_entries_le (m : List (String × AttrValue)) :
    ∀ kv ∈ m, kv.2.depth ≤ AttrValue.depth.entries m := by
  induction m with
  | nil => intro x hx; cases hx
  | cons y rest ih =>
    obtain ⟨k, v⟩ := y
    intro x hx
    simp only [AttrValue.depth.entries]
    rcases List.mem_cons.mp hx with h | h
    · subst h; exact le_max_left _ _
    · exact le_trans (ih x h) (le_max_right _ _)

theorem goDepth_slice_le (xs : List GoValue) :
    ∀ x ∈ xs, x.depth ≤ GoValue.depth.slice xs := by
  induction xs with
  | nil => intro x hx; cases hx
  | cons y rest ih =>
    intro x hx
    simp only [GoValue.depth.slice]
    rcases List.mem_cons.mp hx with h | h
    · subst h; exact le_max_left _ _
    · exact le_trans (ih x h) (le_max_right _ _)

theorem goDepth_map_le (m : List (String × GoValue)) :
    ∀ kv ∈ m, kv.2.depth ≤ GoValue.depth.map m := by
  induction m with
  | nil => intro x hx; cases hx
  | cons y rest ih =>
    obtain ⟨k, v⟩ := y
    intro x hx
    simp only [GoValue.depth.map]
    rcases List.mem_cons.mp hx with h | h
    · subst h; exact le_max_left _ _
    · exact le_trans (ih x h) (le_max_right _ _)

theorem sliceLoopFuel_eq (clean : GoValue → Option GoValue) (xs : List GoValue)
    (h : ∀ x ∈ xs, clean x = some (removeNullsAndEmpty x)) :
    ∀ result, removeNullsAndEmpty.sliceLoopFuel clean xs result =
      some (removeNullsAndEmpty.sliceLoop xs result) := by
  induction xs with
  | nil => intro result; rfl
  | cons x rest ih =>
    intro result
    have hx := h x (List.mem_cons_self _ _)
    have hrest := ih (fun y hy => h y (List.mem_cons_of_mem _ hy))
    simp only [removeNullsAndEmpty.sliceLoopFuel, removeNullsAndEmpty.sliceLoop, hx]
    by_cases hn : (removeNullsAndEmpty x).isNil = true
    · simp only [hn, if_true]; exact hrest _
    · simp only [hn]; exact hrest _

theorem mapLoopFuel_eq (clean : GoValue → Option GoValue) (m : List (String × GoValue))
    (h : ∀ kv ∈ m, clean kv.2 = some (removeNullsAndEmpty kv.2)) :
    ∀ result, removeNullsAndEmpty.mapLoopFuel clean m result =
      some (removeNullsAndEmpty.mapLoop m result) := by
  induction m with
  | nil => intro result; rfl
  | cons kv rest ih =>
    obtain ⟨k, x⟩ := kv
    intro result
    have hx := h (k, x) (List.mem_cons_self _ _)
    have hrest := ih (fun y hy => h y (List.mem_cons_of_mem _ hy))
    simp only at hx
    simp only [removeNullsAndEmpty.mapLoopFuel, removeNullsAndEmpty.mapLoop, hx]
    by_cases hn : (removeNullsAndEmpty x).isNil = true
    · simp only [hn, if_true]; exact hrest _
    · simp only [hn]; exact hrest _

/-- With more fuel than the depth of the value, the bounded cleaning returns what
`removeNullsAndEmpty` returns. -/
theorem removeNullsAndEmptyFuel_eq : ∀ (fuel : Nat) (g : GoValue), g.depth < fuel →
    removeNullsAndEmptyFuel fuel g = some (removeNullsAndEmpty g) := by
  intro fuel
  induction fuel with
  | zero => intro g h; omega
  | succ fuel ih =>
    intro g h
    cases g with
    | nil => rfl
    | string s => rfl
    | int64 i => rfl
    | float64 f => rfl
    | bool b => rfl
    | bigFloat p => rfl
    | slice xs =>
      simp only [GoValue.depth] at h
      have hl := sliceLoopFuel_eq (removeNullsAndEmptyFuel fuel) xs
        (fun x hx => ih x (by have := goDepth_slice_le xs x hx; omega)) []
      simp only [removeNullsAndEmptyFuel, hl, removeNullsAndEmpty]
    | map m =>
      simp only [GoValue.depth] at h
      have hl := mapLoopFuel_eq (removeNullsAndEmptyFuel fuel) m
        (fun x hx => ih x.2 (by have := goDepth_map_le m x hx; omega)) []
      simp only [removeNullsAndEmptyFuel, hl, removeNullsAndEmpty]

theorem elementsLoopFuel_eq (convert : AttrValue → Option (Except String GoValue))
    (es : List AttrValue) (h : ∀ x ∈ es, convert x = some (attrValueToGoValue x)) :
    ∀ result, attrValueToGoValue.elementsLoopFuel convert es result =
      some (attrValueToGoValue.elementsLoop es result) := by
  induction es with
  | nil => intro result; rfl
  | cons x rest ih =>
    intro result
    have hx := h x (List.mem_cons_self _ _)
    have hrest := ih (fun y hy => h y (List.mem_cons_of_mem _ hy))
    simp only [attrValueToGoValue.elementsLoopFuel, attrValueToGoValue.elementsLoop, hx]
    cases attrValueToGoValue x with
    | error e => rfl
    | ok g => exact hrest _

theorem entriesLoopFuel_eq (convert : AttrValue → Option (Except String GoValue))
    (m : List (String × AttrValue)) (h : ∀ kv ∈ m, convert kv.2 = some (attrValueToGoValue kv.2)) :
    ∀ result, attrValueToGoValue.entriesLoopFuel convert m result =
      some (attrValueToGoValue.entriesLoop m result) := by
  induction m with
  | nil => intro result; rfl
  | cons kv rest ih =>
    obtain ⟨k, x⟩ := kv
    intro result
    have hx := h (k, x) (List.mem_cons_self _ _)
    have hrest := ih (fun y hy => h y (List.mem_cons_of_mem _ hy))
    simp only at hx
    simp only [attrValueToGoValue.entriesLoopFuel, attrValueToGoValue.entriesLoop, hx]
    cases attrValueToGoValue x with
    | error e => rfl
    | ok g => exact hrest _

theorem sliceResult_some (r : Except String (List GoValue)) :
    sliceResult (some r) =
      some (match r with
        | .error err => .error err
        | .ok result => .ok (.slice result)) := by
  cases r <;> rfl

theorem mapResult_some (r : Except String (List (String × GoValue))) :
    mapResult (some r) =
      some (match r with
        | .error err => .error err
        | .ok result => .ok (.map result)) := by
  cases r <;> rfl

/-- With more fuel than the depth of the value, the bounded conversions return what
the two routines return. -/
theorem conversionFuel_eq : ∀ (fuel : Nat) (v : AttrValue), v.depth < fuel →
    attrValueToGoValueFuel fuel v = some (attrValueToGoValue v) ∧
    ∀ st, dynamicToGoValueFuel fuel ⟨st, v⟩ = some (dynamicToGoValue ⟨st, v⟩) := by
  intro fuel
  induction fuel with
  | zero => intro v h; omega
  | succ fuel ih =>
    intro v h
    have hel : ∀ es : List AttrValue, AttrValue.depth.elements es < fuel →
        attrValueToGoValue.elementsLoopFuel (attrValueToGoValueFuel fuel) es [] =
          some (attrValueToGoValue.elementsLoop es []) := fun es hes =>
      elementsLoopFuel_eq _ es
        (fun x hx => (ih x (by have := depth_elements_le es x hx; omega)).1) []
    have hen : ∀ m : List (String × AttrValue), AttrValue.depth.entries m < fuel →
        attrValueToGoValue.entriesLoopFuel (attrValueToGoValueFuel fuel) m [] =
          some (attrValueToGoValue.entriesLoop m []) := fun m hm =>
      entriesLoopFuel_eq _ m
        (fun x hx => (ih x.2 (by have := depth_entries_le m x hx; omega)).1) []
    cases v with
    | nil => exact ⟨rfl, fun _ => rfl⟩
    | string st s => exact ⟨rfl, fun _ => rfl⟩
    | number st n => exact ⟨rfl, fun _ => rfl⟩
    | bool st b => exact ⟨rfl, fun _ => rfl⟩
    | other name st => exact ⟨rfl, fun _ => rfl⟩
    | list st es =>
      simp only [AttrValue.depth] at h
      have hl := hel es (by omega)
      by_cases hst : st = .Null
      · subst hst; exact ⟨rfl, fun _ => rfl⟩
      · simp [attrValueToGoValueFuel, dynamicToGoValueFuel, dynamicToGoValue,
          DynamicValue.UnderlyingValue, hl, hst, sliceResult_some, attrValueToGoValue,
          dynamicToGoValue.switch]
    | tuple st es =>
      simp only [AttrValue.depth] at h
      have hl := hel es (by omega)
      by_cases hst : st = .Null
      · subst hst; exact ⟨rfl, fun _ => rfl⟩
      · simp [attrValueToGoValueFuel, dynamicToGoValueFuel, dynamicToGoValue,
          DynamicValue.UnderlyingValue, hl, hst, sliceResult_some, attrValueToGoValue,
          dynamicToGoValue.switch]
    | set st es =>
      simp only [AttrValue.depth] at h
      have hl := hel es (by omega)
      by_cases hst : st = .Null
      · subst hst; exact ⟨rfl, fun _ => rfl⟩
      · simp [attrValueToGoValueFuel, dynamicToGoValueFuel, dynamicToGoValue,
          DynamicValue.UnderlyingValue, hl, hst, sliceResult_some, attrValueToGoValue,
          dynamicToGoValue.switch]
    | map st m =>
      simp only [AttrValue.depth] at h
      have hl := hen m (by omega)
      by_cases hst : st = .Null
      · subst hst; exact ⟨rfl, fun _ => rfl⟩
      · simp [attrValueToGoValueFuel, dynamicToGoValueFuel, dynamicToGoValue,
          DynamicValue.UnderlyingValue, hl, hst, mapResult_some, attrValueToGoValue,
          dynamicToGoValue.switch]
    | object st m =>
      simp only [AttrValue.depth] at h
      have hl := hen m (by omega)
      by_cases hst : st = .Null
      · subst hst; exact ⟨rfl, fun _ => rfl⟩
      · simp [attrValueToGoValueFuel, dynamicToGoValueFuel, dynamicToGoValue,
          DynamicValue.UnderlyingValue, hl, hst, mapResult_some, attrValueToGoValue,
          dynamicToGoValue.switch]
    | dynamic st u =>
      simp only [AttrValue.depth] at h
      obtain ⟨h1, h2⟩ := ih u (by omega)
      refine ⟨?_, fun st2 => ?_⟩
      · simp only [attrValueToGoValueFuel, h2 st, attr_dynamic, dynamicToGoValue,
          DynamicValue.UnderlyingValue]
      · simp only [dynamicToGoValueFuel, DynamicValue.UnderlyingValue, dynamicToGoValue]
        by_cases hn : u.isNil = true
        · simp [hn, dynamicToGoValue.switch]
        · simp only [hn, h1, switch_dynamic]
          simp

/-! ## The function call -/

theorem run_eq_runWith (marshal : GoValue → Except String String)
    (arguments : Except FuncError DynamicValue) :
    Run marshal arguments = RunWith dynamicToGoValue removeNullsAndEmpty marshal arguments :=
  rfl

theorem dynamic_guards (input : DynamicValue) :
    (input.IsNull = true ↔ input.state = .Null) ∧
    (input.IsUnknown = true ↔ input.state = .Unknown) := by
  simp [DynamicValue.IsNull, DynamicValue.IsUnknown, AttrValue.IsNull, AttrValue.IsUnknown]

theorem known_guards (v : AttrValue) :
    DynamicValue.IsNull ⟨.Known, v⟩ = false ∧ DynamicValue.IsUnknown ⟨.Known, v⟩ = false :=
  ⟨rfl, rfl⟩

/-- `Run` on an argument that passes the two guards, converts and does not clean to
nil: what the marshaller returns for the cleaned value. -/
theorem run_of_converted (marshal : GoValue → Except String String) (input : DynamicValue)
    (hnull : input.IsNull = false) (hunknown : input.IsUnknown = false) (g : GoValue)
    (hg : dynamicToGoValue input = .ok g) (hne : removeNullsAndEmpty g ≠ .nil) :
    Run marshal (.ok input) =
      (match marshal (removeNullsAndEmpty g) with
        | .error err => ⟨some (.func ("Failed to encode YAML: " ++ err)), none⟩
        | .ok yamlBytes => ⟨none, some yamlBytes⟩) := by
  have hn : (removeNullsAndEmpty g).isNil = false := by
    cases h : (removeNullsAndEmpty g).isNil with
    | false => rfl
    | true => exact absurd ((isNil_iff _).mp h) hne
  simp only [Run, hnull, hunknown, hg, hn]
  cases marshal (removeNullsAndEmpty g) <;> simp

/-- `Run` on an argument that passes the two guards and whose every leaf is
absent. -/
theorem run_collapse (marshal : GoValue → Except String String) (input : DynamicValue)
    (hnull : input.IsNull = false) (hunknown : input.IsUnknown = false)
    (habsent : input.value.allAbsent = true) :
    Run marshal (.ok input) = ⟨none, some ""⟩ := by
  obtain ⟨g, hg, hgn⟩ := (allAbsent_collapse input.value habsent).2
  simp [Run, hnull, hunknown, dynamicToGoValue, DynamicValue.UnderlyingValue, hg, hgn,
    GoValue.isNil]

theorem nestedList_depth (n : Nat) (x : AttrValue) : (nestedList n x).depth = n + x.depth := by
  induction n with
  | zero => simp [nestedList]
  | succ n ih =>
    simp only [nestedList, AttrValue.depth, AttrValue.depth.elements, ih]
    simp
    omega

theorem nestedList_allAbsent (n : Nat) (x : AttrValue) (h : x.allAbsent = true) :
    (nestedList n x).allAbsent = true := by
  induction n with
  | zero => simpa [nestedList] using h
  | succ n ih => simp [nestedList, AttrValue.allAbsent, AttrValue.allAbsent.elements, ih]

theorem nestedList_guards (n : Nat) (es : List AttrValue) :
    DynamicValue.IsNull ⟨.Known, nestedList n (.list .Known es)⟩ = false ∧
    DynamicValue.IsUnknown ⟨.Known, nestedList n (.list .Known es)⟩ = false :=
  known_guards _

theorem nestedList_plain (n : Nat) (x : AttrValue) (h : x.plain = true) :
    (nestedList n x).plain = true := by
  induction n with
  | zero => simpa [nestedList] using h
  | succ n ih => simp [nestedList, AttrValue.plain, AttrValue.plain.elements, ih]

theorem nestedList_WF (n : Nat) (x : AttrValue) (h : x.WF) : (nestedList n x).WF := by
  induction n with
  | zero => simpa [nestedList] using h
  | succ n ih => simp [nestedList, AttrValue.WF, AttrValue.WF.elements, ih]

theorem nestedList_hasScalarLeaf (n : Nat) (x : AttrValue) (h : x.hasScalarLeaf = true) :
    (nestedList n x).hasScalarLeaf = true := by
  induction n with
  | zero => simpa [nestedList] using h
  | succ n ih =>
    simp [nestedList, AttrValue.hasScalarLeaf, AttrValue.hasScalarLeaf.elements, ih]

/-- Every error `Run` reports is the error of reading the argument, one of the two
argument errors, a conversion error or an encoding error. -/
theorem run_errors (marshal : GoValue → Except String String)
    (arguments : Except FuncError DynamicValue) (e : FuncError)
    (h : (Run marshal arguments).Error = some e) :
    arguments = .error e ∨
    e = .argument 0 "Input cannot be null" ∨
    e = .argument 0 "Input cannot be unknown" ∨
    (∃ input err, arguments = .ok input ∧ dynamicToGoValue input = .error err ∧
      e = .func ("Failed to convert input: " ++ err)) ∨
    (∃ err, e = .func ("Failed to encode YAML: " ++ err)) := by
  cases arguments with
  | error err =>
    simp only [Run, Option.some.injEq] at h
    exact Or.inl (by rw [h])
  | ok input =>
    cases h1 : input.IsNull with
    | true =>
      simp [Run, h1] at h
      exact Or.inr (Or.inl h.symm)
    | false =>
      cases h2 : input.IsUnknown with
      | true =>
        simp [Run, h1, h2] at h
        exact Or.inr (Or.inr (Or.inl h.symm))
      | false =>
        cases hc : dynamicToGoValue input with
        | error err =>
          simp [Run, h1, h2, hc] at h
          exact Or.inr (Or.inr (Or.inr (Or.inl ⟨input, err, rfl, hc, h.symm⟩)))
        | ok g =>
          cases h3 : (removeNullsAndEmpty g).isNil with
          | true => simp [Run, h1, h2, hc, h3] at h
          | false =>
            cases hm : marshal (removeNullsAndEmpty g) with
            | error err =>
              simp [Run, h1, h2, hc, h3, hm] at h
              exact Or.inr (Or.inr (Or.inr (Or.inr ⟨err, h.symm⟩)))
            | ok y => simp [Run, h1, h2, hc, h3, hm] at h

/-! ## Conversion and the function call: further claims -/

/-- C11. Unsupported shapes fail, all or nothing: each routine fails exactly when
its traversal meets a value of a type it has no case for; a failure carries no
canonical value, and its text is one of the two messages with the Go type name of
such a value; `Run` then reports a function error and sets no result. -/
theorem C11_unsupported_shapes_fail (v : AttrValue) :
    ((∃ err, attrValueToGoValue v = .error err) ↔ v.hasUnsupported = true) ∧
    (∀ st, (∃ err, dynamicToGoValue ⟨st, v⟩ = .error err) ↔ v.hasUnsupported = true) ∧
    (∀ err, attrValueToGoValue v = .error err → unsupportedText v err) ∧
    (∀ st err, dynamicToGoValue ⟨st, v⟩ = .error err → unsupportedText v err) ∧
    (∀ marshal st err, dynamicToGoValue ⟨st, v⟩ = .error err →
      (Run marshal (.ok ⟨st, v⟩)).Result = none ∧
      (∃ e, (Run marshal (.ok ⟨st, v⟩)).Error = some e) ∧
      (DynamicValue.IsNull ⟨st, v⟩ = false → DynamicValue.IsUnknown ⟨st, v⟩ = false →
        Run marshal (.ok ⟨st, v⟩) =
          ⟨some (.func ("Failed to convert input: " ++ err)), none⟩)) := by
  obtain ⟨⟨h1, h2⟩, ⟨h3, h4⟩⟩ := unsupported_spec v
  refine ⟨h1, fun _ => h3, h2, fun _ => h4, ?_⟩
  intro marshal st err herr
  cases hn : DynamicValue.IsNull ⟨st, v⟩ with
  | true => simp [Run, hn]
  | false =>
    cases hk : DynamicValue.IsUnknown ⟨st, v⟩ with
    | true => simp [Run, hn, hk]
    | false => simp [Run, hn, hk, herr]

/-- C11 at `{name: "x", count: <Int64Value>}`, an object with an attribute of a
type the routines have no case for. -/
theorem C11_unsupported_shapes_fail_witness :
    attrValueToGoValue (.object .Known [("name", .string .Known "x"),
        ("count", .other "basetypes.Int64Value" .Known)])
      = .error "unsupported attr.Value type: basetypes.Int64Value" ∧
    Run (fun _ => .ok "unused") (.ok ⟨.Known, .object .Known [("name", .string .Known "x"),
        ("count", .other "basetypes.Int64Value" .Known)]⟩)
      = ⟨some (.func "Failed to convert input: unsupported attr.Value type: basetypes.Int64Value"),
          none⟩ :=
  ⟨rfl,
   ((C11_unsupported_shapes_fail (.object .Known [("name", .string .Known "x"),
        ("count", .other "basetypes.Int64Value" .Known)])).2.2.2.2
      (fun _ => .ok "unused") .Known "unsupported attr.Value type: basetypes.Int64Value"
      rfl).2.2 rfl rfl⟩

/-- C12. A null and an unknown argument are rejected before conversion: `Run` is
`RunWith` at the two routines, and on an argument in the null state, and on an
argument in the unknown state, `RunWith` returns the argument error for position 0
(`Input cannot be null`, `Input cannot be unknown`) and no result whatever the
conversion, the cleaning and the marshaller are, so without calling them.  The two
tests are those of the state of the dynamic value. -/
theorem C12_null_unknown_rejected (input : DynamicValue) :
    (∀ marshal arguments,
      Run marshal arguments = RunWith dynamicToGoValue removeNullsAndEmpty marshal arguments) ∧
    (input.IsNull = true → ∀ convert clean marshal,
      RunWith convert clean marshal (.ok input) =
        ⟨some (.argument 0 "Input cannot be null"), none⟩) ∧
    (input.IsUnknown = true → ∀ convert clean marshal,
      RunWith convert clean marshal (.ok input) =
        ⟨some (.argument 0 "Input cannot be unknown"), none⟩) ∧
    (input.IsNull = true ↔ input.state = .Null) ∧
    (input.IsUnknown = true ↔ input.state = .Unknown) := by
  obtain ⟨hn, hk⟩ := dynamic_guards input
  refine ⟨run_eq_runWith, ?_, ?_, hn, hk⟩
  · intro h convert clean marshal
    simp [RunWith, h]
  · intro h convert clean marshal
    have hnot : input.IsNull = false := by
      cases hc : input.IsNull with
      | false => rfl
      | true =>
        have h1 := hn.mp hc
        have h2 := hk.mp h
        rw [h1] at h2
        cases h2
    simp [RunWith, h, hnot]

/-- C12 at the null dynamic value and at the unknown dynamic value, with a
conversion that would fail and with the routines of `Run`. -/
theorem C12_null_unknown_rejected_witness :
    RunWith (fun _ => .error "unused") (fun g => g) (fun _ => .ok "unused") (.ok ⟨.Null, .nil⟩) =
      ⟨some (.argument 0 "Input cannot be null"), none⟩ ∧
    Run (fun _ => .ok "unused") (.ok ⟨.Null, .nil⟩) =
      ⟨some (.argument 0 "Input cannot be null"), none⟩ ∧
    Run (fun _ => .ok "unused") (.ok ⟨.Unknown, .nil⟩) =
      ⟨some (.argument 0 "Input cannot be unknown"), none⟩ :=
  ⟨(C12_null_unknown_rejected ⟨.Null, .nil⟩).2.1 rfl _ _ _,
   ((C12_null_unknown_rejected ⟨.Null, .nil⟩).1 _ _).trans
      ((C12_null_unknown_rejected ⟨.Null, .nil⟩).2.1 rfl _ _ _),
   ((C12_null_unknown_rejected ⟨.Unknown, .nil⟩).1 _ _).trans
      ((C12_null_unknown_rejected ⟨.Unknown, .nil⟩).2.2.1 rfl _ _ _)⟩

/-- C13. Inputs with content convert and do not collapse: a value built only from
known strings, booleans, numbers, lists and objects (no object listing a key
twice) that has a scalar leaf converts, wrapped as a dynamic value, with no error,
and its conversion does not clean to nil. -/
theorem C13_content_converts_and_survives (v : AttrValue) (hplain : v.plain = true)
    (hwf : v.WF) (hleaf : v.hasScalarLeaf = true) :
    ∃ g, dynamicToGoValue ⟨.Known, v⟩ = .ok g ∧ removeNullsAndEmpty g ≠ .nil := by
  obtain ⟨g, -, h2, h3⟩ := plain_converts v hplain hwf
  exact ⟨g, h2, h3 hleaf⟩

/-- C13 at the three inputs of the test: `{name: "test", enabled: true, count: 3}`,
`{service: {type: "ClusterIP", port: 80}}` and
`{items: ["item1", "item2", "item3"]}`. -/
theorem C13_content_converts_and_survives_witness :
    (∃ g, dynamicToGoValue ⟨.Known, .object .Known [("name", .string .Known "test"),
        ("enabled", .bool .Known true),
        ("count", .number .Known (some ⟨false, .finite, 3, 0⟩))]⟩ = .ok g ∧
      removeNullsAndEmpty g ≠ .nil) ∧
    (∃ g, dynamicToGoValue ⟨.Known, .object .Known [("service", .object .Known
        [("type", .string .Known "ClusterIP"),
         ("port", .number .Known (some ⟨false, .finite, 80, 0⟩))])]⟩ = .ok g ∧
      removeNullsAndEmpty g ≠ .nil) ∧
    (∃ g, dynamicToGoValue ⟨.Known, .object .Known [("items", .list .Known
        [.string .Known "item1", .string .Known "item2", .string .Known "item3"])]⟩ = .ok g ∧
      removeNullsAndEmpty g ≠ .nil) :=
  ⟨C13_content_converts_and_survives _ rfl
      (by simp [AttrValue.WF, AttrValue.WF.entries, uniqueKeys]) rfl,
   C13_content_converts_and_survives _ rfl
      (by simp [AttrValue.WF, AttrValue.WF.entries, uniqueKeys]) rfl,
   C13_content_converts_and_survives _ rfl
      (by simp [AttrValue.WF, AttrValue.WF.entries, AttrValue.WF.elements, uniqueKeys]) rfl⟩

/-- C14. The conversion keeps the structure of a container: a list, tuple or set
that is not null and whose elements all convert becomes a slice of the same
length whose i-th element is the conversion of the i-th element; a map or object
that is not null, lists no key twice and whose values all convert becomes a map
with the same keys, each bound to the conversion of its value. -/
theorem C14_container_structure_preserved (st : ValueState) (hst : st ≠ .Null) :
    (∀ es : List AttrValue, (∀ x ∈ es, ∃ g, attrValueToGoValue x = .ok g) →
      ∃ gs : List GoValue,
        attrValueToGoValue (.list st es) = .ok (.slice gs) ∧
        attrValueToGoValue (.tuple st es) = .ok (.slice gs) ∧
        attrValueToGoValue (.set st es) = .ok (.slice gs) ∧
        dynamicToGoValue ⟨.Known, .list st es⟩ = .ok (.slice gs) ∧
        gs.length = es.length ∧
        ∀ i (h1 : i < es.length) (h2 : i < gs.length),
          attrValueToGoValue (es.get ⟨i, h1⟩) = .ok (gs.get ⟨i, h2⟩)) ∧
    (∀ m : List (String × AttrValue), uniqueKeys m →
      (∀ kv ∈ m, ∃ g, attrValueToGoValue kv.2 = .ok g) →
      ∃ r : List (String × GoValue),
        attrValueToGoValue (.map st m) = .ok (.map r) ∧
        attrValueToGoValue (.object st m) = .ok (.map r) ∧
        dynamicToGoValue ⟨.Known, .object st m⟩ = .ok (.map r) ∧
        r.map Prod.fst = m.map Prod.fst ∧
        ∀ k, (mapGet r k).map Except.ok = (mapGet m k).map attrValueToGoValue) := by
  constructor
  · intro es hall
    obtain ⟨hc, ht, hs, hd, -, -⟩ := (container_conversion st hst).1 es
    rcases elementsLoop_cases es [] with ⟨gs, hgs, hl⟩ | ⟨x, hx, err, hxe, -⟩
    · rw [hl] at hc
      simp only [List.nil_append] at hc
      exact ⟨gs, hc, ht.trans hc, hs.trans hc, hd.trans hc, hgs.length_eq.symm,
        fun i h1 h2 => hgs.get h1 h2⟩
    · obtain ⟨g, hg⟩ := hall x hx
      rw [hg] at hxe
      exact Except.noConfusion hxe
  · intro m hu hall
    obtain ⟨hc, ho, -, hd⟩ := (container_conversion st hst).2 m
    rcases entriesLoop_cases m [] with ⟨gs, hgs, hl⟩ | ⟨x, hx, err, hxe, -⟩
    · obtain ⟨-, hset⟩ := entriesLoop_unique m hu gs hgs
      rw [hl, hset] at hc
      simp only at hc
      exact ⟨gs, hc, ho.trans hc, hd.trans hc, forall₂_keys hgs, forall₂_mapGet hgs⟩
    · obtain ⟨g, hg⟩ := hall x hx
      rw [hg] at hxe
      exact Except.noConfusion hxe

/-- C14 at the set `{"b", "a"}`, listed in that order, and at the object
`{port: 80, type: "ClusterIP"}`. -/
theorem C14_container_structure_preserved_witness :
    (∃ gs : List GoValue,
      attrValueToGoValue (.set .Known [.string .Known "b", .string .Known "a"])
        = .ok (.slice gs) ∧ gs.length = 2) ∧
    (∃ r : List (String × GoValue),
      attrValueToGoValue (.object .Known [("port", .number .Known (some ⟨false, .finite, 80, 0⟩)),
        ("type", .string .Known "ClusterIP")]) = .ok (.map r) ∧
      r.map Prod.fst = ["port", "type"]) := by
  constructor
  · obtain ⟨gs, -, -, h3, -, h5, -⟩ :=
      (C14_container_structure_preserved .Known (by decide)).1
        [.string .Known "b", .string .Known "a"]
        (by
          intro x hx
          simp only [List.mem_cons, List.mem_singleton, List.not_mem_nil, or_false] at hx
          rcases hx with h | h <;> subst h <;> exact ⟨_, rfl⟩)
    exact ⟨gs, h3, h5⟩
  · obtain ⟨r, -, h2, -, h4, -⟩ :=
      (C14_container_structure_preserved .Known (by decide)).2
        [("port", .number .Known (some ⟨false, .finite, 80, 0⟩)),
          ("type", .string .Known "ClusterIP")]
        (by simp [uniqueKeys])
        (by
          intro x hx
          simp only [List.mem_cons, List.mem_singleton, List.not_mem_nil, or_false] at hx
          rcases hx with h | h <;> subst h <;> exact ⟨_, rfl⟩)
    exact ⟨r, h2, h4⟩

/-- C15. A null value of any shape converts to absent: a null string, number,
boolean, list, tuple, set, map, object or dynamic value converts, by either
routine, to nil with no error, and does so as an element of a list or the value of
an attribute, so a null container does not become an empty container. -/
theorem C15_null_converts_to_absent (v : AttrValue) (hnull : v.nullValued = true) :
    attrValueToGoValue v = .ok .nil ∧
    (∀ st, dynamicToGoValue ⟨st, v⟩ = .ok .nil) ∧
    (∀ st, st ≠ .Null → ∀ (before after : List AttrValue) (gbefore gafter : List GoValue),
      List.Forall₂ (fun x g => attrValueToGoValue x = .ok g) before gbefore →
      List.Forall₂ (fun x g => attrValueToGoValue x = .ok g) after gafter →
      attrValueToGoValue (.list st (before ++ v :: after))
        = .ok (.slice (gbefore ++ .nil :: gafter))) ∧
    (∀ st, st ≠ .Null → ∀ key,
      attrValueToGoValue (.object st [(key, v)]) = .ok (.map [(key, .nil)])) := by
  obtain ⟨h1, h2⟩ := nullValued_converts v hnull
  refine ⟨h1, fun _ => h2, ?_, ?_⟩
  · intro st hst before after gbefore gafter hb ha
    have hall : List.Forall₂ (fun x g => attrValueToGoValue x = .ok g)
        (before ++ v :: after) (gbefore ++ .nil :: gafter) :=
      List.rel_append hb (List.Forall₂.cons h1 ha)
    rw [((container_conversion st hst).1 _).1]
    rcases elementsLoop_cases (before ++ v :: after) [] with ⟨gs, hgs, hl⟩ | ⟨x, hx, err, hxe, -⟩
    · have hgs2 : gs = gbefore ++ .nil :: gafter := by
        have hright : Relator.RightUnique
            (fun (x : AttrValue) (g : GoValue) => attrValueToGoValue x = .ok g) := by
          intro x a b ha hb
          rw [ha] at hb
          exact Except.ok.inj hb
        exact hright.forall₂ hgs hall
      rw [hl, hgs2]
      rfl
    · obtain ⟨g, -, hg⟩ := forall₂_ok_of_mem hall x hx
      rw [hg] at hxe
      exact Except.noConfusion hxe
  · intro st hst key
    rw [((container_conversion st hst).2 _).2.1, ((container_conversion st hst).2 _).1]
    simp [attrValueToGoValue.entriesLoop, h1, mapSet]

/-- C15 at the null list, at the null dynamic value, at a dynamic value around a
null object, and at `{a: null, b: "x"}` and `["x", null]`. -/
theorem C15_null_converts_to_absent_witness :
    attrValueToGoValue (.list .Null []) = .ok .nil ∧
    attrValueToGoValue (.dynamic .Null .nil) = .ok .nil ∧
    dynamicToGoValue ⟨.Known, .dynamic .Known (.object .Null [])⟩ = .ok .nil ∧
    attrValueToGoValue (.object .Known [("a", .map .Null [])]) = .ok (.map [("a", .nil)]) ∧
    attrValueToGoValue (.list .Known ([.string .Known "x"] ++ .set .Null [] :: []))
      = .ok (.slice ([.string "x"] ++ .nil :: [])) :=
  ⟨(C15_null_converts_to_absent (.list .Null []) rfl).1,
   (C15_null_converts_to_absent (.dynamic .Null .nil) rfl).1,
   (C15_null_converts_to_absent (.dynamic .Known (.object .Null [])) rfl).2.1 .Known,
   (C15_null_converts_to_absent (.map .Null []) rfl).2.2.2 .Known (by decide) "a",
   (C15_null_converts_to_absent (.set .Null []) rfl).2.2.1 .Known (by decide)
      [.string .Known "x"] [] [.string "x"] []
      (List.Forall₂.cons rfl List.Forall₂.nil) List.Forall₂.nil⟩

/-- C16, as the claim states it, fails: there is no maximum nesting depth beyond
which `Run` reports an error, since for every bound there is an argument nested
more deeply, lists within lists, on which `Run` reports no error and sets the
result; so it is at depth 4. -/
theorem C16_too_deep_counterexample :
    (¬ ∃ maxDepth : Nat, ∀ (marshal : GoValue → Except String String) (input : DynamicValue),
      maxDepth < input.value.depth → (Run marshal (.ok input)).Error ≠ none) ∧
    (AttrValue.list .Known [.list .Known [.list .Known [.list .Known []]]]).depth = 4 ∧
    Run (fun _ => .ok "unused")
      (.ok ⟨.Known, .list .Known [.list .Known [.list .Known [.list .Known []]]]⟩)
      = ⟨none, some ""⟩ := by
  refine ⟨?_, rfl, rfl⟩
  rintro ⟨maxDepth, h⟩
  have hd : maxDepth < (nestedList maxDepth (.list .Known [])).depth := by
    rw [nestedList_depth]
    simp [AttrValue.depth, AttrValue.depth.elements]
  have hrun := run_collapse (fun _ => .ok "unused") ⟨.Known, nestedList maxDepth (.list .Known [])⟩
    (nestedList_guards maxDepth []).1 (nestedList_guards maxDepth []).2
    (nestedList_allAbsent maxDepth _ rfl)
  exact h (fun _ => .ok "unused") ⟨.Known, nestedList maxDepth (.list .Known [])⟩ hd
    (by rw [hrun])

/-- C16, amended. The code has no maximum nesting depth and no error for depth
(the call stack of the Go runtime is not part of this statement): for every `n`,
on lists nested more than `n` deep around nothing `Run` reports no error and sets
the result to the empty string; on lists nested `n` deep around a string the
conversion succeeds, the cleaned value is not nil, and `Run` returns what the
marshaller returns for the cleaned value, its text as the result or its error as
the encoding error; the only errors `Run` reports are the error of reading the
argument, the two argument errors, the conversion error and the encoding error. -/
theorem C16_no_depth_limit :
    (∀ (n : Nat) (marshal : GoValue → Except String String),
      n < (nestedList n (.list .Known [])).depth ∧
      Run marshal (.ok ⟨.Known, nestedList n (.list .Known [])⟩) = ⟨none, some ""⟩) ∧
    (∀ (n : Nat) (s : String), ∃ g,
      (nestedList n (.string .Known s)).depth = n ∧
      dynamicToGoValue ⟨.Known, nestedList n (.string .Known s)⟩ = .ok g ∧
      removeNullsAndEmpty g ≠ .nil ∧
      ∀ marshal : GoValue → Except String String,
        Run marshal (.ok ⟨.Known, nestedList n (.string .Known s)⟩) =
          (match marshal (removeNullsAndEmpty g) with
            | .error err => ⟨some (.func ("Failed to encode YAML: " ++ err)), none⟩
            | .ok yamlBytes => ⟨none, some yamlBytes⟩)) ∧
    (∀ (marshal : GoValue → Except String String) (arguments : Except FuncError DynamicValue)
        (e : FuncError), (Run marshal arguments).Error = some e →
      arguments = .error e ∨
      e = .argument 0 "Input cannot be null" ∨
      e = .argument 0 "Input cannot be unknown" ∨
      (∃ input err, arguments = .ok input ∧ dynamicToGoValue input = .error err ∧
        e = .func ("Failed to convert input: " ++ err)) ∨
      (∃ err, e = .func ("Failed to encode YAML: " ++ err))) := by
  refine ⟨?_, ?_, run_errors⟩
  · intro n marshal
    refine ⟨?_, run_collapse marshal _ (nestedList_guards n []).1 (nestedList_guards n []).2
      (nestedList_allAbsent n _ rfl)⟩
    rw [nestedList_depth]
    simp [AttrValue.depth, AttrValue.depth.elements]
  · intro n s
    obtain ⟨g, -, h2, h3⟩ := plain_converts (nestedList n (.string .Known s))
      (nestedList_plain n _ rfl) (nestedList_WF n _ (by simp [AttrValue.WF]))
    have hne := h3 (nestedList_hasScalarLeaf n _ rfl)
    refine ⟨g, ?_, h2, hne, fun marshal => ?_⟩
    · rw [nestedList_depth]
      simp [AttrValue.depth]
    · exact run_of_converted marshal _ (known_guards _).1 (known_guards _).2 g h2 hne

/-- C18. Dynamic wrappers are transparent and the two routines agree: a value under
one or more dynamic wrappers, in any states, converts exactly when the bare value
converts, and then to the same canonical value, by `attrValueToGoValue` and by
`dynamicToGoValue`; in particular `dynamicToGoValue` of a dynamic value around `x`
and `attrValueToGoValue x` both fail or return the same value. -/
theorem C18_dynamic_wrappers_transparent (x : AttrValue) :
    (∀ st states,
      agree (attrValueToGoValue (wrapDynamic (st :: states) x)) (attrValueToGoValue x)) ∧
    (∀ st states,
      agree (dynamicToGoValue ⟨st, wrapDynamic states x⟩) (attrValueToGoValue x)) ∧
    (∀ st, agree (dynamicToGoValue ⟨st, x⟩) (attrValueToGoValue x)) ∧
    (∀ st states g,
      attrValueToGoValue (wrapDynamic (st :: states) x) = .ok g ↔
        attrValueToGoValue x = .ok g) ∧
    (∀ st states g,
      dynamicToGoValue ⟨st, wrapDynamic states x⟩ = .ok g ↔ attrValueToGoValue x = .ok g) := by
  have h1 : ∀ st states,
      agree (attrValueToGoValue (wrapDynamic (st :: states) x)) (attrValueToGoValue x) :=
    fun st states => wrapDynamic_agree x (st :: states)
  have h2 : ∀ st states,
      agree (dynamicToGoValue ⟨st, wrapDynamic states x⟩) (attrValueToGoValue x) :=
    fun st states => agree_trans (routines_agree _) (wrapDynamic_agree x states)
  exact ⟨h1, h2, fun st => h2 st [], fun st states g => agree_ok_iff (h1 st states) g,
    fun st states g => agree_ok_iff (h2 st states) g⟩

/-- C19. Both stages terminate, with nested calls no deeper than the value: the
two conversion routines and `removeNullsAndEmpty` are total, and bounded to `fuel`
nested calls they return the same result as soon as `fuel` exceeds the nesting
depth of the value, every call being made on an element, on the value of an entry
or on the value under a dynamic wrapper. -/
theorem C19_total_and_depth_bounded :
    (∀ (fuel : Nat) (v : AttrValue), v.depth < fuel →
      attrValueToGoValueFuel fuel v = some (attrValueToGoValue v)) ∧
    (∀ (fuel : Nat) (dynamic : DynamicValue), dynamic.value.depth < fuel →
      dynamicToGoValueFuel fuel dynamic = some (dynamicToGoValue dynamic)) ∧
    (∀ (fuel : Nat) (g : GoValue), g.depth < fuel →
      removeNullsAndEmptyFuel fuel g = some (removeNullsAndEmpty g)) :=
  ⟨fun fuel v h => (conversionFuel_eq fuel v h).1,
   fun fuel dynamic h => (conversionFuel_eq fuel dynamic.value h).2 dynamic.state,
   removeNullsAndEmptyFuel_eq⟩

/-- C19 at `{a: [1, null]}` under a dynamic wrapper, of depth 4 (the null is a
dynamic value), with fuel 5, and at its conversion `{a: [1, nil]}`, of depth 2,
with fuel 3; with fuel 1 the list `["x"]`, of depth 1, is not converted. -/
theorem C19_total_and_depth_bounded_witness :
    attrValueToGoValueFuel 5 (.dynamic .Known (.object .Known
        [("a", .tuple .Known [.number .Known (some ⟨false, .finite, 1, 0⟩),
          .dynamic .Null .nil])]))
      = some (.ok (.map [("a", .slice [.int64 1, .nil])])) ∧
    dynamicToGoValueFuel 4 ⟨.Known, .object .Known
        [("a", .tuple .Known [.number .Known (some ⟨false, .finite, 1, 0⟩),
          .dynamic .Null .nil])]⟩
      = some (.ok (.map [("a", .slice [.int64 1, .nil])])) ∧
    removeNullsAndEmptyFuel 3 (.map [("a", .slice [.int64 1, .nil])])
      = some (.map [("a", .slice [.int64 1])]) ∧
    attrValueToGoValueFuel 1 (.list .Known [.string .Known "x"]) = none :=
  ⟨C19_total_and_depth_bounded.1 5 _ (by decide),
   C19_total_and_depth_bounded.2.1 4 _ (by decide),
   C19_total_and_depth_bounded.2.2 3 _ (by decide),
   rfl⟩

end HelmValuesEncode
